import Mathlib

/-!
# A cron-style scheduler: field iterators, parser and next-fire-time engine

Shallow embedding of `ticker.go`, `schedule.go` and the concurrency limit of
`runner.go`.

* Go's `int` is a 64-bit two's complement integer.  Ticker values are `Int`s and
  the one place where the program adds a user-supplied step to a counter
  (`curr += step`) wraps explicitly (`wrapInt`).
* A `time.Time` is modelled by its Unix time in seconds (an `Int`), in UTC.
  The functions of package `time` that the program calls (`Date`, `Year`,
  `Weekday`, `AddDate`, `Truncate`) are modelled in namespace `Time` on the
  proleptic Gregorian calendar.
* Pointer-shared mutable iterators become values; every method that mutates
  its receiver returns the new value.
* Loops and recursion that need not terminate (`Scheduler.next`,
  `Scheduler.reset`, `Scheduler.alignDayOfWeek`) take a fuel argument and
  return `Except Fault _`: `Fault.fuel` when the fuel runs out and
  `Fault.index` for a run-time panic (index out of range).
* Goroutines, timers and contexts are an environment: the loop of
  `Scheduler.Run` reads, turn by turn, the time and the executions that have
  returned, and a `limitRunner` sees calls start and return one at a time.
-/

namespace Cron

/-! ## Machine integers -/

/-- Two's complement wrap-around of a 64-bit signed integer. -/
def wrapInt (x : Int) : Int :=
  (x + 9223372036854775808) % 18446744073709551616 - 9223372036854775808

/-! ## Package `time` (UTC) -/

namespace Time

/-- Gregorian leap year rule used inside package `time`. -/
def isLeapYear (year : Int) : Bool :=
  year % 4 == 0 && (year % 100 != 0 || year % 400 == 0)

/-- Number of days from 1970-01-01 to January 1st of `year`. -/
def daysBeforeYear (year : Int) : Int :=
  365 * (year - 1970) + ((year - 1) / 4 - (year - 1) / 100 + (year - 1) / 400) - 477

/-- Table `daysBefore` of package `time`: the days of a common year before
each month, and the length of the year. -/
def daysBefore : List Int := [0, 31, 59, 90, 120, 151, 181, 212, 243, 273, 304, 334, 365]

/-- Number of days of the year before the first day of the month with
zero-based index `m` (0 = January). -/
def daysBeforeMonth (m : Int) (leap : Bool) : Int :=
  daysBefore.getD m.toNat 0 + (if leap && decide (2 ≤ m) then 1 else 0)

/-- The Unix time of `time.Date(year, month, day, hour, min, sec, 0, time.UTC)`.
Out-of-range values are normalised as `time.Date` does: the month overflows
into the year, and day, hour, minute and second count linearly. -/
def Date (year month day hour min sec : Int) : Int :=
  let m := month - 1
  let y := year + m / 12
  let m := m % 12
  (daysBeforeYear y + daysBeforeMonth m (isLeapYear y) + (day - 1)) * 86400
    + hour * 3600 + min * 60 + sec

/-- Day number (days since 1970-01-01) of a Unix time. -/
def dayNumber (t : Int) : Int := t / 86400

/-- Year in which day number `d` falls. -/
def yearOfDay (d : Int) : Int :=
  let e := 1970 + (400 * d) / 146097
  if daysBeforeYear (e + 1) ≤ d then e + 1
  else if d < daysBeforeYear e then e - 1
  else e

/-- The call `t.Year()`. -/
def Year (t : Int) : Int := yearOfDay (dayNumber t)

/-- Zero-based day of the year of `t`. -/
def yearDay (t : Int) : Int := dayNumber t - daysBeforeYear (Year t)

/-- Zero-based month index of the day `yd` of a year: the estimate `yd / 31`
is the index or one less. -/
def monthIndex (yd : Int) (leap : Bool) : Int :=
  let m := yd / 31
  if daysBeforeMonth (m + 1) leap ≤ yd then m + 1 else m

/-- The call `t.Month()` (1 = January). -/
def Month (t : Int) : Int := monthIndex (yearDay t) (isLeapYear (Year t)) + 1

/-- The call `t.Day()`. -/
def Day (t : Int) : Int :=
  yearDay t - daysBeforeMonth (monthIndex (yearDay t) (isLeapYear (Year t))) (isLeapYear (Year t)) + 1

/-- The call `t.Hour()`. -/
def Hour (t : Int) : Int := (t % 86400) / 3600

/-- The call `t.Minute()`. -/
def Minute (t : Int) : Int := (t % 3600) / 60

/-- The call `t.Second()`. -/
def Second (t : Int) : Int := t % 60

/-- The call `t.Weekday()`: 0 = Sunday, ..., 6 = Saturday. -/
def Weekday (t : Int) : Int := (dayNumber t + 4) % 7

/-- The call `t.AddDate(years, 0, days)`. -/
def AddDate (years days : Int) (t : Int) : Int :=
  Date (Year t + years) (Month t) (Day t + days) (Hour t) (Minute t) (Second t)

/-- The call `t.Truncate(time.Minute)`. -/
def Truncate (t : Int) : Int := t - t % 60

end Time

/-! ## Field iterators (`ticker.go`) -/

/-- The implementations of interface `Ticker`: `*single`, `*interval`, `*list`
and `*frozen`.  The unused struct `tick` is left out. -/
inductive Ticker where
  | single (base curr prev step : Int) (all : Bool) (lower upper : Int)
  | interval (min max step curr prev : Int)
  | list (ptr pptr : Nat) (es : List Ticker)
  | frozen (t : Ticker)
deriving Repr, Inhabited

namespace Ticker
mutual
/-- Equality of iterators is decidable. -/
def decEq : (a b : Ticker) → Decidable (a = b)
  | .single a1 a2 a3 a4 a5 a6 a7, .single b1 b2 b3 b4 b5 b6 b7 =>
    if h : a1 = b1 ∧ a2 = b2 ∧ a3 = b3 ∧ a4 = b4 ∧ a5 = b5 ∧ a6 = b6 ∧ a7 = b7 then
      isTrue (by obtain ⟨h1, h2, h3, h4, h5, h6, h7⟩ := h; rw [h1, h2, h3, h4, h5, h6, h7])
    else isFalse (fun e => h (by injection e with e1 e2 e3 e4 e5 e6 e7; exact ⟨e1, e2, e3, e4, e5, e6, e7⟩))
  | .interval a1 a2 a3 a4 a5, .interval b1 b2 b3 b4 b5 =>
    if h : a1 = b1 ∧ a2 = b2 ∧ a3 = b3 ∧ a4 = b4 ∧ a5 = b5 then
      isTrue (by obtain ⟨h1, h2, h3, h4, h5⟩ := h; rw [h1, h2, h3, h4, h5])
    else isFalse (fun e => h (by injection e with e1 e2 e3 e4 e5; exact ⟨e1, e2, e3, e4, e5⟩))
  | .list p q es, .list p2 q2 es2 =>
    match decEqList es es2 with
    | isTrue he =>
      if h : p = p2 ∧ q = q2 then isTrue (by rw [h.1, h.2, he])
      else isFalse (fun e => h (by injection e with e1 e2 e3; exact ⟨e1, e2⟩))
    | isFalse he => isFalse (fun e => he (by injection e))
  | .frozen a, .frozen b =>
    match decEq a b with
    | isTrue h => isTrue (by rw [h])
    | isFalse h => isFalse (fun e => h (by injection e))
  | .single _ _ _ _ _ _ _, .interval _ _ _ _ _ => isFalse nofun
  | .single _ _ _ _ _ _ _, .list _ _ _ => isFalse nofun
  | .single _ _ _ _ _ _ _, .frozen _ => isFalse nofun
  | .interval _ _ _ _ _, .single _ _ _ _ _ _ _ => isFalse nofun
  | .interval _ _ _ _ _, .list _ _ _ => isFalse nofun
  | .interval _ _ _ _ _, .frozen _ => isFalse nofun
  | .list _ _ _, .single _ _ _ _ _ _ _ => isFalse nofun
  | .list _ _ _, .interval _ _ _ _ _ => isFalse nofun
  | .list _ _ _, .frozen _ => isFalse nofun
  | .frozen _, .single _ _ _ _ _ _ _ => isFalse nofun
  | .frozen _, .interval _ _ _ _ _ => isFalse nofun
  | .frozen _, .list _ _ _ => isFalse nofun
/-- Equality of lists of iterators is decidable. -/
def decEqList : (as bs : List Ticker) → Decidable (as = bs)
  | [], [] => isTrue rfl
  | [], _ :: _ => isFalse nofun
  | _ :: _, [] => isFalse nofun
  | a :: as, b :: bs =>
    match decEq a b, decEqList as bs with
    | isTrue h1, isTrue h2 => isTrue (by rw [h1, h2])
    | isFalse h1, _ => isFalse (fun e => h1 (by injection e))
    | _, isFalse h2 => isFalse (fun e => h2 (by injection e))
end
end Ticker

instance : DecidableEq Ticker := Ticker.decEq

deriving instance DecidableEq for Except

/-- Run-time failures of the looping parts of the program. -/
inductive Fault where
  | fuel
  | index
deriving Repr, DecidableEq

namespace Ticker

/-- Value standing for an element access outside of a slice; never reached
for the lists that `Parse` builds (their pointer stays below their length). -/
def nil : Ticker := .single 0 0 0 0 false 0 0

/-- Method `All`. -/
def All : Ticker → Bool
  | .single _ _ _ _ all _ _ => all
  | .interval _ _ _ _ _ => false
  | .list _ _ _ => false
  | .frozen t => t.All

/-- Method `one`. -/
def one : Ticker → Bool
  | .single _ _ _ step _ _ _ => step == 0
  | .interval _ _ _ _ _ => false
  | .list _ _ _ => false
  | .frozen t => t.one

mutual
/-- Method `Curr`. -/
def Curr : Ticker → Int
  | .single _ curr _ _ _ _ _ => curr
  | .interval _ _ _ curr _ => curr
  | .list ptr _ es => currAt es ptr
  | .frozen t => t.Curr
/-- The expression `es[i].Curr()`. -/
def currAt : List Ticker → Nat → Int
  | [], _ => 0
  | e :: _, 0 => e.Curr
  | _ :: es, i + 1 => currAt es i
end

mutual
/-- Method `isReset`. -/
def isReset : Ticker → Bool
  | .single base curr prev _ _ lower _ => curr != prev && (curr == lower || curr == base)
  | .interval min _ _ curr prev => curr != prev && curr == min
  | .list ptr pptr es => ptr != pptr && ptr == 0 && isResetAt es ptr
  | .frozen t => t.isReset
/-- The expression `es[i].isReset()`. -/
def isResetAt : List Ticker → Nat → Bool
  | [], _ => false
  | e :: _, 0 => e.isReset
  | _ :: es, i + 1 => isResetAt es i
end

mutual
/-- Method `reset`. -/
def reset : Ticker → Ticker
  | .single base _ prev step all lower upper => .single base base prev step all lower upper
  | .interval min max step _ prev => .interval min max step min prev
  | .list _ pptr es => .list 0 pptr (resetAll es)
  | .frozen t => .frozen t.reset
/-- The loop `for j := range es { es[j].reset() }`. -/
def resetAll : List Ticker → List Ticker
  | [] => []
  | e :: es => e.reset :: resetAll es
end

mutual
/-- Method `By`. -/
def By : Ticker → Int → Ticker
  | .single base curr prev _ all lower upper, by_ => .single base curr prev by_ all lower upper
  | .interval min max _ curr prev, by_ => .interval min max by_ curr prev
  | .list ptr pptr es, by_ => .list ptr pptr (byAll es by_)
  | .frozen t, by_ => .frozen (t.By by_)
/-- The loop `for j := range es { es[j].By(s) }`. -/
def byAll : List Ticker → Int → List Ticker
  | [], _ => []
  | e :: es, by_ => e.By by_ :: byAll es by_
end

mutual
/-- Method `Next`. -/
def Next : Ticker → Ticker
  | .single base curr prev step all lower upper =>
    if step == 0 then .single base curr prev step all lower upper
    else
      let prev := curr
      let curr := wrapInt (curr + step)
      if curr > upper then .single base base prev step all lower upper
      else .single base curr prev step all lower upper
  | .interval min max step curr _ =>
    let prev := curr
    let curr := wrapInt (curr + step)
    if curr > max then .interval min max step min prev
    else .interval min max step curr prev
  | .list ptr _ es =>
    let pptr := ptr
    let es := nextAt es ptr
    if (es.getD ptr nil).one || (es.getD ptr nil).isReset then
      .list ((ptr + 1) % es.length) pptr es
    else .list ptr pptr es
  | .frozen t => .frozen t
/-- The statement `es[i].Next()`. -/
def nextAt : List Ticker → Nat → List Ticker
  | [], _ => []
  | e :: es, 0 => e.Next :: es
  | e :: es, i + 1 => e :: nextAt es i
end

end Ticker

/-- Constructor `Single`. -/
def Single (base min max : Int) : Ticker :=
  (Ticker.single base 0 0 0 false min max).reset

/-- Constructor `All`. -/
def All (min max : Int) : Ticker :=
  (Ticker.single min 0 0 1 true min max).reset

/-- Constructor `Interval`. -/
def Interval (from_ to_ min max : Int) : Ticker :=
  let from_ := if from_ < min then min else from_
  let to_ := if to_ > max then max else to_
  (Ticker.interval from_ to_ 1 0 0).reset

/-- Constructor `List` (renamed, the name `List` being taken). -/
def ListOf (es : List Ticker) : Ticker := .list 0 0 es

/-- Function `unfreeze`. -/
def unfreeze : Ticker → Ticker
  | .frozen t => t
  | x => x

/-- Function `freeze`. -/
def freeze : Ticker → Ticker
  | .frozen t => .frozen t
  | x => .frozen x

/-! ## Packages `strings` and `strconv` -/

namespace Strings

/-- Splits `s` at the first occurrence of `sep`: the text before it and the
text after it, or `none` when `sep` does not occur. -/
def cutAt (sep : List Char) : List Char → Option (List Char × List Char)
  | [] => if sep.isEmpty then some ([], []) else none
  | c :: cs =>
    if sep.isPrefixOf (c :: cs) then some ([], (c :: cs).drop sep.length)
    else match cutAt sep cs with
      | some (before, after) => some (c :: before, after)
      | none => none

/-- The call `strings.Cut(s, sep)`. -/
def Cut (s sep : List Char) : List Char × List Char × Bool :=
  match cutAt sep s with
  | some (before, after) => (before, after, true)
  | none => (s, [], false)

/-- Lower case of one character: the ASCII letters, and the two characters
outside ASCII whose lower case is an ASCII letter (U+0130 and U+212A); the
other characters outside ASCII are kept as they are. -/
def lowerChar (c : Char) : Char :=
  if 65 ≤ c.toNat ∧ c.toNat ≤ 90 then Char.ofNat (c.toNat + 32)
  else if c.toNat = 304 then 'i'
  else if c.toNat = 8490 then 'k'
  else c

/-- The call `strings.ToLower(s)`. -/
def ToLower (s : List Char) : List Char := s.map lowerChar

end Strings

/-- Errors returned by the parser and the constructors. -/
inductive Err where
  /-- The error `syntax error: empty`. -/
  | syntaxEmpty
  /-- A `*strconv.NumError` of `strconv.Atoi`, for the text `s`;
  `range` tells `strconv.ErrRange` from `strconv.ErrSyntax`. -/
  | num (s : List Char) (range : Bool)
  /-- An error wrapping `ErrInvalid`. -/
  | invalid (x : List Char)
  /-- An error wrapping `ErrRange`. -/
  | range (v : List Char) (min max : Int)
  /-- The error of `ScheduleFromList` for a list that has not five elements. -/
  | arity (n : Nat)
deriving Repr, DecidableEq

namespace Strconv

/-- Value of a string of decimal digits, `none` when a character is not a
digit. -/
def digits : List Char → Nat → Option Nat
  | [], acc => some acc
  | c :: cs, acc =>
    if 48 ≤ c.toNat ∧ c.toNat ≤ 57 then digits cs (acc * 10 + (c.toNat - 48)) else none

/-- The call `strconv.Atoi(s)`: an optional sign followed by one or more
decimal digits, the value being within the 64-bit integers. -/
def Atoi (s : List Char) : Except Err Int :=
  let body := match s with
    | '-' :: cs => cs
    | '+' :: cs => cs
    | cs => cs
  let neg := match s with
    | '-' :: _ => true
    | _ => false
  if body.isEmpty then .error (.num s false)
  else match digits body 0 with
    | none => .error (.num s false)
    | some n =>
      let v : Int := if neg then -(n : Int) else (n : Int)
      if v < -9223372036854775808 ∨ v > 9223372036854775807 then .error (.num s true)
      else .ok v

end Strconv

/-! ## Field parser (`ticker.go`) -/

/-- Variable `Separator`. -/
def Separator : List Char := [';']

/-- Variable `daynames`. -/
def daynames : List (List Char) :=
  ["mon".toList, "tue".toList, "wed".toList, "thu".toList, "fri".toList, "sat".toList,
   "sun".toList]

/-- Variable `monthnames`. -/
def monthnames : List (List Char) :=
  ["jan".toList, "feb".toList, "mar".toList, "apr".toList, "mai".toList, "jun".toList,
   "jul".toList, "aug".toList, "sep".toList, "oct".toList, "nov".toList, "dec".toList]

/-- Function `hasError`. -/
def hasError : List (Option Err) → Option Err
  | [] => none
  | some e :: _ => some e
  | none :: es => hasError es

/-- Function `rangeError`. -/
def rangeError (v : List Char) (min max : Int) : Err := .range v min max

/-- The loop of `atoi` over the name table, `i` being the index of the head
of `names`. -/
def lookupName (x : List Char) : List (List Char) → Nat → Option Nat
  | [], _ => none
  | n :: names, i => if x = n then some i else lookupName x names (i + 1)

/-- Function `atoi`: the value and the error it returns. -/
def atoi (x : List Char) (names : List (List Char)) : Int × Option Err :=
  match Strconv.Atoi x with
  | .ok n => (n, none)
  | .error _ =>
    let x := Strings.ToLower x
    match lookupName x names 0 with
    | some i => ((i : Int) + 1, none)
    | none => (0, some (.invalid x))

/-- The part of `createSingle` that follows the reading of the step `s`. -/
def createSingleStep (base : List Char) (s : Int) (names : List (List Char)) (min max : Int) :
    Except Err Ticker :=
  if base = ['*'] then
    let e := All min max
    .ok (if s > 0 then e.By s else e)
  else
    match atoi base names with
    | (_, some err) => .error err
    | (b, none) =>
      if b < min ∨ b > max then .error (rangeError base min max)
      else .ok ((Single b min max).By s)

/-- Function `createSingle`.  When `strconv.Atoi` fails on an empty step the
step is the zero that `Atoi` returns with its error. -/
def createSingle (base step : List Char) (names : List (List Char)) (min max : Int) :
    Except Err Ticker :=
  match Strconv.Atoi step with
  | .error e => if step ≠ [] then .error e else createSingleStep base 0 names min max
  | .ok s => createSingleStep base s names min max

/-- Function `createInterval`. -/
def createInterval (from_ to_ step : List Char) (names : List (List Char)) (min max : Int) :
    Except Err Ticker :=
  let (f, err1) := atoi from_ names
  let (t, err2) := atoi to_ names
  let s : Except Err Int := if step ≠ [] then Strconv.Atoi step else .ok 1
  match s with
  | .error e => .error e
  | .ok s =>
    if f < min ∨ f > max then .error (rangeError from_ min max)
    else if t < min ∨ t > max then .error (rangeError to_ min max)
    else match hasError [err1, err2] with
      | some err => .error err
      | none => .ok ((Interval f t min max).By s)

/-- Function `parse`. -/
def parse (cron : List Char) (min max : Int) (names : List (List Char)) : Except Err Ticker :=
  if cron = [] then .error .syntaxEmpty
  else
    match Strings.Cut cron ['-'] with
    | (_, _, false) =>
      match Strings.Cut cron ['/'] with
      | (str, rest, true) => createSingle str rest names min max
      | (_, _, false) => createSingle cron [] names min max
    | (old, rest, true) =>
      match Strings.Cut rest ['/'] with
      | (str, _, false) => createInterval old str [] names min max
      | (str, rest, true) => createInterval old str rest names min max

/-- The loop of `Parse`, `list` being the iterators read so far.  Every turn
that goes on removes a separator from `cron`, so the fuel that `Parse` gives
is never used up. -/
def parseLoop : Nat → List Char → Int → Int → List (List Char) → List Ticker →
    Except Err (List Ticker)
  | 0, _, _, _, _, list => .ok list
  | fuel + 1, cron, min, max, names, list =>
    match Strings.Cut cron Separator with
    | (str, rest, ok) =>
      match parse str min max names with
      | .error err => .error err
      | .ok ex =>
        let list := list ++ [ex]
        if !ok then .ok list else parseLoop fuel rest min max names list

/-- Function `Parse`. -/
def Parse (cron : String) (min max : Int) (names : List (List Char)) : Except Err Ticker :=
  match parseLoop (cron.toList.length + 1) cron.toList min max names [] with
  | .error err => .error err
  | .ok list => if list.length > 1 then .ok (ListOf list) else .ok (list.getD 0 Ticker.nil)

/-! ## Scheduler (`schedule.go`) -/

/-- Struct `Scheduler`. -/
structure Scheduler where
  min : Ticker
  hour : Ticker
  day : Ticker
  month : Ticker
  week : Ticker
  when : Int
deriving Repr, DecidableEq

/-- Variable `days`. -/
def days : List Int := [31, 28, 31, 30, 31, 30, 31, 31, 30, 31, 30, 31]

/-- Function `isLeap`. -/
def isLeap (y : Int) : Bool :=
  Int.tmod y 4 == 0 && Int.tmod y 100 == 0 && Int.tmod y 400 == 0

/-- Constant `weekdays`. -/
def weekdays : Int := 7

/-- Function `getWeekday`; Go's `%` truncates towards zero. -/
def getWeekday (n : Int) : Int := Int.tmod n weekdays

namespace Scheduler

/-- Method `Now`. -/
def Now (s : Scheduler) : Int := s.when

/-- Method `get`.  The access `days[month-1]` panics outside of the table. -/
def get (s : Scheduler) : Except Fault (Int × Bool) :=
  let year := Time.Year s.when
  let month := s.month.Curr
  let day := s.day.Curr
  let hour := s.hour.Curr
  let min := s.min.Curr
  if month - 1 < 0 ∨ month - 1 ≥ 12 then .error .index
  else
    let n := days.getD (month - 1).toNat 0
    let n := if month == 2 && isLeap year then n + 1 else n
    if day > n then .ok (s.when, false)
    else .ok (Time.Date year month day hour min 0, true)

/-- The loop of `next` over the minute, hour, day and month iterators. -/
def carry (s : Scheduler) : Scheduler :=
  let s := { s with min := s.min.Next }
  if !s.min.one && !s.min.isReset then s
  else
    let s := { s with hour := s.hour.Next }
    if !s.hour.one && !s.hour.isReset then s
    else
      let s := { s with day := s.day.Next }
      if !s.day.one && !s.day.isReset then s
      else { s with month := s.month.Next }

/-- Method `adjustByWeekdayAndDay`: the scheduler and the time it returns. -/
def adjustByWeekdayAndDay (s : Scheduler) (when : Int) : Scheduler × Int :=
  let s := { s with week := s.week.Next }
  let dow := getWeekday s.week.Curr
  let curr := Time.Weekday s.when
  let diff := curr - dow
  if diff == 0 then (s, when)
  else
    let diff := if diff < 0 then -diff else weekdays - diff
    let tmp := Time.AddDate 0 diff s.when
    if tmp < when then ({ s with day := freeze s.day, month := freeze s.month }, tmp)
    else ({ s with day := unfreeze s.day, month := unfreeze s.month }, when)

/-- Method `adjustByWeekday`, `rec` being the call `s.next()`: the scheduler
and the time it returns. -/
def adjustByWeekday (rec : Scheduler → Except Fault Scheduler) (s : Scheduler) (when : Int) :
    Except Fault (Scheduler × Int) :=
  let dow := getWeekday s.week.Curr
  if dow == Time.Weekday when then .ok ({ s with week := s.week.Next }, when)
  else match rec s with
    | .error e => .error e
    | .ok s => .ok (s, s.when)

/-- Method `adjustNextTime`, `rec` being the call `s.next()`. -/
def adjustNextTime (rec : Scheduler → Except Fault Scheduler) (s : Scheduler) (when : Int) :
    Except Fault (Scheduler × Int) :=
  if s.day.All && !s.week.All then adjustByWeekday rec s when
  else if s.week.All then .ok (s, when)
  else .ok (adjustByWeekdayAndDay s when)

/-- Method `next`; the scheduler it returns holds the returned time in
`when`. -/
def next : Nat → Scheduler → Except Fault Scheduler
  | 0, _ => .error .fuel
  | fuel + 1, s =>
    let s := carry s
    match get s with
    | .error e => .error e
    | .ok (_, false) => next fuel s
    | .ok (when, true) =>
      match adjustNextTime (next fuel) s when with
      | .error e => .error e
      | .ok (s, when) =>
        let when := if when < s.when then Time.AddDate 1 0 when else when
        .ok { s with when := when }

/-- Method `Next`: the time returned and the scheduler after the deferred
call of `next`. -/
def Next (fuel : Nat) (s : Scheduler) : Except Fault (Int × Scheduler) :=
  match next fuel s with
  | .error e => .error e
  | .ok s' => .ok (s.Now, s')

/-- Method `reset`. -/
def reset : Nat → Int → Scheduler → Except Fault Scheduler
  | 0, _, _ => .error .fuel
  | fuel + 1, now, s =>
    match get s with
    | .error e => .error e
    | .ok (when, ok) =>
      let s := { s with when := when }
      if ok && (s.when == now || s.when > now) then .ok s
      else match next fuel s with
        | .error e => .error e
        | .ok s => reset fuel now s

/-- The loop of `alignDayOfWeek`, `i` being its counter. -/
def alignLoop : Nat → Nat → Int → Ticker → Except Fault Ticker
  | 0, _, _, _ => .error .fuel
  | fuel + 1, i, dow, week =>
    let curr := getWeekday week.Curr
    if curr ≥ dow || week.one || (decide (i > 0) && week.isReset) then .ok week
    else alignLoop fuel (i + 1) dow week.Next

/-- Method `alignDayOfWeek`. -/
def alignDayOfWeek (fuel : Nat) (s : Scheduler) : Except Fault Scheduler :=
  let dow := Time.Weekday s.when
  match alignLoop fuel 0 dow s.week with
  | .error e => .error e
  | .ok week => .ok { s with week := week.Next }

/-- Method `Reset`. -/
def Reset (fuel : Nat) (when : Int) (s : Scheduler) : Except Fault Scheduler :=
  let s := { s with min := s.min.reset }
  let s := { s with hour := s.hour.reset }
  let s := { s with day := (unfreeze s.day).reset }
  let s := { s with month := (unfreeze s.month).reset }
  let s := { s with week := s.week.reset }
  let s := { s with when := Time.Truncate when }
  match alignDayOfWeek fuel s with
  | .error e => .error e
  | .ok s => reset fuel s.when s

end Scheduler

/-- The fields of the scheduler that `Schedule` builds before it calls
`Reset`; `when` is the zero `time.Time`. -/
def parseFields (min hour day month week : String) : Except Err Scheduler :=
  let r1 := Parse min 0 59 []
  let r2 := Parse hour 0 23 []
  let r3 := Parse day 1 31 []
  let r4 := Parse month 1 12 monthnames
  let r5 := Parse week 1 7 daynames
  match r1, r2, r3, r4, r5 with
  | .ok min, .ok hour, .ok day, .ok month, .ok week =>
    .ok { min := min, hour := hour, day := day, month := month, week := week,
          when := -62135596800 }
  | .error e, _, _, _, _ => .error e
  | _, .error e, _, _, _ => .error e
  | _, _, .error e, _, _ => .error e
  | _, _, _, .error e, _ => .error e
  | _, _, _, _, .error e => .error e

/-- Function `Schedule`, `now` being the value of `time.Now()`. -/
def Schedule (fuel : Nat) (min hour day month week : String) (now : Int) :
    Except Err (Except Fault Scheduler) :=
  match parseFields min hour day month week with
  | .error e => .error e
  | .ok sched => .ok (sched.Reset fuel now)

/-- The times returned by `n` successive calls of `Next`. -/
def nextTimes (fuel : Nat) : Nat → Scheduler → Except Fault (List Int)
  | 0, _ => .ok []
  | n + 1, s =>
    match s.Next fuel with
    | .error e => .error e
    | .ok (t, s) =>
      match nextTimes fuel n s with
      | .error e => .error e
      | .ok ts => .ok (t :: ts)

/-! ## Observations and state predicates used by the theorems -/

/-- The times returned by `n` calls of `Next` made after `Reset(t)` on the
scheduler that `Schedule` returned at time `now`; `none` when a field does
not parse or a call does not return. -/
def firings (fuel n : Nat) (min hour day month week : String) (now t : Int) :
    Option (List Int) :=
  match Schedule fuel min hour day month week now with
  | .ok (.ok s) =>
    match s.Reset fuel t with
    | .ok s =>
      match nextTimes fuel n s with
      | .ok ts => some ts
      | .error _ => none
    | .error _ => none
  | _ => none

namespace Ticker

mutual
/-- An iterator whose values stay within `[lo, hi]`: base, bounds and
current value lie in the interval and the step is between 0 and `2^62`, so
that adding it never overflows. -/
def sane (lo hi : Int) : Ticker → Bool
  | .single base curr _ step _ _ upper =>
    decide (lo ≤ base) && decide (base ≤ hi) && decide (lo ≤ curr) && decide (curr ≤ hi)
      && decide (upper ≤ hi) && decide (0 ≤ step) && decide (step ≤ 4611686018427387904)
  | .interval min max step curr _ =>
    decide (lo ≤ min) && decide (min ≤ hi) && decide (max ≤ hi) && decide (lo ≤ curr)
      && decide (curr ≤ hi) && decide (0 ≤ step) && decide (step ≤ 4611686018427387904)
  | .list ptr _ es => decide (ptr < es.length) && saneAll lo hi es
  | .frozen t => sane lo hi t
/-- Every iterator of the list is `sane`. -/
def saneAll (lo hi : Int) : List Ticker → Bool
  | [] => true
  | e :: es => sane lo hi e && saneAll lo hi es
end

end Ticker

/-- The five iterators of a scheduler stay within the bounds of their
fields. -/
def Scheduler.Sane (s : Scheduler) : Bool :=
  s.min.sane 0 59 && s.hour.sane 0 23 && s.day.sane 1 31 && s.month.sane 1 12
    && s.week.sane 1 7

/-- The five expressions parse and every iterator they denote is `sane`:
the expressions have no negative step and no step above `2^62`. -/
def saneFields (min hour day month week : String) : Bool :=
  match parseFields min hour day month week with
  | .ok s => s.Sane
  | .error _ => false

/-! ## Histories and what a reset keeps of them -/

namespace Ticker

/-- A `*single` or an `*interval`. -/
def isLeaf : Ticker → Bool
  | .single _ _ _ _ _ _ _ => true
  | .interval _ _ _ _ _ => true
  | _ => false

/-- An iterator of the shape that `Parse` builds: a leaf, or a list of
leaves whose pointer is inside the list. -/
def flat : Ticker → Bool
  | .list ptr _ es => decide (ptr < es.length) && es.all isLeaf
  | t => t.isLeaf

/-- The iterator is a `*frozen`. -/
def isFrozen : Ticker → Bool
  | .frozen _ => true
  | _ => false

/-- A leaf without the previous value that its next call of `Next`
overwrites: a constant leaf never writes it and keeps it. -/
def obsLeaf : Ticker → Ticker
  | .single base curr prev step all lower upper =>
    .single base curr (if step = 0 then prev else 0) step all lower upper
  | .interval min max step curr _ => .interval min max step curr 0
  | t => t

/-- A flat iterator without the previous values and the previous pointer
that the next call of `Next` overwrites. -/
def obs : Ticker → Ticker
  | .list ptr _ es => .list ptr 0 (es.map obsLeaf)
  | t => obsLeaf t

/-- A list that has left its first element did so because that element is
constant or had just wrapped; the element has not moved since. -/
def settled : Ticker → Bool
  | .list ptr _ es => ptr == 0 || (es.getD 0 nil).one || (es.getD 0 nil).isReset
  | _ => true

/-- Two flat iterators that later calls cannot tell apart. -/
def Rel (a b : Ticker) : Prop :=
  obs a = obs b ∧ a.flat = true ∧ b.flat = true ∧ a.settled = true ∧ b.settled = true

/-- Two flat iterators of the same expression: their `reset` cannot be told
apart. -/
def Cfg (a b : Ticker) : Prop :=
  obs a.reset = obs b.reset ∧ a.flat = true ∧ b.flat = true

end Ticker

/-- `Ticker.Rel` under a possible `*frozen`. -/
def RelTop (a b : Ticker) : Prop :=
  a.isFrozen = b.isFrozen ∧ Ticker.Rel (unfreeze a) (unfreeze b)

/-- Two schedulers that later calls cannot tell apart; the day and month
iterators are frozen together. -/
structure SRel (s1 s2 : Scheduler) : Prop where
  min : Ticker.Rel s1.min s2.min
  hour : Ticker.Rel s1.hour s2.hour
  day : RelTop s1.day s2.day
  month : RelTop s1.month s2.month
  week : Ticker.Rel s1.week s2.week
  when : s1.when = s2.when
  sync : s1.day.isFrozen = s1.month.isFrozen

/-- Two schedulers of the same five expressions. -/
structure SCfg (s1 s2 : Scheduler) : Prop where
  min : Ticker.Cfg s1.min s2.min
  hour : Ticker.Cfg s1.hour s2.hour
  day : Ticker.Cfg (unfreeze s1.day) (unfreeze s2.day)
  month : Ticker.Cfg (unfreeze s1.month) (unfreeze s2.month)
  week : Ticker.Cfg s1.week s2.week

/-- Two results that are both the same failure, or both a value, the two
values being related. -/
def RelE {α : Type} (R : α → α → Prop) : Except Fault α → Except Fault α → Prop
  | .ok a, .ok b => R a b
  | .error e, .error f => e = f
  | _, _ => False

/-- The results of `adjustNextTime` on two schedulers that later calls cannot
tell apart: the same time, and schedulers that later calls cannot tell
apart. -/
def RelAdj (p q : Scheduler × Int) : Prop := SRel p.1 q.1 ∧ p.2 = q.2

/-- A call made on a scheduler: `Next()` or `Reset(t)`. -/
inductive Call where
  | next
  | reset (t : Int)
deriving Repr, DecidableEq

/-- The scheduler after a sequence of calls. -/
def applyCalls (fuel : Nat) : List Call → Scheduler → Except Fault Scheduler
  | [], s => .ok s
  | .next :: cs, s =>
    match s.Next fuel with
    | .error e => .error e
    | .ok (_, s) => applyCalls fuel cs s
  | .reset t :: cs, s =>
    match s.Reset fuel t with
    | .error e => .error e
    | .ok s => applyCalls fuel cs s

/-- The times returned by `n` calls of `Next` made after `Reset(t)`. -/
def afterReset (fuel n : Nat) (t : Int) (s : Scheduler) : Except Fault (List Int) :=
  match s.Reset fuel t with
  | .error e => .error e
  | .ok s => nextTimes fuel n s

namespace Ticker

mutual
/-- Every step of the iterator lies between 0 and `2^62`. -/
def stepsOk : Ticker → Bool
  | .single _ _ _ step _ _ _ => decide (0 ≤ step) && decide (step ≤ 4611686018427387904)
  | .interval _ _ step _ _ => decide (0 ≤ step) && decide (step ≤ 4611686018427387904)
  | .list _ _ es => stepsOkAll es
  | .frozen t => stepsOk t
/-- Every step of every iterator of the list lies between 0 and `2^62`. -/
def stepsOkAll : List Ticker → Bool
  | [] => true
  | e :: es => stepsOk e && stepsOkAll es
end

end Ticker

/-- The five expressions parse and none of their steps is negative or above
`2^62`. -/
def stepsFields (min hour day month week : String) : Bool :=
  match parseFields min hour day month week with
  | .ok s => s.min.stepsOk && s.hour.stepsOk && s.day.stepsOk && s.month.stepsOk
      && s.week.stepsOk
  | .error _ => false

/-! ## `ScheduleFromList` and repeated advances -/

/-- Function `ScheduleFromList`, `now` being the value of `time.Now()`. -/
def ScheduleFromList (fuel : Nat) (ls : List String) (now : Int) :
    Except Err (Except Fault Scheduler) :=
  if ls.length ≠ 5 then .error (.arity ls.length)
  else Schedule fuel (ls.getD 0 "") (ls.getD 1 "") (ls.getD 2 "") (ls.getD 3 "") (ls.getD 4 "") now

/-- The iterator after `n` calls of `Next`. -/
def Ticker.nextN : Nat → Ticker → Ticker
  | 0, t => t
  | n + 1, t => Ticker.nextN n t.Next

/-- The values of `Curr()` read before each of `n` successive calls of
`Next`. -/
def Ticker.values : Nat → Ticker → List Int
  | 0, _ => []
  | n + 1, t => t.Curr :: Ticker.values n t.Next

/-! ## Runners (`runner.go`) and the driving loop `Scheduler.Run` -/

/-- Struct `limitRunner`: the limit and the number of executions in flight.
The wrapped runner and the mutex, which only makes each of `can`, `inc` and
`dec` atomic, are left out. -/
structure limitRunner where
  limit : Int
  curr : Int
deriving Repr, DecidableEq

/-- Constructor `LimitRunning`. -/
def LimitRunning (max : Int) : limitRunner := { limit := max, curr := 0 }

namespace limitRunner

/-- Method `can`. -/
def can (r : limitRunner) : Bool := decide (r.curr ≤ r.limit)

/-- Method `inc`. -/
def inc (r : limitRunner) : limitRunner := { r with curr := r.curr + 1 }

/-- Method `dec`. -/
def dec (r : limitRunner) : limitRunner := { r with curr := r.curr - 1 }

end limitRunner

/-- What happens to a `limitRunner`: a call of `Run` starts, or the wrapped
runner of an admitted call returns. -/
inductive RunEvent where
  | start
  | finish
deriving Repr, DecidableEq

namespace limitRunner

/-- Method `Run` up to the call of the wrapped runner: `false` when the call
is skipped and returns nil, `true` when it is admitted, `inc` being done. -/
def enter (r : limitRunner) : limitRunner × Bool :=
  if !r.can then (r, false) else (r.inc, true)

/-- The deferred `dec` of an admitted call, run when the wrapped runner
returns. -/
def leave (r : limitRunner) : limitRunner := r.dec

/-- The runner after a sequence of events, with the number of calls whose
wrapped runner is running. -/
def after : List RunEvent → limitRunner × Nat → limitRunner × Nat
  | [], p => p
  | .start :: evs, (r, n) =>
    match r.enter with
    | (r, true) => after evs (r, n + 1)
    | (r, false) => after evs (r, n)
  | .finish :: evs, (r, n) => after evs (r.leave, n - 1)

end limitRunner

/-- Values of type `error` that `Scheduler.Run` meets, other than nil:
`ErrDone`, `context.Canceled`, `context.DeadlineExceeded`, and the other
errors that a runner may return. -/
inductive GoError where
  | errDone
  | canceled
  | deadlineExceeded
  | other (n : Nat)
deriving Repr, DecidableEq

/-- The `errgroup.Group` of `Run`: the first error, not nil, that a function
passed to `Go` has returned.  The context derived by `errgroup.WithContext`
is cancelled from then on. -/
structure Group where
  err : Option GoError
deriving Repr, DecidableEq

/-- A function passed to `Go` returns `res` (nil being `none`). -/
def Group.returned (g : Group) (res : Option GoError) : Group :=
  match g.err, res with
  | none, some e => { err := some e }
  | _, _ => g

/-- The call `ctx.Err()` on the context derived by `errgroup.WithContext`:
the error of the parent context when that one is done, `context.Canceled`
when the group has cancelled the context, nil otherwise. -/
def Group.ctxErr (g : Group) (parent : Option GoError) : Option GoError :=
  match parent with
  | some e => some e
  | none => if g.err.isSome then some .canceled else none

/-- What one turn of the loop of `Run` meets: the value of `time.Now()`, the
results of the executions of the runner that return before the timer of the
turn fires, and the error of the parent context when that context is done
before the timer fires. -/
structure Turn where
  now : Int
  returned : List (Option GoError)
  parent : Option GoError
deriving Repr, DecidableEq

/-- The code of `Run` that follows its loop. -/
def afterLoop (err : Option GoError) : Option GoError :=
  if err = some .errDone then none else err

/-- Method `Run`: the loop, over the turns that the environment gives;
`running` counts the executions of the runner that were dispatched by `grp.Go`
and have not returned, and only those can return.  The result is `some e`
when `Run` returns the error `e` (`none` being nil) and `none` when the loop
is still running after the last turn.  No path leads out of the loop to
`afterLoop`: the loop has no condition and no `break`. -/
def Scheduler.Run (fuel : Nat) : Scheduler → Group → Nat → List Turn →
    Except Fault (Option (Option GoError))
  | _, _, _, [] => .ok none
  | s, g, running, turn :: turns =>
    match s.Next fuel with
    | .error e => .error e
    | .ok (next, s) =>
      let wait := next - turn.now
      let rs := turn.returned.take running
      let g := rs.foldl Group.returned g
      let running := running - rs.length
      if wait ≤ 0 then Scheduler.Run fuel s g running turns
      else
        match g.ctxErr turn.parent with
        | some e => .ok (some (some e))
        | none => Scheduler.Run fuel s g (running + 1) turns

/-! ## The progression that a step denotes -/

/-- The number of values of the progression `base`, `base + step`, ... that
do not exceed `upper`. -/
def cycleLength (base step upper : Int) : Nat :=
  ((upper - base) / step).toNat + 1

/-- The `n`-th value, counted from 0, of the sequence `base`, `base + step`,
`base + 2 * step`, ... up to the largest such value that does not exceed
`upper`, then `base` again, periodically. -/
def cycleValue (base step upper : Int) (n : Nat) : Int :=
  base + ((n % cycleLength base step upper : Nat) : Int) * step

/-- The first value of the progression `base`, `base + step`, ... above
`upper` is within the 64-bit integers. -/
def cycleFits (base step upper : Int) : Prop :=
  base + (cycleLength base step upper : Int) * step ≤ 9223372036854775807

instance (base step upper : Int) : Decidable (cycleFits base step upper) := by
  unfold cycleFits
  exact inferInstance

/-! ## Terms of a list and their cycles -/

/-- The terms of an expression joined by the separator `;`, in the order
written. -/
def joinTerms : List (List Char) → List Char
  | [] => []
  | [t] => t
  | t :: ts => t ++ ';' :: joinTerms ts

namespace Ticker

/-- A leaf without its previous value. -/
def noPrev : Ticker → Ticker
  | .single base curr _ step all lower upper => .single base curr 0 step all lower upper
  | .interval min max step curr _ => .interval min max step curr 0
  | t => t

/-- A term at its start that a list leaves after its last value: a value
without a step, or a progression with a step of at least 1 that has at least
two values, none of its sums overflowing. -/
def regular : Ticker → Bool
  | .single base curr _ step _ lower upper =>
    decide (curr = base) && (decide (step = 0) || (decide (1 ≤ step) && decide (lower ≤ base)
      && decide (base + step ≤ upper) && decide (-9223372036854775808 ≤ base)
      && decide (cycleFits base step upper)))
  | .interval min max step curr _ =>
    decide (curr = min) && decide (1 ≤ step) && decide (min + step ≤ max)
      && decide (-9223372036854775808 ≤ min) && decide (cycleFits min step max)
  | _ => false

/-- The full cycle of values of a term: the one value of a term without a
step, and the progression `base`, `base + step`, ... up to the largest value
that does not exceed the upper end otherwise. -/
def cycle : Ticker → List Int
  | .single base _ _ step _ _ upper =>
    if step = 0 then [base]
    else (List.range (cycleLength base step upper)).map (cycleValue base step upper)
  | .interval min max step _ _ =>
    (List.range (cycleLength min step max)).map (cycleValue min step max)
  | _ => []

end Ticker

/-! ## Expressions as they are written -/

/-- A term as it is written: `*`, a single value or a range `A-B`, with an
optional step after `/`. -/
inductive Term where
  | star (step : Option (List Char))
  | value (tok : List Char) (step : Option (List Char))
  | range (from_ to_ : List Char) (step : Option (List Char))
deriving Repr, DecidableEq

namespace Term

/-- The text of a term. -/
def text : Term → List Char
  | .star none => ['*']
  | .star (some s) => '*' :: '/' :: s
  | .value tok none => tok
  | .value tok (some s) => tok ++ '/' :: s
  | .range a b none => a ++ '-' :: b
  | .range a b (some s) => a ++ '-' :: (b ++ '/' :: s)

/-- The tokens of a term that stand for values: its single value, or the two
ends of its range. -/
def tokens : Term → List (List Char)
  | .star _ => []
  | .value tok _ => [tok]
  | .range a b _ => [a, b]

end Term

/-- A token that is a number or a name of the table: it is not empty, it is
not `*`, it holds none of the characters `-`, `/` and `;` that split an
expression, and `atoi` resolves it. -/
def okToken (names : List (List Char)) (tok : List Char) : Prop :=
  tok ≠ [] ∧ tok ≠ ['*'] ∧ '-' ∉ tok ∧ '/' ∉ tok ∧ ';' ∉ tok ∧ (atoi tok names).2 = none

/-- A step that is a number: `strconv.Atoi` reads it. -/
def okStep (s : List Char) : Prop := ∃ S, Strconv.Atoi s = .ok S

/-- A term whose tokens are numbers or names and whose step is a number; the
step of `*` and of a single value has no sign `-`, which would be read as the
`-` of a range. -/
def Term.wellFormed (names : List (List Char)) : Term → Prop
  | .star none => True
  | .star (some s) => okStep s ∧ '-' ∉ s
  | .value tok none => okToken names tok
  | .value tok (some s) => okToken names tok ∧ okStep s ∧ '-' ∉ s
  | .range a b none => okToken names a ∧ okToken names b
  | .range a b (some s) => okToken names a ∧ okToken names b ∧ okStep s

/-- The value that a token resolves to lies outside of `[min, max]`. -/
def outside (names : List (List Char)) (min max : Int) (tok : List Char) : Prop :=
  (atoi tok names).1 < min ∨ max < (atoi tok names).1

/-! ## The length of a month as `get` takes it -/

/-- The length of the month `month` of `year` in the words of the
specification: 28 for February, or 29 when `isLeap year`; 30 for April, June,
September and November; 31 for the other months. -/
def monthLength (year month : Int) : Int :=
  if month = 2 then (if isLeap year then 29 else 28)
  else if month = 4 ∨ month = 6 ∨ month = 9 ∨ month = 11 then 30
  else 31

/-! # Theorems -/

open Time

/-! ## The calendar -/

namespace Time

theorem daysBeforeYear_mono (a b : Int) (h : a ≤ b) : daysBeforeYear a ≤ daysBeforeYear b := by
  unfold daysBeforeYear
  omega

theorem yearOfDay_le (d : Int) : daysBeforeYear (yearOfDay d) ≤ d := by
  unfold yearOfDay
  simp only []
  split
  · assumption
  · split
    · unfold daysBeforeYear at *
      omega
    · omega

theorem yearOfDay_lt (d : Int) : d < daysBeforeYear (yearOfDay d + 1) := by
  unfold yearOfDay
  simp only []
  split
  · unfold daysBeforeYear at *
    omega
  · split
    · simp only [Int.sub_add_cancel]; assumption
    · omega

/-- A day on or after January 1st of `y` falls in year `y` or later. -/
theorem le_yearOfDay (y d : Int) (h : daysBeforeYear y ≤ d) : y ≤ yearOfDay d := by
  by_contra hlt
  have h1 : yearOfDay d + 1 ≤ y := by omega
  have h2 := daysBeforeYear_mono _ _ h1
  have h3 := yearOfDay_lt d
  omega

theorem daysBefore_getD_nonneg (i : Nat) : 0 ≤ daysBefore.getD i 0 := by
  have h : i < 13 ∨ 13 ≤ i := by omega
  rcases h with h | h
  · interval_cases i <;> decide
  · rw [List.getD_eq_default _ _ (by simpa [daysBefore] using h)]

theorem daysBeforeMonth_nonneg (m : Int) (leap : Bool) : 0 ≤ daysBeforeMonth m leap := by
  have := daysBefore_getD_nonneg m.toNat
  unfold daysBeforeMonth
  split <;> omega

/-- The length of a year. -/
theorem daysBeforeYear_succ (y : Int) :
    daysBeforeYear (y + 1) = daysBeforeYear y + 365 + (if isLeapYear y then 1 else 0) := by
  unfold daysBeforeYear isLeapYear
  simp only [Bool.and_eq_true, Bool.or_eq_true, beq_iff_eq, bne_iff_ne, ne_eq]
  split <;> omega

/-- A date whose month is in `1..12` and whose other fields are not below
their minimum is not before January 1st of its year. -/
theorem startOfYear_le_Date (year month day hour min sec : Int)
    (hm : 1 ≤ month ∧ month ≤ 12) (hd : 1 ≤ day) (hh : 0 ≤ hour) (hmin : 0 ≤ min)
    (hs : 0 ≤ sec) :
    daysBeforeYear year * 86400 ≤ Date year month day hour min sec := by
  unfold Date
  have e1 : (month - 1) / 12 = 0 := by omega
  have e2 : (month - 1) % 12 = month - 1 := by omega
  simp only [e1, e2, Int.add_zero]
  have := daysBeforeMonth_nonneg (month - 1) (isLeapYear year)
  omega

theorem startOfYear_le (t : Int) : daysBeforeYear (Year t) * 86400 ≤ t := by
  have := yearOfDay_le (dayNumber t)
  unfold Year
  unfold dayNumber at *
  omega

theorem lt_startOfNextYear (t : Int) : t < daysBeforeYear (Year t + 1) * 86400 := by
  have := yearOfDay_lt (dayNumber t)
  unfold Year
  unfold dayNumber at *
  omega

theorem le_Year (y t : Int) (h : daysBeforeYear y * 86400 ≤ t) : y ≤ Year t := by
  apply le_yearOfDay
  unfold dayNumber
  omega

theorem yearDay_nonneg (t : Int) : 0 ≤ yearDay t := by
  have := yearOfDay_le (dayNumber t)
  unfold yearDay Year
  omega

theorem yearDay_lt (t : Int) :
    yearDay t < 365 + (if isLeapYear (Year t) then 1 else 0) := by
  have h1 := yearOfDay_lt (dayNumber t)
  have h2 := daysBeforeYear_succ (Year t)
  unfold yearDay
  unfold Year at *
  omega

/-- The month index of a day of the year, and the month it delimits. -/
theorem monthIndex_spec (yd : Int) (leap : Bool) (h0 : 0 ≤ yd)
    (h1 : yd < 365 + (if leap then 1 else 0)) :
    0 ≤ monthIndex yd leap ∧ monthIndex yd leap ≤ 11
    ∧ daysBeforeMonth (monthIndex yd leap) leap ≤ yd
    ∧ yd < daysBeforeMonth (monthIndex yd leap + 1) leap := by
  obtain ⟨m, hm⟩ : ∃ m, m = yd / 31 := ⟨_, rfl⟩
  have hb : 0 ≤ m ∧ m ≤ 11 := by
    cases leap <;> simp at h1 <;> omega
  unfold monthIndex
  simp only [← hm]
  obtain ⟨hb0, hb1⟩ := hb
  cases leap <;> interval_cases m <;>
    simp [daysBeforeMonth, daysBefore] at * <;> split <;> simp <;> omega

theorem monthIndex_range (t : Int) :
    0 ≤ monthIndex (yearDay t) (isLeapYear (Year t))
    ∧ monthIndex (yearDay t) (isLeapYear (Year t)) ≤ 11 := by
  have := monthIndex_spec (yearDay t) (isLeapYear (Year t)) (yearDay_nonneg t) (yearDay_lt t)
  omega

theorem Month_range (t : Int) : 1 ≤ Month t ∧ Month t ≤ 12 := by
  have := monthIndex_range t
  unfold Month
  omega

theorem Day_pos (t : Int) : 1 ≤ Day t := by
  have := monthIndex_spec (yearDay t) (isLeapYear (Year t)) (yearDay_nonneg t) (yearDay_lt t)
  unfold Day
  omega

theorem Hour_nonneg (t : Int) : 0 ≤ Hour t := by unfold Hour; omega
theorem Minute_nonneg (t : Int) : 0 ≤ Minute t := by unfold Minute; omega
theorem Second_nonneg (t : Int) : 0 ≤ Second t := by unfold Second; omega

/-- Rebuilding a time from its own fields gives the time back. -/
theorem Date_fields (t : Int) :
    Date (Year t) (Month t) (Day t) (Hour t) (Minute t) (Second t) = t := by
  have hr := monthIndex_range t
  unfold Date Month Day Hour Minute Second
  have e1 : (monthIndex (yearDay t) (isLeapYear (Year t)) + 1 - 1) / 12 = 0 := by omega
  have e2 : (monthIndex (yearDay t) (isLeapYear (Year t)) + 1 - 1) % 12
      = monthIndex (yearDay t) (isLeapYear (Year t)) := by omega
  simp only [e1, e2, Int.add_zero]
  unfold yearDay dayNumber
  omega

/-- Adding days moves the time by whole days. -/
theorem AddDate_days (n t : Int) : AddDate 0 n t = t + n * 86400 := by
  have h := Date_fields t
  have hr := monthIndex_range t
  unfold AddDate
  unfold Date at *
  unfold Month at *
  have e1 : (monthIndex (yearDay t) (isLeapYear (Year t)) + 1 - 1) / 12 = 0 := by omega
  have e2 : (monthIndex (yearDay t) (isLeapYear (Year t)) + 1 - 1) % 12
      = monthIndex (yearDay t) (isLeapYear (Year t)) := by omega
  simp only [e1, e2, Int.add_zero] at *
  omega

/-- Adding one year leads to the next calendar year or later. -/
theorem startOfNextYear_le_AddDate (t : Int) :
    daysBeforeYear (Year t + 1) * 86400 ≤ AddDate 1 0 t := by
  unfold AddDate
  have := startOfYear_le_Date (Year t + 1) (Month t) (Day t + 0) (Hour t) (Minute t) (Second t)
    (Month_range t) (by have := Day_pos t; omega) (Hour_nonneg t) (Minute_nonneg t)
    (Second_nonneg t)
  exact this

end Time

/-! ## Iterators that stay within their bounds -/

theorem wrapInt_eq (x : Int) (h1 : -9223372036854775808 ≤ x) (h2 : x < 9223372036854775808) :
    wrapInt x = x := by
  unfold wrapInt
  omega

namespace Ticker

mutual
theorem sane_Curr (lo hi : Int) :
    ∀ t : Ticker, t.sane lo hi = true → lo ≤ t.Curr ∧ t.Curr ≤ hi
  | .single _ _ _ _ _ _ _, h => by
    simp only [sane, Bool.and_eq_true, decide_eq_true_eq] at h
    simp only [Curr]
    omega
  | .interval _ _ _ _ _, h => by
    simp only [sane, Bool.and_eq_true, decide_eq_true_eq] at h
    simp only [Curr]
    omega
  | .list ptr _ es, h => by
    simp only [sane, Bool.and_eq_true, decide_eq_true_eq] at h
    simp only [Curr]
    exact saneAll_currAt lo hi es ptr h.2 h.1
  | .frozen t, h => by
    simp only [sane] at h
    simp only [Curr]
    exact sane_Curr lo hi t h
theorem saneAll_currAt (lo hi : Int) :
    ∀ (es : List Ticker) (i : Nat), saneAll lo hi es = true → i < es.length →
      lo ≤ currAt es i ∧ currAt es i ≤ hi
  | [], _, _, hl => by simp at hl
  | e :: _, 0, h, _ => by
    simp only [saneAll, Bool.and_eq_true] at h
    simp only [currAt]
    exact sane_Curr lo hi e h.1
  | _ :: es, i + 1, h, hl => by
    simp only [saneAll, Bool.and_eq_true] at h
    simp only [currAt]
    exact saneAll_currAt lo hi es i h.2 (by simpa using hl)
end

theorem nextAt_length : ∀ (es : List Ticker) (i : Nat), (nextAt es i).length = es.length
  | [], _ => by simp [nextAt]
  | _ :: _, 0 => by simp [nextAt]
  | _ :: es, i + 1 => by simp [nextAt, nextAt_length es i]

theorem resetAll_length : ∀ es : List Ticker, (resetAll es).length = es.length
  | [] => by simp [resetAll]
  | _ :: es => by simp [resetAll, resetAll_length es]

mutual
theorem sane_Next (lo hi : Int) (hlo : -4611686018427387904 ≤ lo)
    (hhi : hi < 4611686018427387904) :
    ∀ t : Ticker, t.sane lo hi = true → t.Next.sane lo hi = true
  | .single base curr prev step all lower upper, h => by
    simp only [sane, Bool.and_eq_true, decide_eq_true_eq] at h
    simp only [Next]
    split
    · simp only [sane, Bool.and_eq_true, decide_eq_true_eq]; omega
    · rw [wrapInt_eq _ (by omega) (by omega)]
      split <;> simp only [sane, Bool.and_eq_true, decide_eq_true_eq] <;> omega
  | .interval min max step curr prev, h => by
    simp only [sane, Bool.and_eq_true, decide_eq_true_eq] at h
    simp only [Next]
    rw [wrapInt_eq _ (by omega) (by omega)]
    split <;> simp only [sane, Bool.and_eq_true, decide_eq_true_eq] <;> omega
  | .list ptr pptr es, h => by
    simp only [sane, Bool.and_eq_true, decide_eq_true_eq] at h
    have h1 := saneAll_nextAt lo hi hlo hhi es ptr h.2
    have h2 := nextAt_length es ptr
    simp only [Next]
    split
    · simp only [sane, Bool.and_eq_true, decide_eq_true_eq]
      refine ⟨?_, h1⟩
      rw [h2]
      exact Nat.mod_lt _ (by omega)
    · simp only [sane, Bool.and_eq_true, decide_eq_true_eq]
      exact ⟨by omega, h1⟩
  | .frozen t, h => by
    simpa only [Next] using h
theorem saneAll_nextAt (lo hi : Int) (hlo : -4611686018427387904 ≤ lo)
    (hhi : hi < 4611686018427387904) :
    ∀ (es : List Ticker) (i : Nat), saneAll lo hi es = true → saneAll lo hi (nextAt es i) = true
  | [], _, _ => by simp [nextAt, saneAll]
  | e :: es, 0, h => by
    simp only [saneAll, Bool.and_eq_true] at h
    simp only [nextAt, saneAll, Bool.and_eq_true]
    exact ⟨sane_Next lo hi hlo hhi e h.1, h.2⟩
  | e :: es, i + 1, h => by
    simp only [saneAll, Bool.and_eq_true] at h
    simp only [nextAt, saneAll, Bool.and_eq_true]
    exact ⟨h.1, saneAll_nextAt lo hi hlo hhi es i h.2⟩
end

mutual
theorem sane_reset (lo hi : Int) :
    ∀ t : Ticker, t.sane lo hi = true → t.reset.sane lo hi = true
  | .single base curr prev step all lower upper, h => by
    simp only [sane, Bool.and_eq_true, decide_eq_true_eq] at h
    simp only [reset, sane, Bool.and_eq_true, decide_eq_true_eq]
    omega
  | .interval min max step curr prev, h => by
    simp only [sane, Bool.and_eq_true, decide_eq_true_eq] at h
    simp only [reset, sane, Bool.and_eq_true, decide_eq_true_eq]
    omega
  | .list ptr pptr es, h => by
    simp only [sane, Bool.and_eq_true, decide_eq_true_eq] at h
    simp only [reset, sane, Bool.and_eq_true, decide_eq_true_eq]
    refine ⟨?_, saneAll_resetAll lo hi es h.2⟩
    rw [resetAll_length]
    omega
  | .frozen t, h => by
    simp only [sane] at h
    simp only [reset, sane]
    exact sane_reset lo hi t h
theorem saneAll_resetAll (lo hi : Int) :
    ∀ es : List Ticker, saneAll lo hi es = true → saneAll lo hi (resetAll es) = true
  | [], _ => by simp [resetAll, saneAll]
  | e :: es, h => by
    simp only [saneAll, Bool.and_eq_true] at h
    simp only [resetAll, saneAll, Bool.and_eq_true]
    exact ⟨sane_reset lo hi e h.1, saneAll_resetAll lo hi es h.2⟩
end

end Ticker

theorem sane_freeze (lo hi : Int) (t : Ticker) (h : t.sane lo hi = true) :
    (freeze t).sane lo hi = true := by
  cases t <;> simpa [freeze, Ticker.sane] using h

theorem sane_unfreeze (lo hi : Int) (t : Ticker) (h : t.sane lo hi = true) :
    (unfreeze t).sane lo hi = true := by
  cases t <;> simpa [unfreeze, Ticker.sane] using h

/-! ## The anchor never moves backwards -/

namespace Scheduler

theorem Sane_iff (s : Scheduler) :
    s.Sane = true ↔ s.min.sane 0 59 = true ∧ s.hour.sane 0 23 = true ∧ s.day.sane 1 31 = true
      ∧ s.month.sane 1 12 = true ∧ s.week.sane 1 7 = true := by
  simp only [Sane, Bool.and_eq_true]
  tauto

theorem carry_when (s : Scheduler) : (carry s).when = s.when := by
  unfold carry
  simp only []
  split
  · rfl
  · split
    · rfl
    · split <;> rfl

theorem carry_week (s : Scheduler) : (carry s).week = s.week := by
  unfold carry
  simp only []
  split
  · rfl
  · split
    · rfl
    · split <;> rfl

theorem Sane_carry (s : Scheduler) (h : s.Sane = true) : (carry s).Sane = true := by
  rw [Sane_iff] at h
  obtain ⟨h1, h2, h3, h4, h5⟩ := h
  have n1 := Ticker.sane_Next 0 59 (by decide) (by decide) _ h1
  have n2 := Ticker.sane_Next 0 23 (by decide) (by decide) _ h2
  have n3 := Ticker.sane_Next 1 31 (by decide) (by decide) _ h3
  have n4 := Ticker.sane_Next 1 12 (by decide) (by decide) _ h4
  unfold carry
  simp only []
  split
  · rw [Sane_iff]; exact ⟨n1, h2, h3, h4, h5⟩
  · split
    · rw [Sane_iff]; exact ⟨n1, n2, h3, h4, h5⟩
    · split
      · rw [Sane_iff]; exact ⟨n1, n2, n3, h4, h5⟩
      · rw [Sane_iff]; exact ⟨n1, n2, n3, n4, h5⟩

/-- A candidate that `get` accepts is not before January 1st of the anchor's
year. -/
theorem get_ok_ge (s : Scheduler) (h : s.Sane = true) (w : Int)
    (hg : get s = .ok (w, true)) : daysBeforeYear (Year s.when) * 86400 ≤ w := by
  rw [Sane_iff] at h
  obtain ⟨h1, h2, h3, h4, _⟩ := h
  have c1 := Ticker.sane_Curr 0 59 _ h1
  have c2 := Ticker.sane_Curr 0 23 _ h2
  have c3 := Ticker.sane_Curr 1 31 _ h3
  have c4 := Ticker.sane_Curr 1 12 _ h4
  unfold get at hg
  simp only [] at hg
  split_ifs at hg <;> simp only [Except.ok.injEq, Prod.mk.injEq, Bool.false_eq_true,
    and_false, and_true, reduceCtorEq] at hg
  all_goals
    rw [← hg]
    exact startOfYear_le_Date _ _ _ _ _ _ c4 c3.1 c2.1 c1.1 (le_refl _)

/-- The year push of a candidate of the anchor's year, or of a later year,
is not before the anchor. -/
theorem push_ge (anchor w : Int) (h : daysBeforeYear (Year anchor) * 86400 ≤ w) :
    anchor ≤ (if w < anchor then AddDate 1 0 w else w) := by
  split
  · have h1 := le_Year _ _ h
    have h2 := daysBeforeYear_mono _ _ (show Year anchor + 1 ≤ Year w + 1 by omega)
    have h3 := startOfNextYear_le_AddDate w
    have h4 := lt_startOfNextYear anchor
    omega
  · omega

theorem getWeekday_range (n : Int) (h : 0 ≤ n) : 0 ≤ getWeekday n ∧ getWeekday n < 7 := by
  unfold getWeekday weekdays
  constructor
  · exact Int.tmod_nonneg _ h
  · exact Int.tmod_lt_of_pos _ (by decide)

theorem Weekday_range (t : Int) : 0 ≤ Weekday t ∧ Weekday t < 7 := by
  unfold Weekday
  omega

/-- The three outcomes of `adjustByWeekdayAndDay`: the candidate is kept,
or replaced by a time after the anchor. -/
theorem adjustByWeekdayAndDay_spec (s : Scheduler) (h : s.Sane = true) (w : Int) :
    (adjustByWeekdayAndDay s w).1.Sane = true
    ∧ (adjustByWeekdayAndDay s w).1.when = s.when
    ∧ ((adjustByWeekdayAndDay s w).2 = w ∨ s.when ≤ (adjustByWeekdayAndDay s w).2) := by
  rw [Sane_iff] at h
  obtain ⟨h1, h2, h3, h4, h5⟩ := h
  have n5 := Ticker.sane_Next 1 7 (by decide) (by decide) _ h5
  have c5 := Ticker.sane_Curr 1 7 _ n5
  have g := getWeekday_range s.week.Next.Curr (by omega)
  have wd := Weekday_range s.when
  have e1 := sane_freeze _ _ _ h3
  have e2 := sane_freeze _ _ _ h4
  have e3 := sane_unfreeze _ _ _ h3
  have e4 := sane_unfreeze _ _ _ h4
  unfold adjustByWeekdayAndDay
  simp only [beq_iff_eq]
  split_ifs
  all_goals
    refine ⟨?_, rfl, ?_⟩
  all_goals first
    | exact Or.inl rfl
    | (rw [Sane_iff]; exact ⟨h1, h2, h3, h4, n5⟩)
    | (rw [Sane_iff]; exact ⟨h1, h2, e1, e2, n5⟩)
    | (rw [Sane_iff]; exact ⟨h1, h2, e3, e4, n5⟩)
    | (right; simp only []; rw [AddDate_days]; try unfold weekdays
       omega)

/-- What `adjustNextTime` returns when the recursive call it is given does
not move the anchor backwards: either the anchor is untouched and the time is
the candidate or a time not before the anchor, or the time is the anchor
that the recursive call committed. -/
theorem adjustNextTime_spec (rec : Scheduler → Except Fault Scheduler) (s : Scheduler)
    (hs : s.Sane = true) (w : Int)
    (hrec : ∀ s2, rec s = .ok s2 → s2.Sane = true ∧ s.when ≤ s2.when)
    (p : Scheduler × Int) (h : adjustNextTime rec s w = .ok p) :
    p.1.Sane = true
    ∧ ((p.1.when = s.when ∧ (p.2 = w ∨ s.when ≤ p.2)) ∨ (p.2 = p.1.when ∧ s.when ≤ p.1.when)) := by
  unfold adjustNextTime at h
  by_cases c1 : (s.day.All && !s.week.All) = true
  · rw [if_pos c1] at h
    unfold adjustByWeekday at h
    simp only [] at h
    by_cases c2 : (getWeekday s.week.Curr == Weekday w) = true
    · rw [if_pos c2] at h
      injection h with h
      subst h
      refine ⟨?_, Or.inl ⟨rfl, Or.inl rfl⟩⟩
      rw [Sane_iff] at hs ⊢
      obtain ⟨h1, h2, h3, h4, h5⟩ := hs
      exact ⟨h1, h2, h3, h4, Ticker.sane_Next 1 7 (by decide) (by decide) _ h5⟩
    · rw [if_neg c2] at h
      cases hr : rec s with
      | error e => rw [hr] at h; cases h
      | ok s2 =>
        rw [hr] at h
        injection h with h
        subst h
        have := hrec s2 hr
        exact ⟨this.1, Or.inr ⟨rfl, this.2⟩⟩
  · rw [if_neg c1] at h
    by_cases c3 : s.week.All = true
    · rw [if_pos c3] at h
      injection h with h
      subst h
      exact ⟨hs, Or.inl ⟨rfl, Or.inl rfl⟩⟩
    · rw [if_neg c3] at h
      injection h with h
      subst h
      have sp := adjustByWeekdayAndDay_spec s hs w
      exact ⟨sp.1, Or.inl ⟨sp.2.1, sp.2.2⟩⟩

/-- One execution of `next` on a scheduler whose iterators are within their
bounds leaves them within their bounds and does not move the anchor
backwards. -/
theorem next_mono : ∀ (fuel : Nat) (s s' : Scheduler), s.Sane = true →
    next fuel s = .ok s' → s'.Sane = true ∧ s.when ≤ s'.when
  | 0, _, _, _, h => by simp [next] at h
  | fuel + 1, s, s', hs, h => by
    have hc := Sane_carry s hs
    have hw := carry_when s
    unfold next at h
    simp only [] at h
    cases hg : get (carry s) with
    | error e => rw [hg] at h; cases h
    | ok q =>
      obtain ⟨w, ok⟩ := q
      rw [hg] at h
      cases ok with
      | false =>
        simp only [] at h
        have ih := next_mono fuel _ _ hc h
        exact ⟨ih.1, by omega⟩
      | true =>
        simp only [] at h
        have hge := get_ok_ge _ hc w hg
        rw [hw] at hge
        cases ha : adjustNextTime (next fuel) (carry s) w with
        | error e => rw [ha] at h; cases h
        | ok p =>
          obtain ⟨s2, w2⟩ := p
          rw [ha] at h
          simp only [] at h
          injection h with h
          subst h
          have sp := adjustNextTime_spec (next fuel) (carry s) hc w
            (fun s2 h2 => next_mono fuel _ _ hc h2) _ ha
          simp only [hw] at sp
          obtain ⟨sp1, sp2⟩ := sp
          refine ⟨sp1, ?_⟩
          simp only []
          rcases sp2 with ⟨e1, e2 | e2⟩ | ⟨e1, e2⟩
          · rw [e1, e2]; exact push_ge _ _ hge
          · rw [e1]; split <;> omega
          · rw [e1]; simp only [lt_self_iff_false, if_false]; exact e2

end Scheduler

namespace Scheduler

/-! ## `Reset` and the sequence of firings -/

theorem alignLoop_sane : ∀ (fuel i : Nat) (dow : Int) (week week' : Ticker),
    week.sane 1 7 = true → alignLoop fuel i dow week = .ok week' → week'.sane 1 7 = true
  | 0, _, _, _, _, _, h => by simp [alignLoop] at h
  | fuel + 1, i, dow, week, week', hs, h => by
    unfold alignLoop at h
    simp only [] at h
    split at h
    · injection h with h
      rw [← h]
      exact hs
    · exact alignLoop_sane fuel (i + 1) dow _ _
        (Ticker.sane_Next 1 7 (by decide) (by decide) _ hs) h

theorem alignDayOfWeek_spec (fuel : Nat) (s s' : Scheduler)
    (h : alignDayOfWeek fuel s = .ok s') :
    s'.when = s.when ∧ (s.Sane = true → s'.Sane = true) := by
  unfold alignDayOfWeek at h
  simp only [] at h
  cases ha : alignLoop fuel 0 (Weekday s.when) s.week with
  | error e => rw [ha] at h; cases h
  | ok week =>
    rw [ha] at h
    injection h with h
    subst h
    refine ⟨rfl, fun hs => ?_⟩
    rw [Sane_iff] at hs ⊢
    obtain ⟨h1, h2, h3, h4, h5⟩ := hs
    exact ⟨h1, h2, h3, h4,
      Ticker.sane_Next 1 7 (by decide) (by decide) _ (alignLoop_sane _ _ _ _ _ h5 ha)⟩

/-- The anchor that `reset` leaves is not before the time it was given. -/
theorem reset_ge : ∀ (fuel : Nat) (now : Int) (s s' : Scheduler),
    reset fuel now s = .ok s' → now ≤ s'.when
  | 0, _, _, _, h => by simp [reset] at h
  | fuel + 1, now, s, s', h => by
    unfold reset at h
    cases hg : get s with
    | error e => rw [hg] at h; cases h
    | ok q =>
      obtain ⟨w, ok⟩ := q
      rw [hg] at h
      simp only [] at h
      split at h
      · rename_i hc
        injection h with h
        subst h
        simp only [Bool.and_eq_true, Bool.or_eq_true, beq_iff_eq, decide_eq_true_eq] at hc
        simp only []
        omega
      · cases hn : next fuel { s with when := w } with
        | error e => rw [hn] at h; cases h
        | ok s2 =>
          rw [hn] at h
          exact reset_ge fuel now s2 s' h

theorem reset_sane : ∀ (fuel : Nat) (now : Int) (s s' : Scheduler), s.Sane = true →
    reset fuel now s = .ok s' → s'.Sane = true
  | 0, _, _, _, _, h => by simp [reset] at h
  | fuel + 1, now, s, s', hs, h => by
    unfold reset at h
    cases hg : get s with
    | error e => rw [hg] at h; cases h
    | ok q =>
      obtain ⟨w, ok⟩ := q
      rw [hg] at h
      simp only [] at h
      split at h
      · injection h with h
        subst h
        exact hs
      · cases hn : next fuel { s with when := w } with
        | error e => rw [hn] at h; cases h
        | ok s2 =>
          rw [hn] at h
          exact reset_sane fuel now s2 s' (next_mono fuel { s with when := w } _ hs hn).1 h

/-- The anchor that `Reset(t)` leaves is not before `t` truncated to the
minute. -/
theorem Reset_ge (fuel : Nat) (t : Int) (s s' : Scheduler) (h : Reset fuel t s = .ok s') :
    Truncate t ≤ s'.when := by
  unfold Reset at h
  simp only [] at h
  split at h
  · cases h
  · rename_i s1 ha
    have := reset_ge fuel _ _ _ h
    rw [(alignDayOfWeek_spec _ _ _ ha).1] at this
    exact this

theorem Reset_sane (fuel : Nat) (t : Int) (s s' : Scheduler) (hs : s.Sane = true)
    (h : Reset fuel t s = .ok s') : s'.Sane = true := by
  unfold Reset at h
  simp only [] at h
  split at h
  · cases h
  · rename_i s1 ha
    refine reset_sane fuel _ _ _ ((alignDayOfWeek_spec _ _ _ ha).2 ?_) h
    rw [Sane_iff] at hs ⊢
    obtain ⟨h1, h2, h3, h4, h5⟩ := hs
    exact ⟨Ticker.sane_reset _ _ _ h1, Ticker.sane_reset _ _ _ h2,
      Ticker.sane_reset _ _ _ (sane_unfreeze _ _ _ h3),
      Ticker.sane_reset _ _ _ (sane_unfreeze _ _ _ h4), Ticker.sane_reset _ _ _ h5⟩

end Scheduler

/-- The first time that `nextTimes` returns is the anchor. -/
theorem nextTimes_head (fuel n : Nat) (s : Scheduler) (v : Int) (ts : List Int)
    (h : nextTimes fuel n s = .ok (v :: ts)) : v = s.when := by
  cases n with
  | zero => simp [nextTimes] at h
  | succ n =>
    unfold nextTimes Scheduler.Next at h
    cases hn : Scheduler.next fuel s with
    | error e => rw [hn] at h; cases h
    | ok s2 =>
      rw [hn] at h
      simp only [] at h
      cases hr : nextTimes fuel n s2 with
      | error e => rw [hr] at h; cases h
      | ok ts2 =>
        rw [hr] at h
        simp only [Except.ok.injEq, List.cons.injEq] at h
        exact h.1.symm

/-- On a scheduler whose iterators are within their bounds the times that
successive calls of `Next` return are not before the anchor and never
decrease. -/
theorem nextTimes_sorted (fuel : Nat) : ∀ (n : Nat) (s : Scheduler) (ts : List Int),
    s.Sane = true → nextTimes fuel n s = .ok ts →
    (∀ x ∈ ts, s.when ≤ x) ∧ ts.Pairwise (· ≤ ·)
  | 0, _, ts, _, h => by
    simp only [nextTimes, Except.ok.injEq] at h
    subst h
    simp
  | n + 1, s, ts, hs, h => by
    unfold nextTimes Scheduler.Next at h
    cases hn : Scheduler.next fuel s with
    | error e => rw [hn] at h; cases h
    | ok s2 =>
      rw [hn] at h
      simp only [] at h
      cases hr : nextTimes fuel n s2 with
      | error e => rw [hr] at h; cases h
      | ok ts2 =>
        rw [hr] at h
        simp only [Except.ok.injEq] at h
        subst h
        have hm := Scheduler.next_mono fuel _ _ hs hn
        have ih := nextTimes_sorted fuel n s2 ts2 hm.1 hr
        refine ⟨?_, ?_⟩
        · intro x hx
          simp only [List.mem_cons] at hx
          rcases hx with hx | hx
          · rw [hx]; exact le_refl _
          · have := ih.1 x hx
            omega
        · rw [List.pairwise_cons]
          refine ⟨?_, ih.2⟩
          intro x hx
          have := ih.1 x hx
          show s.when ≤ x
          omega

/-- The scheduler behind a sequence of firings: the parsed fields, the
scheduler that `Schedule` returned and the scheduler after `Reset(t)`. -/
theorem firings_some (fuel n : Nat) (min hour day month week : String) (now t : Int)
    (ts : List Int) (h : firings fuel n min hour day month week now t = some ts) :
    ∃ s0 s1 s2, parseFields min hour day month week = .ok s0
      ∧ s0.Reset fuel now = .ok s1 ∧ s1.Reset fuel t = .ok s2
      ∧ nextTimes fuel n s2 = .ok ts := by
  unfold firings Schedule at h
  cases hp : parseFields min hour day month week with
  | error e => rw [hp] at h; simp at h
  | ok s0 =>
    rw [hp] at h
    simp only [] at h
    cases h1 : s0.Reset fuel now with
    | error e => rw [h1] at h; simp at h
    | ok s1 =>
      rw [h1] at h
      simp only [] at h
      cases h2 : s1.Reset fuel t with
      | error e => rw [h2] at h; simp at h
      | ok s2 =>
        rw [h2] at h
        simp only [] at h
        cases h3 : nextTimes fuel n s2 with
        | error e => rw [h3] at h; simp at h
        | ok ts2 =>
          rw [h3] at h
          simp only [Option.some.injEq] at h
          subst h
          exact ⟨s0, s1, s2, rfl, h1, h2, h3⟩

/-! ## Fuel -/

namespace Scheduler

/-- More fuel does not change what the loop of `alignDayOfWeek` returns. -/
theorem alignLoop_fuel : ∀ (fuel k i : Nat) (dow : Int) (week r : Ticker),
    alignLoop fuel i dow week = .ok r → alignLoop (fuel + k) i dow week = .ok r
  | 0, _, _, _, _, _, h => by simp [alignLoop] at h
  | fuel + 1, k, i, dow, week, r, h => by
    rw [show fuel + 1 + k = (fuel + k) + 1 by omega]
    unfold alignLoop at h ⊢
    simp only [] at h ⊢
    split
    · rename_i hc
      rw [if_pos hc] at h
      exact h
    · rename_i hc
      rw [if_neg hc] at h
      exact alignLoop_fuel fuel k _ _ _ _ h

theorem alignDayOfWeek_fuel (fuel k : Nat) (s r : Scheduler)
    (h : alignDayOfWeek fuel s = .ok r) : alignDayOfWeek (fuel + k) s = .ok r := by
  unfold alignDayOfWeek at h ⊢
  simp only [] at h ⊢
  cases ha : alignLoop fuel 0 (Weekday s.when) s.week with
  | error e => rw [ha] at h; cases h
  | ok week =>
    rw [ha] at h
    rw [alignLoop_fuel fuel k _ _ _ _ ha]
    exact h

/-- The result of `adjustNextTime` carries over to a recursive call that
returns what the first one returned. -/
theorem adjustNextTime_rec (rec rec' : Scheduler → Except Fault Scheduler) (s : Scheduler)
    (w : Int) (p : Scheduler × Int) (hrec : ∀ r, rec s = .ok r → rec' s = .ok r)
    (h : adjustNextTime rec s w = .ok p) : adjustNextTime rec' s w = .ok p := by
  unfold adjustNextTime at h ⊢
  split
  · rename_i hc
    rw [if_pos hc] at h
    unfold adjustByWeekday at h ⊢
    simp only [] at h ⊢
    split
    · rename_i hc2
      rw [if_pos hc2] at h
      exact h
    · rename_i hc2
      rw [if_neg hc2] at h
      cases hr : rec s with
      | error e => rw [hr] at h; cases h
      | ok r =>
        rw [hr] at h
        rw [hrec r hr]
        exact h
  · rename_i hc
    rw [if_neg hc] at h
    exact h

/-- More fuel does not change what `next` returns. -/
theorem next_fuel : ∀ (fuel k : Nat) (s r : Scheduler),
    next fuel s = .ok r → next (fuel + k) s = .ok r
  | 0, _, _, _, h => by simp [next] at h
  | fuel + 1, k, s, r, h => by
    rw [show fuel + 1 + k = (fuel + k) + 1 by omega]
    unfold next at h ⊢
    simp only [] at h ⊢
    cases hg : get (carry s) with
    | error e => rw [hg] at h; cases h
    | ok q =>
      obtain ⟨w, ok⟩ := q
      rw [hg] at h
      cases ok with
      | false =>
        simp only [] at h ⊢
        exact next_fuel fuel k _ _ h
      | true =>
        simp only [] at h ⊢
        cases ha : adjustNextTime (next fuel) (carry s) w with
        | error e => rw [ha] at h; cases h
        | ok p =>
          rw [ha] at h
          rw [adjustNextTime_rec (next fuel) (next (fuel + k)) _ _ _
            (fun r hr => next_fuel fuel k _ r hr) ha]
          exact h

/-- More fuel does not change what `reset` returns. -/
theorem reset_fuel : ∀ (fuel k : Nat) (now : Int) (s r : Scheduler),
    reset fuel now s = .ok r → reset (fuel + k) now s = .ok r
  | 0, _, _, _, _, h => by simp [reset] at h
  | fuel + 1, k, now, s, r, h => by
    rw [show fuel + 1 + k = (fuel + k) + 1 by omega]
    unfold reset at h ⊢
    cases hg : get s with
    | error e => rw [hg] at h; cases h
    | ok q =>
      obtain ⟨w, ok⟩ := q
      rw [hg] at h
      simp only [] at h ⊢
      split
      · rename_i hc
        rw [if_pos hc] at h
        exact h
      · rename_i hc
        rw [if_neg hc] at h
        cases hn : next fuel { s with when := w } with
        | error e => rw [hn] at h; cases h
        | ok s2 =>
          rw [hn] at h
          rw [next_fuel fuel k _ _ hn]
          exact reset_fuel fuel k now s2 r h

/-- More fuel does not change what `Reset` returns. -/
theorem Reset_fuel (fuel k : Nat) (t : Int) (s r : Scheduler)
    (h : Reset fuel t s = .ok r) : Reset (fuel + k) t s = .ok r := by
  unfold Reset at h ⊢
  simp only [] at h ⊢
  split at h
  · cases h
  · rename_i s1 ha
    rw [alignDayOfWeek_fuel fuel k _ _ ha]
    exact reset_fuel fuel k _ _ _ h

/-- Two results of `Reset` for the same time, whatever the fuel, are the
same. -/
theorem Reset_unique (f1 f2 : Nat) (t : Int) (s r1 r2 : Scheduler)
    (h1 : Reset f1 t s = .ok r1) (h2 : Reset f2 t s = .ok r2) : r1 = r2 := by
  have e1 := Reset_fuel f1 f2 t s r1 h1
  have e2 := Reset_fuel f2 f1 t s r2 h2
  rw [show f2 + f1 = f1 + f2 by omega] at e2
  rw [e1] at e2
  injection e2

end Scheduler

/-! ## Schedules that stop advancing -/

/-- The result of `get` does not depend on the day-of-week iterator. -/
theorem Scheduler.get_week (a b c d wk wk' : Ticker) (w : Int) :
    Scheduler.get ⟨a, b, c, d, wk, w⟩ = Scheduler.get ⟨a, b, c, d, wk', w⟩ := rfl

/-- The schedule `5 4 1 1 *` in the year 2022: every execution of `next`
returns the scheduler it was given, with January 1st 04:05 as anchor. -/
theorem next_yearly_fixed (fuel : Nat) (wk : Ticker) (hw : wk.All = true) :
    Scheduler.next (fuel + 1)
      ⟨.single 5 5 0 0 false 0 59, .single 4 4 0 0 false 0 23, .single 1 1 0 0 false 1 31,
        .single 1 1 0 0 false 1 12, wk, 1641009900⟩
    = .ok ⟨.single 5 5 0 0 false 0 59, .single 4 4 0 0 false 0 23, .single 1 1 0 0 false 1 31,
        .single 1 1 0 0 false 1 12, wk, 1641009900⟩ := by
  have e : Scheduler.get ⟨.single 5 5 0 0 false 0 59, .single 4 4 0 0 false 0 23,
      .single 1 1 0 0 false 1 31, .single 1 1 0 0 false 1 12, wk, 1641009900⟩
      = .ok (1641009900, true) := by
    rw [Scheduler.get_week _ _ _ _ wk Ticker.nil]
    decide!
  simp only [Scheduler.next, Scheduler.carry, Ticker.Next, Ticker.one, beq_self_eq_true,
    Bool.not_true, Bool.false_and, if_true, Bool.false_eq_true, if_false, e,
    Scheduler.adjustNextTime, Ticker.All, hw, lt_self_iff_false]

/-- The loop of `reset` on the schedule `5 4 1 1 *`, for a time after
January 1st 04:05 of the year 2022, uses up any fuel. -/
theorem reset_yearly_stuck : ∀ (fuel : Nat) (wk : Ticker) (w : Int), wk.All = true →
    w = 1643673600 ∨ w = 1641009900 →
    Scheduler.reset fuel 1643673600
      ⟨.single 5 5 0 0 false 0 59, .single 4 4 0 0 false 0 23, .single 1 1 0 0 false 1 31,
        .single 1 1 0 0 false 1 12, wk, w⟩ = .error Fault.fuel
  | 0, _, _, _, _ => rfl
  | fuel + 1, wk, w, hw, hwhen => by
    have e : Scheduler.get ⟨.single 5 5 0 0 false 0 59, .single 4 4 0 0 false 0 23,
        .single 1 1 0 0 false 1 31, .single 1 1 0 0 false 1 12, wk, w⟩
        = .ok (1641009900, true) := by
      rw [Scheduler.get_week _ _ _ _ wk Ticker.nil]
      rcases hwhen with h | h <;> subst h <;> decide!
    unfold Scheduler.reset
    rw [e]
    simp only []
    rw [if_neg (show ¬ (true && ((1641009900 : Int) == 1643673600
      || decide ((1641009900 : Int) > 1643673600))) = true by decide)]
    cases fuel with
    | zero => rfl
    | succ k =>
      rw [next_yearly_fixed k wk hw]
      exact reset_yearly_stuck (k + 1) wk _ hw (Or.inr rfl)

/-- The scheduler that `Schedule` builds from `5 4 1 1 *` on 2022-01-01
00:00:00 never returns from `Reset` to 2022-02-01 00:00:00. -/
theorem Reset_yearly_stuck (fuel : Nat) :
    Scheduler.Reset fuel 1643673600
      ⟨.single 5 5 0 0 false 0 59, .single 4 4 0 0 false 0 23, .single 1 1 0 0 false 1 31,
        .single 1 1 0 0 false 1 12, .single 1 7 6 1 true 1 7, 1641009900⟩
      = .error Fault.fuel := by
  match fuel with
  | 0 => decide!
  | 1 => decide!
  | k + 2 =>
    have ha : Scheduler.alignLoop 2 0 2 (.single 1 1 6 1 true 1 7)
        = .ok (.single 1 2 1 1 true 1 7) := by decide!
    have ha2 := Scheduler.alignLoop_fuel 2 k _ _ _ _ ha
    rw [show 2 + k = k + 2 by omega] at ha2
    have ht : Truncate 1643673600 = 1643673600 := by decide
    have hd : Weekday 1643673600 = 2 := by decide
    have hn : (Ticker.single 1 2 1 1 true 1 7).Next = .single 1 3 2 1 true 1 7 := by decide
    simp only [Scheduler.Reset, Ticker.reset, unfreeze, ht, Scheduler.alignDayOfWeek, hd, ha2,
      hn]
    exact reset_yearly_stuck _ _ _ rfl (Or.inl rfl)

/-! ## Claims C6, C7 and C8, and the input on which C2 fails as stated -/

/-- C2 (as stated, refuted): with the range `0-59` and the step `-1` as minute
field, which parses, the scheduler built on 2022-01-01 00:00:00 and reset to
that time returns 2022-01-01 00:00, then 2022-12-31 23:59, then 2022-12-31
23:58: the third time is earlier than the second. -/
theorem firings_negative_step_decrease :
    firings 10 3 "0-59/-1" "0" "1" "1" "*" 1640995200 1640995200
      = some [1640995200, 1672531140, 1672531080]
    ∧ ¬ List.Pairwise (· ≤ ·) [(1640995200 : Int), 1672531140, 1672531080] := by
  decide!

/-- For the schedule `5 4 1 1 *`, built on 2022-01-01 00:00:00, `Reset` to
2022-02-01 00:00:00 does not return, whatever the fuel. -/
theorem firings_yearly_none (fuel n : Nat) :
    firings fuel n "5" "4" "1" "1" "*" 1640995200 1643673600 = none := by
  cases h : firings fuel n "5" "4" "1" "1" "*" 1640995200 1643673600 with
  | none => rfl
  | some ts =>
    obtain ⟨s0, s1, s2, hp, h1, h2, _⟩ := firings_some _ _ _ _ _ _ _ _ _ _ h
    have hp2 : parseFields "5" "4" "1" "1" "*" = .ok
        ⟨.single 5 5 0 0 false 0 59, .single 4 4 0 0 false 0 23, .single 1 1 0 0 false 1 31,
          .single 1 1 0 0 false 1 12, .single 1 1 0 1 true 1 7, -62135596800⟩ := by decide!
    rw [hp2] at hp
    injection hp with hp
    subst hp
    have hx : Scheduler.Reset 10 1640995200
        ⟨.single 5 5 0 0 false 0 59, .single 4 4 0 0 false 0 23, .single 1 1 0 0 false 1 31,
          .single 1 1 0 0 false 1 12, .single 1 1 0 1 true 1 7, -62135596800⟩
        = .ok ⟨.single 5 5 0 0 false 0 59, .single 4 4 0 0 false 0 23,
          .single 1 1 0 0 false 1 31, .single 1 1 0 0 false 1 12, .single 1 7 6 1 true 1 7,
          1641009900⟩ := by decide!
    have e := Scheduler.Reset_unique _ _ _ _ _ _ h1 hx
    subst e
    rw [Reset_yearly_stuck] at h2
    cases h2

/-- For the schedule `5 4 1 1 *`, built on 2022-01-01 00:00:00, `Reset` to
2022-02-01 00:00:00 does not return, whatever the fuel: no call of `Next`
follows it and no time is returned. -/
theorem firings_yearly_never :
    ¬ ∃ fuel n ts, firings fuel n "5" "4" "1" "1" "*" 1640995200 1643673600 = some ts := by
  rintro ⟨fuel, n, ts, h⟩
  rw [firings_yearly_none] at h
  cases h

/-- C6: the first call of `Next` made after `Reset(t)` never returns a time
before `t` truncated to the minute: for every schedule, every `t` and every
amount of fuel, a time `v` that it returns satisfies `Truncate t ≤ v`. -/
theorem first_firing_not_before (fuel n : Nat) (min hour day month week : String)
    (now t v : Int) (ts : List Int)
    (h : firings fuel n min hour day month week now t = some (v :: ts)) :
    Truncate t ≤ v := by
  obtain ⟨s0, s1, s2, _, _, h2, h3⟩ := firings_some _ _ _ _ _ _ _ _ _ _ h
  rw [nextTimes_head _ _ _ _ _ h3]
  exact Scheduler.Reset_ge _ _ _ _ h2

/-- C6, at the schedule `*/5 10 * 3-4 *` built on 2022-01-01
00:00:00 and reset to 2022-01-01 00:00:30: the first time returned is
2022-03-01 10:00:00. -/
theorem first_firing_not_before_witness :
    firings 10 2 "*/5" "10" "*" "3-4" "*" 1640995200 1640995230
      = some [1646128800, 1646129100]
    ∧ Truncate 1640995230 ≤ 1646128800 :=
  ⟨by decide!,
    first_firing_not_before 10 2 "*/5" "10" "*" "3-4" "*" 1640995200 1640995230 1646128800
      [1646129100] (by decide!)⟩

/-- C7 (the code does not do what the claim says): for the schedule
`5 4 1 1 *`, built and reset on 2022-01-01 00:00:00, three calls of `Next`
return the same time, 2022-01-01 04:05:00: the candidate of `next` equals the
anchor, it is not strictly after it, and it is committed as it is instead of
being pushed forward by one year to 2023-01-01 04:05:00. -/
theorem firings_yearly_repeat :
    firings 10 3 "5" "4" "1" "1" "*" 1640995200 1640995200
      = some [1641009900, 1641009900, 1641009900]
    ∧ Scheduler.get ⟨.single 5 5 0 0 false 0 59, .single 4 4 0 0 false 0 23,
        .single 1 1 0 0 false 1 31, .single 1 1 0 0 false 1 12, .single 1 7 6 1 true 1 7,
        1641009900⟩ = .ok (1641009900, true)
    ∧ Scheduler.next 10 ⟨.single 5 5 0 0 false 0 59, .single 4 4 0 0 false 0 23,
        .single 1 1 0 0 false 1 31, .single 1 1 0 0 false 1 12, .single 1 7 6 1 true 1 7,
        1641009900⟩
      = .ok ⟨.single 5 5 0 0 false 0 59, .single 4 4 0 0 false 0 23,
        .single 1 1 0 0 false 1 31, .single 1 1 0 0 false 1 12, .single 1 7 6 1 true 1 7,
        1641009900⟩
    ∧ AddDate 1 0 1641009900 = 1672545900 := by
  decide!

/-- C8 (the code does not do what the claim says): `Schedule` returns a
scheduler for `5 4 1 1 *` on 2022-01-01 00:00:00, and `Reset` of that
scheduler to 2022-02-01 00:00:00 does not return with any amount of fuel. -/
theorem Reset_yearly_diverges :
    ∃ s, Schedule 10 "5" "4" "1" "1" "*" 1640995200 = .ok (.ok s)
      ∧ ∀ fuel, s.Reset fuel 1643673600 = .error Fault.fuel :=
  ⟨⟨.single 5 5 0 0 false 0 59, .single 4 4 0 0 false 0 23, .single 1 1 0 0 false 1 31,
      .single 1 1 0 0 false 1 12, .single 1 7 6 1 true 1 7, 1641009900⟩, by decide!,
    Reset_yearly_stuck⟩

/-! ## Iterators that later calls cannot tell apart -/

namespace Ticker

theorem currAt_eq : ∀ (es : List Ticker) (i : Nat), currAt es i = (es.getD i nil).Curr
  | [], _ => by simp [currAt, nil, Curr]
  | _ :: _, 0 => by simp [currAt]
  | _ :: es, i + 1 => by simpa [currAt] using currAt_eq es i

theorem isResetAt_eq : ∀ (es : List Ticker) (i : Nat),
    isResetAt es i = (es.getD i nil).isReset
  | [], _ => by simp [isResetAt, nil, isReset]
  | _ :: _, 0 => by simp [isResetAt]
  | _ :: es, i + 1 => by simpa [isResetAt] using isResetAt_eq es i

theorem nextAt_getD : ∀ (es : List Ticker) (i : Nat), i < es.length →
    (nextAt es i).getD i nil = (es.getD i nil).Next
  | [], _, h => by simp at h
  | _ :: _, 0, _ => by simp [nextAt]
  | _ :: es, i + 1, h => by
    simpa [nextAt] using nextAt_getD es i (by simpa using h)

theorem nextAt_getD_zero : ∀ (es : List Ticker) (i : Nat), i ≠ 0 →
    (nextAt es i).getD 0 nil = es.getD 0 nil
  | [], _, _ => by simp [nextAt]
  | _ :: _, 0, h => by simp at h
  | _ :: _, i + 1, _ => by simp [nextAt]

theorem resetAll_eq_map : ∀ es : List Ticker, resetAll es = es.map reset
  | [] => rfl
  | e :: es => by simp [resetAll, resetAll_eq_map es]

theorem isLeaf_Next (e : Ticker) (h : e.isLeaf = true) : e.Next.isLeaf = true := by
  cases e with
  | single base curr prev step all lower upper =>
    simp only [Next]
    split
    · rfl
    · split <;> rfl
  | interval min max step curr prev =>
    simp only [Next]
    split <;> rfl
  | list _ _ _ => simp [isLeaf] at h
  | frozen _ => simp [isLeaf] at h

theorem isLeaf_reset (e : Ticker) (h : e.isLeaf = true) : e.reset.isLeaf = true := by
  cases e <;> simp_all [isLeaf, reset]

theorem isLeaf_nil : nil.isLeaf = true := rfl

theorem obsLeaf_nil : obsLeaf nil = nil := rfl

/-- The next state of a leaf depends on its observable part only. -/
theorem Next_eq_of_obsLeaf (a b : Ticker) (ha : a.isLeaf = true) (hb : b.isLeaf = true)
    (h : obsLeaf a = obsLeaf b) : a.Next = b.Next := by
  cases a with
  | single b1 c1 p1 s1 a1 l1 u1 =>
    cases b with
    | single b2 c2 p2 s2 a2 l2 u2 =>
      simp only [obsLeaf, single.injEq] at h
      obtain ⟨h1, h2, h3, h4, h5, h6, h7⟩ := h
      subst h1 h2 h4 h5 h6 h7
      simp only [Next]
      by_cases hs : s1 = 0
      · simp only [hs, if_true] at h3
        subst h3
        rfl
      · have : (s1 == 0) = false := by simpa using hs
        simp only [this, Bool.false_eq_true, if_false]
    | interval _ _ _ _ _ => simp [obsLeaf] at h
    | list _ _ _ => simp [isLeaf] at hb
    | frozen _ => simp [isLeaf] at hb
  | interval m1 x1 s1 c1 p1 =>
    cases b with
    | single _ _ _ _ _ _ _ => simp [obsLeaf] at h
    | interval m2 x2 s2 c2 p2 =>
      simp only [obsLeaf, interval.injEq] at h
      obtain ⟨h1, h2, h3, h4, _⟩ := h
      subst h1 h2 h3 h4
      rfl
    | list _ _ _ => simp [isLeaf] at hb
    | frozen _ => simp [isLeaf] at hb
  | list _ _ _ => simp [isLeaf] at ha
  | frozen _ => simp [isLeaf] at ha

/-- What a leaf shows depends on its observable part only. -/
theorem leaf_shows (a b : Ticker) (ha : a.isLeaf = true) (hb : b.isLeaf = true)
    (h : obsLeaf a = obsLeaf b) : a.Curr = b.Curr ∧ a.one = b.one ∧ a.All = b.All := by
  cases a with
  | single b1 c1 p1 s1 a1 l1 u1 =>
    cases b with
    | single b2 c2 p2 s2 a2 l2 u2 =>
      simp only [obsLeaf, single.injEq] at h
      obtain ⟨h1, h2, h3, h4, h5, h6, h7⟩ := h
      subst h1 h2 h4 h5 h6 h7
      exact ⟨rfl, rfl, rfl⟩
    | interval _ _ _ _ _ => simp [obsLeaf] at h
    | list _ _ _ => simp [isLeaf] at hb
    | frozen _ => simp [isLeaf] at hb
  | interval m1 x1 s1 c1 p1 =>
    cases b with
    | single _ _ _ _ _ _ _ => simp [obsLeaf] at h
    | interval m2 x2 s2 c2 p2 =>
      simp only [obsLeaf, interval.injEq] at h
      obtain ⟨h1, h2, h3, h4, _⟩ := h
      subst h1 h2 h3 h4
      exact ⟨rfl, rfl, rfl⟩
    | list _ _ _ => simp [isLeaf] at hb
    | frozen _ => simp [isLeaf] at hb
  | list _ _ _ => simp [isLeaf] at ha
  | frozen _ => simp [isLeaf] at ha

/-- A constant leaf is its own observable part. -/
theorem obsLeaf_of_one (a : Ticker) (ha : a.isLeaf = true) (h1 : a.one = true) :
    obsLeaf a = a := by
  cases a with
  | single b1 c1 p1 s1 a1 l1 u1 =>
    simp only [one, beq_iff_eq] at h1
    simp [obsLeaf, h1]
  | interval _ _ _ _ _ => simp [one] at h1
  | list _ _ _ => simp [isLeaf] at ha
  | frozen _ => simp [isLeaf] at ha

theorem getD_isLeaf (es : List Ticker) (i : Nat) (h : es.all isLeaf = true) :
    (es.getD i nil).isLeaf = true := by
  by_cases hi : i < es.length
  · rw [List.getD_eq_getElem _ _ hi]
    rw [List.all_eq_true] at h
    exact h _ (List.getElem_mem _)
  · rw [List.getD_eq_default _ _ (by omega)]
    rfl

theorem getD_obsLeaf (es es' : List Ticker) (i : Nat)
    (h : es.map obsLeaf = es'.map obsLeaf) :
    obsLeaf (es.getD i nil) = obsLeaf (es'.getD i nil) := by
  have h1 := @List.getD_map _ _ es nil i obsLeaf
  have h2 := @List.getD_map _ _ es' nil i obsLeaf
  rw [← h1, ← h2, h]

theorem nextAt_all_isLeaf : ∀ (es : List Ticker) (i : Nat), es.all isLeaf = true →
    (nextAt es i).all isLeaf = true
  | [], _, _ => by simp [nextAt]
  | e :: es, 0, h => by
    simp only [List.all_cons, Bool.and_eq_true] at h
    simp only [nextAt, List.all_cons, Bool.and_eq_true]
    exact ⟨isLeaf_Next e h.1, h.2⟩
  | e :: es, i + 1, h => by
    simp only [List.all_cons, Bool.and_eq_true] at h
    simp only [nextAt, List.all_cons, Bool.and_eq_true]
    exact ⟨h.1, nextAt_all_isLeaf es i h.2⟩

theorem nextAt_map_obsLeaf : ∀ (es es' : List Ticker) (i : Nat), es.all isLeaf = true →
    es'.all isLeaf = true → es.map obsLeaf = es'.map obsLeaf →
    (nextAt es i).map obsLeaf = (nextAt es' i).map obsLeaf
  | [], [], _, _, _, _ => rfl
  | [], _ :: _, _, _, _, h => by simp at h
  | _ :: _, [], _, _, _, h => by simp at h
  | e :: es, e' :: es', 0, hl, hl', h => by
    simp only [List.all_cons, Bool.and_eq_true] at hl hl'
    simp only [List.map_cons, List.cons.injEq] at h
    simp only [nextAt, List.map_cons, List.cons.injEq]
    exact ⟨by rw [Next_eq_of_obsLeaf e e' hl.1 hl'.1 h.1], h.2⟩
  | e :: es, e' :: es', i + 1, hl, hl', h => by
    simp only [List.all_cons, Bool.and_eq_true] at hl hl'
    simp only [List.map_cons, List.cons.injEq] at h
    simp only [nextAt, List.map_cons, List.cons.injEq]
    exact ⟨h.1, nextAt_map_obsLeaf es es' i hl.2 hl'.2 h.2⟩

end Ticker

namespace Ticker

/-- Two leaves with the same observable part that are constant or have just
wrapped agree on `isReset`. -/
theorem isReset_eq_of_settled (f g : Ticker) (hf : f.isLeaf = true) (hg : g.isLeaf = true)
    (h : obsLeaf f = obsLeaf g) (sf : (f.one || f.isReset) = true)
    (sg : (g.one || g.isReset) = true) : f.isReset = g.isReset := by
  have ho := (leaf_shows f g hf hg h).2.1
  by_cases h1 : f.one = true
  · have h2 : g.one = true := by rw [← ho]; exact h1
    have e1 := obsLeaf_of_one f hf h1
    have e2 := obsLeaf_of_one g hg h2
    rw [e1, e2] at h
    rw [h]
  · have h2 : ¬ g.one = true := by rw [← ho]; exact h1
    simp only [Bool.or_eq_true] at sf sg
    rcases sf with sf | sf
    · exact absurd sf h1
    · rcases sg with sg | sg
      · exact absurd sg h2
      · rw [sf, sg]

theorem Rel_refl_leaf (a : Ticker) (ha : a.isLeaf = true) : Rel a a := by
  have hf : a.flat = true := by
    cases a <;> simp_all [flat, isLeaf]
  have hs : a.settled = true := by
    cases a <;> simp_all [settled, isLeaf]
  exact ⟨rfl, hf, hf, hs, hs⟩

theorem flat_leaf_or_list (a : Ticker) (h : a.flat = true) :
    a.isLeaf = true ∨ ∃ p q es, a = .list p q es ∧ p < es.length ∧ es.all isLeaf = true := by
  cases a with
  | single _ _ _ _ _ _ _ => exact Or.inl rfl
  | interval _ _ _ _ _ => exact Or.inl rfl
  | list p q es =>
    simp only [flat, Bool.and_eq_true, decide_eq_true_eq] at h
    exact Or.inr ⟨p, q, es, rfl, h.1, h.2⟩
  | frozen _ => simp [flat, isLeaf] at h

theorem obs_leaf (a : Ticker) (h : a.isLeaf = true) : obs a = obsLeaf a := by
  cases a <;> simp_all [obs, isLeaf]

theorem obsLeaf_isLeaf (a : Ticker) (h : a.isLeaf = true) : (obsLeaf a).isLeaf = true := by
  cases a <;> simp_all [obsLeaf, isLeaf]

/-- Related iterators are both leaves, or both lists with the same pointer
and elements with the same observable parts. -/
theorem Rel_cases (a b : Ticker) (h : Rel a b) :
    (a.isLeaf = true ∧ b.isLeaf = true ∧ obsLeaf a = obsLeaf b)
    ∨ ∃ p q q' es es', a = .list p q es ∧ b = .list p q' es' ∧ p < es.length
        ∧ es'.length = es.length ∧ es.all isLeaf = true ∧ es'.all isLeaf = true
        ∧ es.map obsLeaf = es'.map obsLeaf := by
  obtain ⟨ho, fa, fb, _, _⟩ := h
  rcases flat_leaf_or_list a fa with la | ⟨p, q, es, ea, hp, hl⟩
  · rcases flat_leaf_or_list b fb with lb | ⟨p', q', es', eb, hp', hl'⟩
    · left
      rw [obs_leaf a la, obs_leaf b lb] at ho
      exact ⟨la, lb, ho⟩
    · exfalso
      subst eb
      rw [obs_leaf a la] at ho
      have := obsLeaf_isLeaf a la
      rw [ho] at this
      simp [obs, isLeaf] at this
  · rcases flat_leaf_or_list b fb with lb | ⟨p', q', es', eb, hp', hl'⟩
    · exfalso
      subst ea
      rw [obs_leaf b lb] at ho
      have := obsLeaf_isLeaf b lb
      rw [← ho] at this
      simp [obs, isLeaf] at this
    · right
      subst ea eb
      simp only [obs, list.injEq, true_and] at ho
      obtain ⟨e1, e2⟩ := ho
      subst e1
      have hlen : es'.length = es.length := by
        have := congrArg List.length e2
        simpa using this.symm
      exact ⟨p, q, q', es, es', rfl, rfl, hp, hlen, hl, hl', e2⟩

/-- What related iterators show is the same. -/
theorem Rel_shows (a b : Ticker) (h : Rel a b) :
    a.Curr = b.Curr ∧ a.one = b.one ∧ a.All = b.All := by
  rcases Rel_cases a b h with ⟨la, lb, ho⟩ | ⟨p, q, q', es, es', ea, eb, hp, hlen, hl, hl', hm⟩
  · exact leaf_shows a b la lb ho
  · subst ea eb
    refine ⟨?_, rfl, rfl⟩
    simp only [Curr, currAt_eq]
    exact (leaf_shows _ _ (getD_isLeaf es p hl) (getD_isLeaf es' p hl')
      (getD_obsLeaf es es' p hm)).1

/-- `Next` keeps related iterators related, and `isReset` right after it
gives the same answer on both. -/
theorem Rel_Next (a b : Ticker) (h : Rel a b) :
    Rel a.Next b.Next ∧ a.Next.isReset = b.Next.isReset := by
  rcases Rel_cases a b h with ⟨la, lb, ho⟩ | ⟨p, q, q', es, es', ea, eb, hp, hlen, hl, hl', hm⟩
  · have e := Next_eq_of_obsLeaf a b la lb ho
    rw [← e]
    exact ⟨Rel_refl_leaf _ (isLeaf_Next a la), rfl⟩
  · obtain ⟨_, _, _, sa, sb⟩ := h
    subst ea eb
    have hp' : p < es'.length := by omega
    have eN : (es.getD p nil).Next = (es'.getD p nil).Next :=
      Next_eq_of_obsLeaf _ _ (getD_isLeaf es p hl) (getD_isLeaf es' p hl')
        (getD_obsLeaf es es' p hm)
    have g1 := nextAt_getD es p hp
    have g2 := nextAt_getD es' p hp'
    have l1 := nextAt_length es p
    have l2 := nextAt_length es' p
    have m := nextAt_map_obsLeaf es es' p hl hl' hm
    have a1 := nextAt_all_isLeaf es p hl
    have a2 := nextAt_all_isLeaf es' p hl'
    simp only [settled, Bool.or_eq_true, beq_iff_eq] at sa sb
    simp only [Next, g1, g2, l1, l2, hlen, ← eN]
    by_cases hc : ((es.getD p nil).Next.one || (es.getD p nil).Next.isReset) = true
    · simp only [hc, if_true]
      have hlt : (p + 1) % es.length < es.length := Nat.mod_lt _ (by omega)
      refine ⟨⟨?_, ?_, ?_, ?_, ?_⟩, ?_⟩
      · simp only [obs, m]
      · simp only [flat, Bool.and_eq_true, decide_eq_true_eq, l1]
        exact ⟨hlt, a1⟩
      · simp only [flat, Bool.and_eq_true, decide_eq_true_eq, l2, hlen]
        exact ⟨hlt, a2⟩
      · simp only [settled, Bool.or_eq_true, beq_iff_eq]
        by_cases hp0 : p = 0
        · subst hp0
          rw [g1]
          simp only [Bool.or_eq_true] at hc
          tauto
        · rw [nextAt_getD_zero es p hp0]
          tauto
      · simp only [settled, Bool.or_eq_true, beq_iff_eq]
        by_cases hp0 : p = 0
        · subst hp0
          rw [g2, ← eN]
          simp only [Bool.or_eq_true] at hc
          tauto
        · rw [nextAt_getD_zero es' p hp0]
          tauto
      · simp only [isReset, isResetAt_eq]
        by_cases hz : (p + 1) % es.length = 0
        · by_cases hp0 : p = 0
          · subst hp0
            simp [hz]
          · simp only [hz]
            rw [nextAt_getD_zero es p hp0, nextAt_getD_zero es' p hp0]
            have sa' : ((es.getD 0 nil).one || (es.getD 0 nil).isReset) = true := by
              simp only [Bool.or_eq_true]; tauto
            have sb' : ((es'.getD 0 nil).one || (es'.getD 0 nil).isReset) = true := by
              simp only [Bool.or_eq_true]; tauto
            rw [isReset_eq_of_settled _ _ (getD_isLeaf es 0 hl) (getD_isLeaf es' 0 hl')
              (getD_obsLeaf es es' 0 hm) sa' sb']
        · have : ((p + 1) % es.length == 0) = false := by simpa using hz
          simp [this]
    · simp only [hc, Bool.false_eq_true, if_false]
      refine ⟨⟨?_, ?_, ?_, ?_, ?_⟩, ?_⟩
      · simp only [obs, m]
      · simp only [flat, Bool.and_eq_true, decide_eq_true_eq, l1]
        exact ⟨hp, a1⟩
      · simp only [flat, Bool.and_eq_true, decide_eq_true_eq, l2]
        exact ⟨hp', a2⟩
      · simp only [settled, Bool.or_eq_true, beq_iff_eq]
        by_cases hp0 : p = 0
        · tauto
        · rw [nextAt_getD_zero es p hp0]
          tauto
      · simp only [settled, Bool.or_eq_true, beq_iff_eq]
        by_cases hp0 : p = 0
        · tauto
        · rw [nextAt_getD_zero es' p hp0]
          tauto
      · simp [isReset]

end Ticker

/-! ## Schedulers that later calls cannot tell apart -/

theorem unfreeze_shows (a : Ticker) :
    (unfreeze a).Curr = a.Curr ∧ (unfreeze a).one = a.one ∧ (unfreeze a).All = a.All := by
  cases a <;> simp [unfreeze, Ticker.Curr, Ticker.one, Ticker.All]

theorem flat_not_frozen (a : Ticker) (h : a.flat = true) : a.isFrozen = false := by
  cases a <;> simp_all [Ticker.flat, Ticker.isFrozen, Ticker.isLeaf]

theorem unfreeze_of_not_frozen (a : Ticker) (h : a.isFrozen = false) : unfreeze a = a := by
  cases a <;> simp_all [unfreeze, Ticker.isFrozen]

theorem Next_of_frozen (a : Ticker) (h : a.isFrozen = true) : a.Next = a := by
  cases a <;> simp_all [Ticker.Next, Ticker.isFrozen]

theorem RelTop_shows (a b : Ticker) (h : RelTop a b) :
    a.Curr = b.Curr ∧ a.one = b.one ∧ a.All = b.All := by
  have := Ticker.Rel_shows _ _ h.2
  have ua := unfreeze_shows a
  have ub := unfreeze_shows b
  rw [ua.1, ua.2.1, ua.2.2, ub.1, ub.2.1, ub.2.2] at this
  exact this

theorem Rel_to_RelTop (a b : Ticker) (h : Ticker.Rel a b) : RelTop a b := by
  have fa := flat_not_frozen a h.2.1
  have fb := flat_not_frozen b h.2.2.1
  refine ⟨by rw [fa, fb], ?_⟩
  rw [unfreeze_of_not_frozen a fa, unfreeze_of_not_frozen b fb]
  exact h

/-- `Next` keeps related iterators related, also under a `*frozen`; when
they are not frozen, `isReset` right after it gives the same answer. -/
theorem RelTop_Next (a b : Ticker) (h : RelTop a b) :
    RelTop a.Next b.Next ∧ a.Next.isFrozen = a.isFrozen
    ∧ (a.isFrozen = false → a.Next.isReset = b.Next.isReset) := by
  cases hf : a.isFrozen with
  | true =>
    have hb : b.isFrozen = true := by rw [← h.1]; exact hf
    rw [Next_of_frozen a hf, Next_of_frozen b hb]
    exact ⟨h, hf, fun c => by cases c⟩
  | false =>
    have hb : b.isFrozen = false := by rw [← h.1]; exact hf
    have h2 := h.2
    rw [unfreeze_of_not_frozen a hf, unfreeze_of_not_frozen b hb] at h2
    have hn := Ticker.Rel_Next a b h2
    exact ⟨Rel_to_RelTop _ _ hn.1, flat_not_frozen _ hn.1.2.1, fun _ => hn.2⟩

theorem RelTop_freeze (a b : Ticker) (h : RelTop a b) :
    RelTop (freeze a) (freeze b) ∧ (freeze a).isFrozen = true := by
  obtain ⟨h1, h2⟩ := h
  cases a <;> cases b <;>
    simp_all [freeze, unfreeze, RelTop, Ticker.isFrozen]

theorem RelTop_unfreeze (a b : Ticker) (h : RelTop a b) :
    RelTop (unfreeze a) (unfreeze b) ∧ (unfreeze a).isFrozen = false := by
  have := Rel_to_RelTop _ _ h.2
  exact ⟨this, flat_not_frozen _ h.2.2.1⟩

namespace Scheduler

theorem carry_min (s : Scheduler) : (carry s).min = s.min.Next := by
  unfold carry
  simp only []
  split
  · rfl
  · split
    · rfl
    · split <;> rfl

theorem carry_hour (s : Scheduler) :
    (carry s).hour = if (!s.min.Next.one && !s.min.Next.isReset) = true then s.hour
      else s.hour.Next := by
  unfold carry
  simp only []
  split
  · rfl
  · split
    · rfl
    · split <;> rfl

theorem carry_day (s : Scheduler) :
    (carry s).day = if (!s.min.Next.one && !s.min.Next.isReset) = true then s.day
      else if (!s.hour.Next.one && !s.hour.Next.isReset) = true then s.day
      else s.day.Next := by
  unfold carry
  simp only []
  split
  · rfl
  · split
    · rfl
    · split <;> rfl

theorem carry_month (s : Scheduler) :
    (carry s).month = if (!s.min.Next.one && !s.min.Next.isReset) = true then s.month
      else if (!s.hour.Next.one && !s.hour.Next.isReset) = true then s.month
      else if (!s.day.Next.one && !s.day.Next.isReset) = true then s.month
      else s.month.Next := by
  unfold carry
  simp only []
  split
  · rfl
  · split
    · rfl
    · split <;> rfl

/-- The loop of `next` keeps related schedulers related. -/
theorem carry_rel (s1 s2 : Scheduler) (h : SRel s1 s2) : SRel (carry s1) (carry s2) := by
  obtain ⟨hmin, hhour, hday, hmonth, hweek, hwhen, hsync⟩ := h
  have n1 := Ticker.Rel_Next _ _ hmin
  have n2 := Ticker.Rel_Next _ _ hhour
  have n3 := RelTop_Next _ _ hday
  have n4 := RelTop_Next _ _ hmonth
  have o1 := (Ticker.Rel_shows _ _ n1.1).2.1
  have o2 := (Ticker.Rel_shows _ _ n2.1).2.1
  have o3 := (RelTop_shows _ _ n3.1).2.1
  have c1 : (!s1.min.Next.one && !s1.min.Next.isReset)
      = (!s2.min.Next.one && !s2.min.Next.isReset) := by rw [o1, n1.2]
  have c2 : (!s1.hour.Next.one && !s1.hour.Next.isReset)
      = (!s2.hour.Next.one && !s2.hour.Next.isReset) := by rw [o2, n2.2]
  refine ⟨?_, ?_, ?_, ?_, ?_, ?_, ?_⟩
  · rw [carry_min, carry_min]; exact n1.1
  · rw [carry_hour, carry_hour, c1]
    split
    · exact hhour
    · exact n2.1
  · rw [carry_day, carry_day, c1, c2]
    split
    · exact hday
    · split
      · exact hday
      · exact n3.1
  · rw [carry_month, carry_month, c1, c2]
    split
    · exact hmonth
    · split
      · exact hmonth
      · cases hf : s1.day.isFrozen with
        | true =>
          have m1 : s1.month.isFrozen = true := by rw [← hsync]; exact hf
          have m2 : s2.month.isFrozen = true := by rw [← hmonth.1]; exact m1
          rw [Next_of_frozen _ m1, Next_of_frozen _ m2]
          split <;> split <;> exact hmonth
        | false =>
          have c3 : (!s1.day.Next.one && !s1.day.Next.isReset)
              = (!s2.day.Next.one && !s2.day.Next.isReset) := by rw [o3, n3.2.2 hf]
          rw [c3]
          split
          · exact hmonth
          · exact n4.1
  · rw [carry_week, carry_week]; exact hweek
  · rw [carry_when, carry_when]; exact hwhen
  · rw [carry_day, carry_month]
    split
    · exact hsync
    · split
      · exact hsync
      · rw [n3.2.1]
        split
        · exact hsync
        · rw [n4.2.1]; exact hsync

/-- What `get` returns is the same on related schedulers. -/
theorem get_rel (s1 s2 : Scheduler) (h : SRel s1 s2) : get s1 = get s2 := by
  obtain ⟨hmin, hhour, hday, hmonth, _, hwhen, _⟩ := h
  have e1 := (Ticker.Rel_shows _ _ hmin).1
  have e2 := (Ticker.Rel_shows _ _ hhour).1
  have e3 := (RelTop_shows _ _ hday).1
  have e4 := (RelTop_shows _ _ hmonth).1
  unfold get
  simp only [e1, e2, e3, e4, hwhen]

end Scheduler

namespace Scheduler

/-- `adjustByWeekdayAndDay` keeps related schedulers related and returns the
same time on both. -/
theorem adjustByWeekdayAndDay_rel (s1 s2 : Scheduler) (h : SRel s1 s2) (w : Int) :
    SRel (adjustByWeekdayAndDay s1 w).1 (adjustByWeekdayAndDay s2 w).1
    ∧ (adjustByWeekdayAndDay s1 w).2 = (adjustByWeekdayAndDay s2 w).2 := by
  obtain ⟨hmin, hhour, hday, hmonth, hweek, hwhen, hsync⟩ := h
  have n5 := Ticker.Rel_Next _ _ hweek
  have e5 := (Ticker.Rel_shows _ _ n5.1).1
  have f1 := RelTop_freeze _ _ hday
  have f2 := RelTop_freeze _ _ hmonth
  have u1 := RelTop_unfreeze _ _ hday
  have u2 := RelTop_unfreeze _ _ hmonth
  unfold adjustByWeekdayAndDay
  simp only [e5, hwhen]
  split_ifs
  all_goals first
    | exact ⟨⟨hmin, hhour, hday, hmonth, n5.1, rfl, hsync⟩, rfl⟩
    | exact ⟨⟨hmin, hhour, f1.1, f2.1, n5.1, rfl, f1.2.trans f2.2.symm⟩, rfl⟩
    | exact ⟨⟨hmin, hhour, u1.1, u2.1, n5.1, rfl, u1.2.trans u2.2.symm⟩, rfl⟩

theorem adjustNextTime_rel (rec1 rec2 : Scheduler → Except Fault Scheduler)
    (s1 s2 : Scheduler) (h : SRel s1 s2) (w : Int)
    (hrec : RelE SRel (rec1 s1) (rec2 s2)) :
    RelE RelAdj (adjustNextTime rec1 s1 w) (adjustNextTime rec2 s2 w) := by
  have hd := (RelTop_shows _ _ h.day).2.2
  have hw := (Ticker.Rel_shows _ _ h.week).2.2
  have hc := (Ticker.Rel_shows _ _ h.week).1
  have n5 := Ticker.Rel_Next _ _ h.week
  unfold adjustNextTime
  rw [hd, hw]
  split
  · unfold adjustByWeekday
    simp only [hc]
    split
    · exact ⟨⟨h.min, h.hour, h.day, h.month, n5.1, h.when, h.sync⟩, rfl⟩
    · cases h1 : rec1 s1 with
      | error e =>
        cases h2 : rec2 s2 with
        | error f =>
          rw [h1, h2] at hrec
          exact hrec
        | ok r2 =>
          rw [h1, h2] at hrec
          exact hrec.elim
      | ok r1 =>
        cases h2 : rec2 s2 with
        | error f =>
          rw [h1, h2] at hrec
          exact hrec.elim
        | ok r2 =>
          rw [h1, h2] at hrec
          exact ⟨hrec, hrec.when⟩
  · split
    · exact ⟨h, rfl⟩
    · exact adjustByWeekdayAndDay_rel s1 s2 h w

/-- `next` keeps related schedulers related. -/
theorem next_rel : ∀ (fuel : Nat) (s1 s2 : Scheduler), SRel s1 s2 →
    RelE SRel (next fuel s1) (next fuel s2)
  | 0, _, _, _ => by simp [next, RelE]
  | fuel + 1, s1, s2, h => by
    have hc := carry_rel s1 s2 h
    have hg := get_rel _ _ hc
    unfold next
    simp only []
    rw [hg]
    cases hq : get (carry s2) with
    | error e => simp [RelE]
    | ok q =>
      obtain ⟨w, ok⟩ := q
      cases ok with
      | false =>
        simp only []
        exact next_rel fuel _ _ hc
      | true =>
        simp only []
        have ha := adjustNextTime_rel (next fuel) (next fuel) _ _ hc w (next_rel fuel _ _ hc)
        cases h1 : adjustNextTime (next fuel) (carry s1) w with
        | error e =>
          cases h2 : adjustNextTime (next fuel) (carry s2) w with
          | error f =>
            rw [h1, h2] at ha
            exact ha
          | ok p2 =>
            rw [h1, h2] at ha
            exact ha.elim
        | ok p1 =>
          cases h2 : adjustNextTime (next fuel) (carry s2) w with
          | error f =>
            rw [h1, h2] at ha
            exact ha.elim
          | ok p2 =>
            rw [h1, h2] at ha
            obtain ⟨r, e⟩ := ha
            obtain ⟨a1, w1⟩ := p1
            obtain ⟨a2, w2⟩ := p2
            simp only [] at r e ⊢
            subst e
            simp only [RelE, r.when]
            exact ⟨r.min, r.hour, r.day, r.month, r.week, rfl, r.sync⟩

end Scheduler

namespace Scheduler

theorem alignLoop_rel : ∀ (fuel i : Nat) (dow : Int) (w1 w2 : Ticker), Ticker.Rel w1 w2 →
    (i > 0 → w1.isReset = w2.isReset) →
    RelE Ticker.Rel (alignLoop fuel i dow w1) (alignLoop fuel i dow w2)
  | 0, _, _, _, _, _, _ => by simp [alignLoop, RelE]
  | fuel + 1, i, dow, w1, w2, h, hr => by
    have sh := Ticker.Rel_shows _ _ h
    have hn := Ticker.Rel_Next _ _ h
    unfold alignLoop
    simp only [sh.1, sh.2.1]
    have hc : (decide (i > 0) && w1.isReset) = (decide (i > 0) && w2.isReset) := by
      by_cases hi : i > 0
      · rw [hr hi]
      · simp [hi]
    rw [hc]
    split
    · exact h
    · exact alignLoop_rel fuel (i + 1) dow _ _ hn.1 (fun _ => hn.2)

theorem alignDayOfWeek_rel (fuel : Nat) (s1 s2 : Scheduler) (h : SRel s1 s2) :
    RelE SRel (alignDayOfWeek fuel s1) (alignDayOfWeek fuel s2) := by
  have ha := alignLoop_rel fuel 0 (Weekday s2.when) s1.week s2.week h.week
    (fun c => absurd c (by decide))
  unfold alignDayOfWeek
  simp only [h.when]
  cases h1 : alignLoop fuel 0 (Weekday s2.when) s1.week with
  | error e =>
    cases h2 : alignLoop fuel 0 (Weekday s2.when) s2.week with
    | error f =>
      rw [h1, h2] at ha
      exact ha
    | ok b =>
      rw [h1, h2] at ha
      exact ha.elim
  | ok a =>
    cases h2 : alignLoop fuel 0 (Weekday s2.when) s2.week with
    | error f =>
      rw [h1, h2] at ha
      exact ha.elim
    | ok b =>
      rw [h1, h2] at ha
      exact ⟨h.min, h.hour, h.day, h.month, (Ticker.Rel_Next _ _ ha).1, rfl, h.sync⟩

theorem reset_rel : ∀ (fuel : Nat) (now : Int) (s1 s2 : Scheduler), SRel s1 s2 →
    RelE SRel (reset fuel now s1) (reset fuel now s2)
  | 0, _, _, _, _ => by simp [reset, RelE]
  | fuel + 1, now, s1, s2, h => by
    have hg := get_rel _ _ h
    unfold reset
    rw [hg]
    cases hq : get s2 with
    | error e => simp [RelE]
    | ok q =>
      obtain ⟨w, ok⟩ := q
      simp only []
      have hr : SRel { s1 with when := w } { s2 with when := w } :=
        ⟨h.min, h.hour, h.day, h.month, h.week, rfl, h.sync⟩
      split
      · exact hr
      · have hn := next_rel fuel _ _ hr
        cases h1 : next fuel { s1 with when := w } with
        | error e =>
          cases h2 : next fuel { s2 with when := w } with
          | error f =>
            rw [h1, h2] at hn
            exact hn
          | ok b =>
            rw [h1, h2] at hn
            exact hn.elim
        | ok a =>
          cases h2 : next fuel { s2 with when := w } with
          | error f =>
            rw [h1, h2] at hn
            exact hn.elim
          | ok b =>
            rw [h1, h2] at hn
            exact reset_rel fuel now a b hn

end Scheduler

/-- The times that successive calls of `Next` return are the same on related
schedulers. -/
theorem nextTimes_rel (fuel : Nat) : ∀ (n : Nat) (s1 s2 : Scheduler), SRel s1 s2 →
    nextTimes fuel n s1 = nextTimes fuel n s2
  | 0, _, _, _ => rfl
  | n + 1, s1, s2, h => by
    have hn := Scheduler.next_rel fuel _ _ h
    unfold nextTimes Scheduler.Next Scheduler.Now
    cases h1 : Scheduler.next fuel s1 with
    | error e =>
      cases h2 : Scheduler.next fuel s2 with
      | error f =>
        rw [h1, h2] at hn
        simp only [RelE] at hn
        rw [hn]
      | ok b =>
        rw [h1, h2] at hn
        exact hn.elim
    | ok a =>
      cases h2 : Scheduler.next fuel s2 with
      | error f =>
        rw [h1, h2] at hn
        exact hn.elim
      | ok b =>
        rw [h1, h2] at hn
        simp only [RelE] at hn
        simp only [nextTimes_rel fuel n a b hn, h.when]

/-! ## What a reset keeps of the calls made before it -/

namespace Ticker

theorem flat_of_isLeaf (a : Ticker) (h : a.isLeaf = true) : a.flat = true := by
  cases a <;> simp_all [flat, isLeaf]

theorem settled_of_isLeaf (a : Ticker) (h : a.isLeaf = true) : a.settled = true := by
  cases a <;> simp_all [settled, isLeaf]

theorem resetAll_all_isLeaf : ∀ es : List Ticker, es.all isLeaf = true →
    (resetAll es).all isLeaf = true
  | [], _ => by simp [resetAll]
  | e :: es, h => by
    simp only [List.all_cons, Bool.and_eq_true] at h
    simp only [resetAll, List.all_cons, Bool.and_eq_true]
    exact ⟨isLeaf_reset e h.1, resetAll_all_isLeaf es h.2⟩

theorem flat_Next (a : Ticker) (h : a.flat = true) : a.Next.flat = true := by
  rcases flat_leaf_or_list a h with la | ⟨p, q, es, ea, hp, hl⟩
  · exact flat_of_isLeaf _ (isLeaf_Next a la)
  · subst ea
    have l1 := nextAt_length es p
    have a1 := nextAt_all_isLeaf es p hl
    simp only [Next]
    split
    · simp only [flat, Bool.and_eq_true, decide_eq_true_eq, l1]
      exact ⟨Nat.mod_lt _ (by omega), a1⟩
    · simp only [flat, Bool.and_eq_true, decide_eq_true_eq, l1]
      exact ⟨hp, a1⟩

theorem flat_reset (a : Ticker) (h : a.flat = true) :
    a.reset.flat = true ∧ a.reset.settled = true := by
  rcases flat_leaf_or_list a h with la | ⟨p, q, es, ea, hp, hl⟩
  · have := isLeaf_reset a la
    exact ⟨flat_of_isLeaf _ this, settled_of_isLeaf _ this⟩
  · subst ea
    simp only [reset, flat, settled, Bool.and_eq_true, decide_eq_true_eq, resetAll_length,
      beq_self_eq_true, Bool.true_or, and_true]
    exact ⟨by omega, resetAll_all_isLeaf es hl⟩

theorem obsLeaf_reset_Next (e : Ticker) (h : e.isLeaf = true) :
    obsLeaf e.Next.reset = obsLeaf e.reset := by
  cases e with
  | single base curr prev step all lower upper =>
    simp only [Next]
    by_cases hs : step = 0
    · simp [hs]
    · have : (step == 0) = false := by simpa using hs
      simp only [this, Bool.false_eq_true, if_false]
      split <;> simp [reset, obsLeaf, hs]
  | interval min max step curr prev =>
    simp only [Next]
    split <;> simp [reset, obsLeaf]
  | list _ _ _ => simp [isLeaf] at h
  | frozen _ => simp [isLeaf] at h

theorem reset_reset_leaf (e : Ticker) (h : e.isLeaf = true) : e.reset.reset = e.reset := by
  cases e <;> simp_all [reset, isLeaf]

theorem resetAll_nextAt_obs : ∀ (es : List Ticker) (i : Nat), es.all isLeaf = true →
    (resetAll (nextAt es i)).map obsLeaf = (resetAll es).map obsLeaf
  | [], _, _ => by simp [nextAt]
  | e :: es, 0, h => by
    simp only [List.all_cons, Bool.and_eq_true] at h
    simp only [nextAt, resetAll, List.map_cons, obsLeaf_reset_Next e h.1]
  | e :: es, i + 1, h => by
    simp only [List.all_cons, Bool.and_eq_true] at h
    simp only [nextAt, resetAll, List.map_cons, resetAll_nextAt_obs es i h.2]

theorem resetAll_resetAll : ∀ es : List Ticker, es.all isLeaf = true →
    resetAll (resetAll es) = resetAll es
  | [], _ => rfl
  | e :: es, h => by
    simp only [List.all_cons, Bool.and_eq_true] at h
    simp only [resetAll, reset_reset_leaf e h.1, resetAll_resetAll es h.2]

theorem obs_reset_Next (a : Ticker) (h : a.flat = true) : obs a.Next.reset = obs a.reset := by
  rcases flat_leaf_or_list a h with la | ⟨p, q, es, ea, hp, hl⟩
  · rw [obs_leaf _ (isLeaf_reset _ (isLeaf_Next a la)), obs_leaf _ (isLeaf_reset a la)]
    exact obsLeaf_reset_Next a la
  · subst ea
    simp only [Next]
    split <;> simp only [reset, obs, resetAll_nextAt_obs es p hl]

theorem obs_reset_reset (a : Ticker) (h : a.flat = true) : obs a.reset.reset = obs a.reset := by
  rcases flat_leaf_or_list a h with la | ⟨p, q, es, ea, hp, hl⟩
  · rw [reset_reset_leaf a la]
  · subst ea
    simp only [reset, obs, resetAll_resetAll es hl]

theorem Cfg_refl (a : Ticker) (h : a.flat = true) : Cfg a a := ⟨rfl, h, h⟩

theorem Cfg_symm (a b : Ticker) (h : Cfg a b) : Cfg b a := ⟨h.1.symm, h.2.2, h.2.1⟩

theorem Cfg_Next (x a : Ticker) (h : Cfg x a) : Cfg x a.Next :=
  ⟨h.1.trans (obs_reset_Next a h.2.2).symm, h.2.1, flat_Next a h.2.2⟩

theorem Cfg_reset (x a : Ticker) (h : Cfg x a) : Cfg x a.reset :=
  ⟨h.1.trans (obs_reset_reset a h.2.2).symm, h.2.1, (flat_reset a h.2.2).1⟩

/-- The resets of two iterators of the same expression cannot be told
apart. -/
theorem Cfg_Rel_reset (a b : Ticker) (h : Cfg a b) : Rel a.reset b.reset :=
  ⟨h.1, (flat_reset a h.2.1).1, (flat_reset b h.2.2).1, (flat_reset a h.2.1).2,
    (flat_reset b h.2.2).2⟩

end Ticker

theorem unfreeze_flat (a : Ticker) (h : a.flat = true) : unfreeze a = a :=
  unfreeze_of_not_frozen a (flat_not_frozen a h)

theorem CfgTop_Next (x d : Ticker) (h : Ticker.Cfg x (unfreeze d)) :
    Ticker.Cfg x (unfreeze d.Next) := by
  cases hf : d.isFrozen with
  | true => rw [Next_of_frozen d hf]; exact h
  | false =>
    rw [unfreeze_of_not_frozen d hf] at h
    have := Ticker.Cfg_Next x d h
    rw [unfreeze_flat _ this.2.2]
    exact this

theorem CfgTop_freeze (x d : Ticker) (h : Ticker.Cfg x (unfreeze d)) :
    Ticker.Cfg x (unfreeze (freeze d)) := by
  cases d <;> simpa [freeze, unfreeze] using h

theorem CfgTop_unfreeze (x d : Ticker) (h : Ticker.Cfg x (unfreeze d)) :
    Ticker.Cfg x (unfreeze (unfreeze d)) := by
  rw [unfreeze_flat _ h.2.2]
  exact h

namespace Scheduler

theorem carry_cfg (s0 s : Scheduler) (h : SCfg s0 s) : SCfg s0 (carry s) := by
  obtain ⟨h1, h2, h3, h4, h5⟩ := h
  refine ⟨?_, ?_, ?_, ?_, ?_⟩
  · rw [carry_min]; exact Ticker.Cfg_Next _ _ h1
  · rw [carry_hour]
    split
    · exact h2
    · exact Ticker.Cfg_Next _ _ h2
  · rw [carry_day]
    split
    · exact h3
    · split
      · exact h3
      · exact CfgTop_Next _ _ h3
  · rw [carry_month]
    split
    · exact h4
    · split
      · exact h4
      · split
        · exact h4
        · exact CfgTop_Next _ _ h4
  · rw [carry_week]; exact h5

theorem adjustByWeekdayAndDay_cfg (s0 s : Scheduler) (h : SCfg s0 s) (w : Int) :
    SCfg s0 (adjustByWeekdayAndDay s w).1 := by
  obtain ⟨h1, h2, h3, h4, h5⟩ := h
  have n5 := Ticker.Cfg_Next _ _ h5
  have f3 := CfgTop_freeze _ _ h3
  have f4 := CfgTop_freeze _ _ h4
  have u3 := CfgTop_unfreeze _ _ h3
  have u4 := CfgTop_unfreeze _ _ h4
  unfold adjustByWeekdayAndDay
  simp only []
  split_ifs
  all_goals first
    | exact ⟨h1, h2, h3, h4, n5⟩
    | exact ⟨h1, h2, f3, f4, n5⟩
    | exact ⟨h1, h2, u3, u4, n5⟩

theorem adjustNextTime_cfg (rec : Scheduler → Except Fault Scheduler) (s0 s : Scheduler)
    (h : SCfg s0 s) (w : Int) (hrec : ∀ r, rec s = .ok r → SCfg s0 r)
    (p : Scheduler × Int) (hp : adjustNextTime rec s w = .ok p) : SCfg s0 p.1 := by
  unfold adjustNextTime at hp
  split at hp
  · unfold adjustByWeekday at hp
    simp only [] at hp
    split at hp
    · injection hp with hp
      subst hp
      exact ⟨h.min, h.hour, h.day, h.month, Ticker.Cfg_Next _ _ h.week⟩
    · cases hr : rec s with
      | error e => rw [hr] at hp; cases hp
      | ok r =>
        rw [hr] at hp
        injection hp with hp
        subst hp
        exact hrec r hr
  · split at hp
    · injection hp with hp
      subst hp
      exact h
    · injection hp with hp
      subst hp
      exact adjustByWeekdayAndDay_cfg s0 s h w

/-- `next` returns a scheduler of the same five expressions. -/
theorem next_cfg : ∀ (fuel : Nat) (s0 s r : Scheduler), SCfg s0 s → next fuel s = .ok r →
    SCfg s0 r
  | 0, _, _, _, _, h => by simp [next] at h
  | fuel + 1, s0, s, r, hc, h => by
    have hcc := carry_cfg s0 s hc
    unfold next at h
    simp only [] at h
    cases hg : get (carry s) with
    | error e => rw [hg] at h; cases h
    | ok q =>
      obtain ⟨w, ok⟩ := q
      rw [hg] at h
      cases ok with
      | false =>
        simp only [] at h
        exact next_cfg fuel s0 _ r hcc h
      | true =>
        simp only [] at h
        cases ha : adjustNextTime (next fuel) (carry s) w with
        | error e => rw [ha] at h; cases h
        | ok p =>
          rw [ha] at h
          have := adjustNextTime_cfg (next fuel) s0 (carry s) hcc w
            (fun r hr => next_cfg fuel s0 _ r hcc hr) p ha
          obtain ⟨a, w2⟩ := p
          simp only [] at h
          injection h with h
          subst h
          exact ⟨this.min, this.hour, this.day, this.month, this.week⟩

theorem alignLoop_cfg : ∀ (fuel i : Nat) (dow : Int) (x w r : Ticker), Ticker.Cfg x w →
    alignLoop fuel i dow w = .ok r → Ticker.Cfg x r
  | 0, _, _, _, _, _, _, h => by simp [alignLoop] at h
  | fuel + 1, i, dow, x, w, r, hc, h => by
    unfold alignLoop at h
    simp only [] at h
    split at h
    · injection h with h
      subst h
      exact hc
    · exact alignLoop_cfg fuel (i + 1) dow x _ r (Ticker.Cfg_Next _ _ hc) h

theorem reset_cfg : ∀ (fuel : Nat) (now : Int) (s0 s r : Scheduler), SCfg s0 s →
    reset fuel now s = .ok r → SCfg s0 r
  | 0, _, _, _, _, _, h => by simp [reset] at h
  | fuel + 1, now, s0, s, r, hc, h => by
    unfold reset at h
    cases hg : get s with
    | error e => rw [hg] at h; cases h
    | ok q =>
      obtain ⟨w, ok⟩ := q
      rw [hg] at h
      simp only [] at h
      have hc2 : SCfg s0 { s with when := w } := ⟨hc.min, hc.hour, hc.day, hc.month, hc.week⟩
      split at h
      · injection h with h
        subst h
        exact hc2
      · cases hn : next fuel { s with when := w } with
        | error e => rw [hn] at h; cases h
        | ok s2 =>
          rw [hn] at h
          exact reset_cfg fuel now s0 s2 r (next_cfg fuel s0 _ s2 hc2 hn) h

/-- `Reset` returns a scheduler of the same five expressions. -/
theorem Reset_cfg (fuel : Nat) (t : Int) (s0 s r : Scheduler) (hc : SCfg s0 s)
    (h : Reset fuel t s = .ok r) : SCfg s0 r := by
  obtain ⟨h1, h2, h3, h4, h5⟩ := hc
  have r3 := Ticker.Cfg_reset _ _ h3
  have r4 := Ticker.Cfg_reset _ _ h4
  rw [← unfreeze_flat _ r3.2.2] at r3
  rw [← unfreeze_flat _ r4.2.2] at r4
  unfold Reset at h
  simp only [] at h
  split at h
  · cases h
  · rename_i s1 ha
    refine reset_cfg fuel _ s0 s1 r ?_ h
    unfold alignDayOfWeek at ha
    simp only [] at ha
    split at ha
    · cases ha
    · rename_i wk hl
      injection ha with ha
      subst ha
      have := alignLoop_cfg _ _ _ _ _ _ (Ticker.Cfg_reset _ _ h5) hl
      exact ⟨Ticker.Cfg_reset _ _ h1, Ticker.Cfg_reset _ _ h2, r3, r4,
        Ticker.Cfg_Next _ _ this⟩

/-- `Reset` on two schedulers of the same five expressions gives schedulers
that later calls cannot tell apart. -/
theorem Reset_rel (fuel : Nat) (t : Int) (s1 s2 : Scheduler) (hc : SCfg s1 s2) :
    RelE SRel (Reset fuel t s1) (Reset fuel t s2) := by
  obtain ⟨h1, h2, h3, h4, h5⟩ := hc
  have hr : SRel
      { min := s1.min.reset, hour := s1.hour.reset, day := (unfreeze s1.day).reset,
        month := (unfreeze s1.month).reset, week := s1.week.reset, when := Truncate t }
      { min := s2.min.reset, hour := s2.hour.reset, day := (unfreeze s2.day).reset,
        month := (unfreeze s2.month).reset, week := s2.week.reset, when := Truncate t } := by
    have d := Ticker.Cfg_Rel_reset _ _ h3
    have m := Ticker.Cfg_Rel_reset _ _ h4
    exact ⟨Ticker.Cfg_Rel_reset _ _ h1, Ticker.Cfg_Rel_reset _ _ h2, Rel_to_RelTop _ _ d,
      Rel_to_RelTop _ _ m, Ticker.Cfg_Rel_reset _ _ h5, rfl,
      (flat_not_frozen _ d.2.1).trans (flat_not_frozen _ m.2.1).symm⟩
  have ha := alignDayOfWeek_rel fuel _ _ hr
  unfold Reset
  simp only []
  generalize alignDayOfWeek fuel
      { min := s1.min.reset, hour := s1.hour.reset, day := (unfreeze s1.day).reset,
        month := (unfreeze s1.month).reset, week := s1.week.reset, when := Truncate t } = x1
    at ha ⊢
  generalize alignDayOfWeek fuel
      { min := s2.min.reset, hour := s2.hour.reset, day := (unfreeze s2.day).reset,
        month := (unfreeze s2.month).reset, week := s2.week.reset, when := Truncate t } = x2
    at ha ⊢
  cases x1 with
  | error e =>
    cases x2 with
    | error f => exact ha
    | ok b => exact ha.elim
  | ok a =>
    cases x2 with
    | error f => exact ha.elim
    | ok b =>
      simp only [RelE] at ha
      simp only [ha.when]
      exact reset_rel fuel _ a b ha

theorem applyCalls_cfg (fuel : Nat) : ∀ (cs : List Call) (s0 s r : Scheduler), SCfg s0 s →
    applyCalls fuel cs s = .ok r → SCfg s0 r
  | [], _, _, _, hc, h => by
    simp only [applyCalls, Except.ok.injEq] at h
    subst h
    exact hc
  | .next :: cs, s0, s, r, hc, h => by
    unfold applyCalls Scheduler.Next at h
    cases hn : next fuel s with
    | error e => rw [hn] at h; cases h
    | ok s2 =>
      rw [hn] at h
      exact applyCalls_cfg fuel cs s0 s2 r (next_cfg fuel s0 s s2 hc hn) h
  | .reset t :: cs, s0, s, r, hc, h => by
    unfold applyCalls at h
    cases hn : Reset fuel t s with
    | error e => rw [hn] at h; cases h
    | ok s2 =>
      rw [hn] at h
      exact applyCalls_cfg fuel cs s0 s2 r (Reset_cfg fuel t s0 s s2 hc hn) h

end Scheduler

/-- After `Reset(t)`, two schedulers of the same five expressions return the
same times. -/
theorem afterReset_cfg (fuel n : Nat) (t : Int) (s1 s2 : Scheduler) (hc : SCfg s1 s2) :
    afterReset fuel n t s1 = afterReset fuel n t s2 := by
  have hr := Scheduler.Reset_rel fuel t s1 s2 hc
  unfold afterReset
  cases h1 : Scheduler.Reset fuel t s1 with
  | error e =>
    cases h2 : Scheduler.Reset fuel t s2 with
    | error f =>
      rw [h1, h2] at hr
      simp only [RelE] at hr
      rw [hr]
    | ok b =>
      rw [h1, h2] at hr
      exact hr.elim
  | ok a =>
    cases h2 : Scheduler.Reset fuel t s2 with
    | error f =>
      rw [h1, h2] at hr
      exact hr.elim
    | ok b =>
      rw [h1, h2] at hr
      exact nextTimes_rel fuel n a b hr

/-! ## The shape of the iterators that `Parse` builds -/

theorem createSingleStep_isLeaf (base : List Char) (s : Int) (names : List (List Char))
    (min max : Int) (t : Ticker) (h : createSingleStep base s names min max = .ok t) :
    t.isLeaf = true := by
  unfold createSingleStep at h
  split at h
  · simp only [All, Ticker.reset, Ticker.By] at h
    split at h <;>
    · injection h with h
      subst h
      rfl
  · split at h
    · cases h
    · split at h
      · cases h
      · simp only [Single, Ticker.reset, Ticker.By] at h
        injection h with h
        subst h
        rfl

theorem createSingle_isLeaf (base step : List Char) (names : List (List Char))
    (min max : Int) (t : Ticker) (h : createSingle base step names min max = .ok t) :
    t.isLeaf = true := by
  unfold createSingle at h
  split at h
  · split at h
    · cases h
    · exact createSingleStep_isLeaf _ _ _ _ _ _ h
  · exact createSingleStep_isLeaf _ _ _ _ _ _ h

theorem createInterval_isLeaf (from_ to_ step : List Char) (names : List (List Char))
    (min max : Int) (t : Ticker) (h : createInterval from_ to_ step names min max = .ok t) :
    t.isLeaf = true := by
  unfold createInterval at h
  simp only [] at h
  split at h
  · cases h
  · split at h
    · cases h
    · split at h
      · cases h
      · split at h
        · cases h
        · simp only [Interval, Ticker.reset, Ticker.By] at h
          injection h with h
          subst h
          rfl

theorem parse_isLeaf (cron : List Char) (min max : Int) (names : List (List Char))
    (t : Ticker) (h : parse cron min max names = .ok t) : t.isLeaf = true := by
  unfold parse at h
  split at h
  · cases h
  · split at h
    · split at h
      · exact createSingle_isLeaf _ _ _ _ _ _ h
      · exact createSingle_isLeaf _ _ _ _ _ _ h
    · split at h
      · exact createInterval_isLeaf _ _ _ _ _ _ _ h
      · exact createInterval_isLeaf _ _ _ _ _ _ _ h

theorem parseLoop_all_isLeaf : ∀ (fuel : Nat) (cron : List Char) (min max : Int)
    (names : List (List Char)) (list r : List Ticker), list.all Ticker.isLeaf = true →
    parseLoop fuel cron min max names list = .ok r → r.all Ticker.isLeaf = true
  | 0, _, _, _, _, list, r, hl, h => by
    simp only [parseLoop, Except.ok.injEq] at h
    subst h
    exact hl
  | fuel + 1, cron, min, max, names, list, r, hl, h => by
    unfold parseLoop at h
    simp only [] at h
    cases hp : parse (Strings.Cut cron Separator).1 min max names with
    | error e => rw [hp] at h; cases h
    | ok ex =>
      rw [hp] at h
      simp only [] at h
      have hl2 : (list ++ [ex]).all Ticker.isLeaf = true := by
        simp only [List.all_append, List.all_cons, List.all_nil, Bool.and_true,
          Bool.and_eq_true]
        exact ⟨hl, parse_isLeaf _ _ _ _ _ hp⟩
      split at h
      · injection h with h
        subst h
        exact hl2
      · exact parseLoop_all_isLeaf fuel _ min max names _ r hl2 h

/-- An iterator that `Parse` returns is a leaf or a list of leaves. -/
theorem Parse_flat (cron : String) (min max : Int) (names : List (List Char)) (t : Ticker)
    (h : Parse cron min max names = .ok t) : t.flat = true := by
  unfold Parse at h
  cases hp : parseLoop (cron.toList.length + 1) cron.toList min max names [] with
  | error e => rw [hp] at h; cases h
  | ok list =>
    rw [hp] at h
    simp only [] at h
    have hl := parseLoop_all_isLeaf _ _ _ _ _ _ _ (by rfl) hp
    split at h
    · rename_i hlen
      injection h with h
      subst h
      simp only [ListOf, Ticker.flat, Bool.and_eq_true, decide_eq_true_eq]
      exact ⟨by omega, hl⟩
    · injection h with h
      subst h
      exact Ticker.flat_of_isLeaf _ (Ticker.getD_isLeaf list 0 hl)

/-- The scheduler that the five expressions parse to is a scheduler of these
expressions. -/
theorem parseFields_cfg (min hour day month week : String) (s : Scheduler)
    (h : parseFields min hour day month week = .ok s) : SCfg s s := by
  unfold parseFields at h
  simp only [] at h
  split at h
  · rename_i a b c d e h1 h2 h3 h4 h5
    injection h with h
    subst h
    have f1 := Parse_flat _ _ _ _ _ h1
    have f2 := Parse_flat _ _ _ _ _ h2
    have f3 := Parse_flat _ _ _ _ _ h3
    have f4 := Parse_flat _ _ _ _ _ h4
    have f5 := Parse_flat _ _ _ _ _ h5
    refine ⟨Ticker.Cfg_refl _ f1, Ticker.Cfg_refl _ f2, ?_, ?_, Ticker.Cfg_refl _ f5⟩
    · simp only [unfreeze_flat _ f3]
      exact Ticker.Cfg_refl _ f3
    · simp only [unfreeze_flat _ f4]
      exact Ticker.Cfg_refl _ f4
  all_goals cases h

/-! ## Claim C10 -/

/-- C10: for a scheduler parsed from five field expressions, the times
returned by `Next` after `Reset(t)` are the same whatever calls of `Next` and
`Reset` were made before that `Reset(t)`: they are those of the freshly
parsed scheduler. -/
theorem reset_forgets_calls (min hour day month week : String) (s0 s : Scheduler)
    (fuel0 : Nat) (calls : List Call) (hp : parseFields min hour day month week = .ok s0)
    (hc : applyCalls fuel0 calls s0 = .ok s) (fuel n : Nat) (t : Int) :
    afterReset fuel n t s = afterReset fuel n t s0 := by
  have h0 := parseFields_cfg _ _ _ _ _ _ hp
  have h1 := Scheduler.applyCalls_cfg fuel0 calls s0 s0 s h0 hc
  exact (afterReset_cfg fuel n t s0 s h1).symm

/-- C10, at the schedule `10 10 19;28-30 2;3 1;3;5-7`: after `Reset` to
2022-02-18 20:08:00 and three calls of `Next` the day and month iterators are
frozen, and `Reset` to 2022-03-01 00:00:00 is followed by the same times as on
the freshly parsed scheduler. -/
theorem reset_forgets_calls_witness :
    parseFields "10" "10" "19;28-30" "2;3" "1;3;5-7" = .ok
      { min := .single 10 10 0 0 false 0 59,
        hour := .single 10 10 0 0 false 0 23,
        day := .list 0 0 [.single 19 19 0 0 false 1 31, .interval 28 30 1 28 0],
        month := .list 0 0 [.single 2 2 0 0 false 1 12, .single 3 3 0 0 false 1 12],
        week := .list 0 0 [.single 1 1 0 0 false 1 7, .single 3 3 0 0 false 1 7,
          .interval 5 7 1 5 0],
        when := -62135596800 }
    ∧ applyCalls 20 [.reset 1645214880, .next, .next, .next]
        { min := .single 10 10 0 0 false 0 59,
          hour := .single 10 10 0 0 false 0 23,
          day := .list 0 0 [.single 19 19 0 0 false 1 31, .interval 28 30 1 28 0],
          month := .list 0 0 [.single 2 2 0 0 false 1 12, .single 3 3 0 0 false 1 12],
          week := .list 0 0 [.single 1 1 0 0 false 1 7, .single 3 3 0 0 false 1 7,
            .interval 5 7 1 5 0],
          when := -62135596800 }
      = .ok
        { min := .single 10 10 0 0 false 0 59,
          hour := .single 10 10 0 0 false 0 23,
          day := .frozen (.list 1 0 [.single 19 19 0 0 false 1 31, .interval 28 30 1 28 0]),
          month := .frozen (.list 0 0 [.single 2 2 0 0 false 1 12,
            .single 3 3 0 0 false 1 12]),
          week := .list 1 0 [.single 1 1 0 0 false 1 7, .single 3 3 0 0 false 1 7,
            .interval 5 7 1 5 7],
          when := 1645611000 }
    ∧ afterReset 30 6 1646092800
        { min := .single 10 10 0 0 false 0 59,
          hour := .single 10 10 0 0 false 0 23,
          day := .frozen (.list 1 0 [.single 19 19 0 0 false 1 31, .interval 28 30 1 28 0]),
          month := .frozen (.list 0 0 [.single 2 2 0 0 false 1 12,
            .single 3 3 0 0 false 1 12]),
          week := .list 1 0 [.single 1 1 0 0 false 1 7, .single 3 3 0 0 false 1 7,
            .interval 5 7 1 5 7],
          when := 1645611000 }
      = afterReset 30 6 1646092800
        { min := .single 10 10 0 0 false 0 59,
          hour := .single 10 10 0 0 false 0 23,
          day := .list 0 0 [.single 19 19 0 0 false 1 31, .interval 28 30 1 28 0],
          month := .list 0 0 [.single 2 2 0 0 false 1 12, .single 3 3 0 0 false 1 12],
          week := .list 0 0 [.single 1 1 0 0 false 1 7, .single 3 3 0 0 false 1 7,
            .interval 5 7 1 5 0],
          when := -62135596800 } :=
  ⟨by decide!, by decide!,
    reset_forgets_calls "10" "10" "19;28-30" "2;3" "1;3;5-7"
      { min := .single 10 10 0 0 false 0 59,
        hour := .single 10 10 0 0 false 0 23,
        day := .list 0 0 [.single 19 19 0 0 false 1 31, .interval 28 30 1 28 0],
        month := .list 0 0 [.single 2 2 0 0 false 1 12, .single 3 3 0 0 false 1 12],
        week := .list 0 0 [.single 1 1 0 0 false 1 7, .single 3 3 0 0 false 1 7,
          .interval 5 7 1 5 0],
        when := -62135596800 }
      { min := .single 10 10 0 0 false 0 59,
        hour := .single 10 10 0 0 false 0 23,
        day := .frozen (.list 1 0 [.single 19 19 0 0 false 1 31, .interval 28 30 1 28 0]),
        month := .frozen (.list 0 0 [.single 2 2 0 0 false 1 12,
          .single 3 3 0 0 false 1 12]),
        week := .list 1 0 [.single 1 1 0 0 false 1 7, .single 3 3 0 0 false 1 7,
          .interval 5 7 1 5 7],
        when := 1645611000 }
      20 [.reset 1645214880, .next, .next, .next] (by decide!) (by decide!) 30 6 1646092800⟩

/-! ## Claims C1, C3, C4 and C5 -/

/-- C1 (the code does not do what the claim says): for the schedule
`5 4 1 1 *`, built and reset on 2023-01-01 00:00:00, the first and the second
call of `Next` both return 2023-01-01 04:05:00, although 2024-01-01 04:05:00
is a later time with minute 5, hour 4, day 1 and month 1: the second call does
not return the second smallest matching time. -/
theorem firings_yearly_not_second :
    firings 10 2 "5" "4" "1" "1" "*" 1672531200 1672531200 = some [1672545900, 1672545900]
    ∧ (1672545900 : Int) < 1704081900
    ∧ Minute 1704081900 = 5 ∧ Hour 1704081900 = 4 ∧ Day 1704081900 = 1
    ∧ Month 1704081900 = 1 ∧ Second 1704081900 = 0 := by
  decide!

/-- C3 (the code does not do what the claim says): for the schedule
`0 0 29 2;3 *`, built and reset on 2000-01-01 00:00:00, the calls of `Next`
return 2000-02-29, 2000-03-29 and then 2001-03-01: the one-year push of
February 29th gives March 1st, whose day of the month is not 29. -/
theorem firings_leap_day_pushed :
    firings 10 3 "0" "0" "29" "2;3" "*" 946684800 946684800
      = some [951782400, 954288000, 983404800]
    ∧ Year 983404800 = 2001 ∧ Month 983404800 = 3 ∧ Day 983404800 = 1 := by
  decide!

/-- C4 (the code does not do what the claim says): for the schedule
`5 4 * * 1` (Mondays), built and reset on 2022-01-01 00:00:00, the first call
of `Next` returns 2022-01-01 04:05:00, a Saturday; the second returns Monday
2022-01-03 04:05:00. -/
theorem first_firing_off_weekday :
    firings 10 2 "5" "4" "*" "*" "1" 1640995200 1640995200 = some [1641009900, 1641182700]
    ∧ Weekday 1641009900 = 6 ∧ Weekday 1641182700 = 1 := by
  decide!

/-- C5 (the code does not do what the claim says): for the schedule
`0 0 29 2;3 1` (the 29th, or Mondays), built and reset on 2000-01-01 00:00:00,
the fifth call of `Next` returns 2001-03-01 00:00:00, a Thursday that is the
first day of its month. -/
theorem firings_neither_day_nor_weekday :
    firings 10 5 "0" "0" "29" "2;3" "1" 946684800 946684800
      = some [951782400, 952300800, 954288000, 954288000, 983404800]
    ∧ Day 983404800 = 1 ∧ Weekday 983404800 = 4 := by
  decide!

/-! ## Dates that the scheduler can return -/

namespace Time

theorem daysBeforeMonth_step (m : Int) (leap : Bool) (h1 : 1 ≤ m) (h2 : m ≤ 12) :
    daysBeforeMonth (m - 1) leap < daysBeforeMonth m leap
    ∧ daysBeforeMonth m leap ≤ 365 + (if leap then 1 else 0)
    ∧ daysBeforeMonth m leap - daysBeforeMonth (m - 1) leap ≤ 31 := by
  cases leap <;> interval_cases m <;> simp [daysBeforeMonth, daysBefore]

/-- The month index of a day that lies within the month `m`. -/
theorem monthIndex_of_range (m yd : Int) (leap : Bool) (h1 : 1 ≤ m) (h2 : m ≤ 12)
    (h3 : daysBeforeMonth (m - 1) leap ≤ yd) (h4 : yd < daysBeforeMonth m leap) :
    monthIndex yd leap = m - 1 := by
  unfold monthIndex
  simp only []
  obtain ⟨q, hq⟩ : ∃ q, q = yd / 31 := ⟨_, rfl⟩
  rw [← hq]
  cases leap <;> interval_cases m <;>
    simp [daysBeforeMonth, daysBefore] at h3 h4 <;>
    (have hq1 : 0 ≤ q := by omega) <;>
    (have hq2 : q ≤ 11 := by omega) <;>
    interval_cases q <;> simp [daysBeforeMonth, daysBefore] <;> omega

/-- The fields of a date whose fields are within their bounds, the day
within its month. -/
theorem fields_of_Date (y m d h mi : Int) (hm1 : 1 ≤ m) (hm2 : m ≤ 12) (hd1 : 1 ≤ d)
    (hd2 : d ≤ daysBeforeMonth m (isLeapYear y) - daysBeforeMonth (m - 1) (isLeapYear y))
    (hh1 : 0 ≤ h) (hh2 : h ≤ 23) (hmi1 : 0 ≤ mi) (hmi2 : mi ≤ 59) :
    Year (Date y m d h mi 0) = y ∧ Month (Date y m d h mi 0) = m
    ∧ Day (Date y m d h mi 0) = d := by
  have st := daysBeforeMonth_step m (isLeapYear y) hm1 hm2
  have e1 : (m - 1) / 12 = 0 := by omega
  have e2 : (m - 1) % 12 = m - 1 := by omega
  have hdn : dayNumber (Date y m d h mi 0)
      = daysBeforeYear y + daysBeforeMonth (m - 1) (isLeapYear y) + (d - 1) := by
    unfold dayNumber Date
    simp only [e1, e2, Int.add_zero]
    omega
  have hnn := daysBeforeMonth_nonneg (m - 1) (isLeapYear y)
  have hsucc := daysBeforeYear_succ y
  have hy : Year (Date y m d h mi 0) = y := by
    unfold Year
    rw [hdn]
    have lo := le_yearOfDay y (daysBeforeYear y + daysBeforeMonth (m - 1) (isLeapYear y)
      + (d - 1)) (by omega)
    by_contra hne
    have hgt : y + 1 ≤ yearOfDay (daysBeforeYear y + daysBeforeMonth (m - 1) (isLeapYear y)
      + (d - 1)) := by omega
    have := daysBeforeYear_mono _ _ hgt
    have := yearOfDay_le (daysBeforeYear y + daysBeforeMonth (m - 1) (isLeapYear y) + (d - 1))
    omega
  have hyd : yearDay (Date y m d h mi 0) = daysBeforeMonth (m - 1) (isLeapYear y) + (d - 1) := by
    unfold yearDay
    rw [hy, hdn]
    omega
  have hmi := monthIndex_of_range m (daysBeforeMonth (m - 1) (isLeapYear y) + (d - 1))
    (isLeapYear y) hm1 hm2 (by omega) (by omega)
  refine ⟨hy, ?_, ?_⟩
  · unfold Month
    rw [hyd, hy, hmi]
    omega
  · unfold Day
    rw [hyd, hy, hmi]
    omega

end Time

theorem isLeap_isLeapYear (y : Int) (h : isLeap y = true) : isLeapYear y = true := by
  unfold isLeap at h
  simp only [Bool.and_eq_true, beq_iff_eq] at h
  have h400 : y % 400 = 0 := Int.emod_eq_zero_of_dvd (Int.dvd_of_tmod_eq_zero h.2)
  unfold isLeapYear
  simp only [Bool.and_eq_true, Bool.or_eq_true, beq_iff_eq, bne_iff_ne, ne_eq]
  omega

/-- The month length that `get` allows does not exceed the length of the
month. -/
theorem days_le_month (y m : Int) (h1 : 1 ≤ m) (h2 : m ≤ 12) :
    days.getD (m - 1).toNat 0 + (if (m == 2 && isLeap y) = true then 1 else 0)
      ≤ daysBeforeMonth m (isLeapYear y) - daysBeforeMonth (m - 1) (isLeapYear y) := by
  by_cases hl : isLeap y = true
  · have := isLeap_isLeapYear y hl
    rw [this, hl]
    interval_cases m <;> simp [days, daysBeforeMonth, daysBefore]
  · have hl' : isLeap y = false := by simpa using hl
    rw [hl']
    cases isLeapYear y <;> interval_cases m <;> simp [days, daysBeforeMonth, daysBefore]

namespace Scheduler

/-- A candidate that `get` accepts has the values of the iterators as its
month, day, hour and minute, and the anchor's year as its year. -/
theorem get_ok_fields (s : Scheduler) (hs : s.Sane = true) (w : Int)
    (hg : get s = .ok (w, true)) :
    Year w = Year s.when ∧ Month w = s.month.Curr ∧ Day w = s.day.Curr
    ∧ s.day.Curr ≤ days.getD (s.month.Curr - 1).toNat 0
        + (if (s.month.Curr == 2 && isLeap (Year s.when)) = true then 1 else 0) := by
  rw [Sane_iff] at hs
  obtain ⟨h1, h2, h3, h4, _⟩ := hs
  have c1 := Ticker.sane_Curr 0 59 _ h1
  have c2 := Ticker.sane_Curr 0 23 _ h2
  have c3 := Ticker.sane_Curr 1 31 _ h3
  have c4 := Ticker.sane_Curr 1 12 _ h4
  have hle := days_le_month (Year s.when) s.month.Curr c4.1 c4.2
  unfold get at hg
  simp only [] at hg
  rw [if_neg (by omega)] at hg
  by_cases hd : s.day.Curr > (if (s.month.Curr == 2 && isLeap (Year s.when)) = true
      then days.getD (s.month.Curr - 1).toNat 0 + 1 else days.getD (s.month.Curr - 1).toNat 0)
  · rw [if_pos hd] at hg
    simp at hg
  · rw [if_neg hd] at hg
    simp only [Except.ok.injEq, Prod.mk.injEq, and_true] at hg
    have hd2 : s.day.Curr ≤ days.getD (s.month.Curr - 1).toNat 0
        + (if (s.month.Curr == 2 && isLeap (Year s.when)) = true then 1 else 0) := by
      by_cases hc : (s.month.Curr == 2 && isLeap (Year s.when)) = true
      · rw [if_pos hc] at hd ⊢
        omega
      · rw [if_neg hc] at hd ⊢
        omega
    have f := fields_of_Date (Year s.when) s.month.Curr s.day.Curr s.hour.Curr s.min.Curr
      c4.1 c4.2 c3.1 (by omega) c2.1 c2.2 c1.1 c1.2
    rw [hg] at f
    exact ⟨f.1, f.2.1, f.2.2, hd2⟩

/-- The anchor that `reset` leaves is a candidate that `get` accepted. -/
theorem reset_anchor : ∀ (fuel : Nat) (now : Int) (s r : Scheduler), s.Sane = true →
    reset fuel now s = .ok r → ∃ s2, s2.Sane = true ∧ get s2 = .ok (r.when, true)
  | 0, _, _, _, _, h => by simp [reset] at h
  | fuel + 1, now, s, r, hs, h => by
    unfold reset at h
    cases hg : get s with
    | error e => rw [hg] at h; cases h
    | ok q =>
      obtain ⟨w, ok⟩ := q
      rw [hg] at h
      simp only [] at h
      split at h
      · rename_i hc
        injection h with h
        subst h
        simp only [Bool.and_eq_true] at hc
        rw [hc.1] at hg
        exact ⟨s, hs, hg⟩
      · cases hn : next fuel { s with when := w } with
        | error e => rw [hn] at h; cases h
        | ok s2 =>
          rw [hn] at h
          exact reset_anchor fuel now s2 r (next_mono fuel { s with when := w } _ hs hn).1 h

theorem Reset_anchor (fuel : Nat) (t : Int) (s r : Scheduler) (hs : s.Sane = true)
    (h : Reset fuel t s = .ok r) : ∃ s2, s2.Sane = true ∧ get s2 = .ok (r.when, true) := by
  unfold Reset at h
  simp only [] at h
  split at h
  · cases h
  · rename_i s1 ha
    refine reset_anchor fuel _ _ _ ((alignDayOfWeek_spec _ _ _ ha).2 ?_) h
    rw [Sane_iff] at hs ⊢
    obtain ⟨h1, h2, h3, h4, h5⟩ := hs
    exact ⟨Ticker.sane_reset _ _ _ h1, Ticker.sane_reset _ _ _ h2,
      Ticker.sane_reset _ _ _ (sane_unfreeze _ _ _ h3),
      Ticker.sane_reset _ _ _ (sane_unfreeze _ _ _ h4), Ticker.sane_reset _ _ _ h5⟩

end Scheduler

/-! ## Claim C9 -/

/-- C9 (the code does not do what the claim says): for the schedule
`* * * * *`, whenever it was built, the first call of `Next` after `Reset` to
2024-02-29 00:00:00 never returns 2024-02-29 00:00:00: `get` holds February
2024 to have 28 days. -/
theorem every_minute_skips_leap_day :
    ¬ ∃ fuel n now ts,
      firings fuel n "*" "*" "*" "*" "*" now 1709164800 = some (1709164800 :: ts) := by
  rintro ⟨fuel, n, now, ts, h⟩
  obtain ⟨s0, s1, s2, hp, h1, h2, h3⟩ := firings_some _ _ _ _ _ _ _ _ _ _ h
  have hsane : saneFields "*" "*" "*" "*" "*" = true := by decide!
  unfold saneFields at hsane
  rw [hp] at hsane
  simp only [] at hsane
  have hs1 := Scheduler.Reset_sane _ _ _ _ hsane h1
  obtain ⟨s3, hs3, hg⟩ := Scheduler.Reset_anchor _ _ _ _ hs1 h2
  have hv := nextTimes_head _ _ _ _ _ h3
  rw [← hv] at hg
  have f := Scheduler.get_ok_fields s3 hs3 _ hg
  have e1 : Year 1709164800 = 2024 := by decide
  have e2 : Month 1709164800 = 2 := by decide
  have e3 : Day 1709164800 = 29 := by decide
  rw [e1, e2, e3] at f
  obtain ⟨f1, f2, f3, f4⟩ := f
  rw [← f1, ← f2, ← f3] at f4
  revert f4
  decide

/-! ## Parsed iterators are within the bounds of their field -/

theorem createSingleStep_sane (base : List Char) (s : Int) (names : List (List Char))
    (min max : Int) (t : Ticker) (hmm : min ≤ max)
    (h : createSingleStep base s names min max = .ok t) (hs : t.stepsOk = true) :
    t.sane min max = true := by
  unfold createSingleStep at h
  split at h
  · simp only [All, Ticker.reset, Ticker.By] at h
    split at h <;>
    · injection h with h
      subst h
      simp only [Ticker.stepsOk, Bool.and_eq_true, decide_eq_true_eq] at hs
      simp only [Ticker.sane, Bool.and_eq_true, decide_eq_true_eq]
      omega
  · split at h
    · cases h
    · split at h
      · cases h
      · rename_i hr
        simp only [Single, Ticker.reset, Ticker.By] at h
        injection h with h
        subst h
        simp only [Ticker.stepsOk, Bool.and_eq_true, decide_eq_true_eq] at hs
        simp only [Ticker.sane, Bool.and_eq_true, decide_eq_true_eq]
        omega

theorem createSingle_sane (base step : List Char) (names : List (List Char))
    (min max : Int) (t : Ticker) (hmm : min ≤ max)
    (h : createSingle base step names min max = .ok t) (hs : t.stepsOk = true) :
    t.sane min max = true := by
  unfold createSingle at h
  split at h
  · split at h
    · cases h
    · exact createSingleStep_sane _ _ _ _ _ _ hmm h hs
  · exact createSingleStep_sane _ _ _ _ _ _ hmm h hs

theorem createInterval_sane (from_ to_ step : List Char) (names : List (List Char))
    (min max : Int) (t : Ticker)
    (h : createInterval from_ to_ step names min max = .ok t) (hs : t.stepsOk = true) :
    t.sane min max = true := by
  unfold createInterval at h
  simp only [] at h
  split at h
  · cases h
  · split at h
    · cases h
    · split at h
      · cases h
      · split at h
        · cases h
        · rename_i h1 h2 _ _
          simp only [Interval, Ticker.reset, Ticker.By] at h
          injection h with h
          subst h
          simp only [Ticker.stepsOk, Bool.and_eq_true, decide_eq_true_eq] at hs
          simp only [Ticker.sane, Bool.and_eq_true, decide_eq_true_eq]
          split <;> split <;> omega

theorem parse_sane (cron : List Char) (min max : Int) (names : List (List Char))
    (t : Ticker) (hmm : min ≤ max) (h : parse cron min max names = .ok t)
    (hs : t.stepsOk = true) : t.sane min max = true := by
  unfold parse at h
  split at h
  · cases h
  · split at h
    · split at h
      · exact createSingle_sane _ _ _ _ _ _ hmm h hs
      · exact createSingle_sane _ _ _ _ _ _ hmm h hs
    · split at h
      · exact createInterval_sane _ _ _ _ _ _ _ h hs
      · exact createInterval_sane _ _ _ _ _ _ _ h hs

theorem stepsOkAll_append (as bs : List Ticker) :
    Ticker.stepsOkAll (as ++ bs) = (Ticker.stepsOkAll as && Ticker.stepsOkAll bs) := by
  induction as with
  | nil => simp [Ticker.stepsOkAll]
  | cons a as ih => simp [Ticker.stepsOkAll, ih, Bool.and_assoc]

theorem saneAll_append (lo hi : Int) (as bs : List Ticker) :
    Ticker.saneAll lo hi (as ++ bs) = (Ticker.saneAll lo hi as && Ticker.saneAll lo hi bs) := by
  induction as with
  | nil => simp [Ticker.saneAll]
  | cons a as ih => simp [Ticker.saneAll, ih, Bool.and_assoc]

theorem parseLoop_sane : ∀ (fuel : Nat) (cron : List Char) (min max : Int)
    (names : List (List Char)) (list r : List Ticker), min ≤ max →
    (Ticker.stepsOkAll list = true → Ticker.saneAll min max list = true) →
    parseLoop fuel cron min max names list = .ok r →
    Ticker.stepsOkAll r = true → Ticker.saneAll min max r = true
  | 0, _, _, _, _, list, r, _, hl, h => by
    simp only [parseLoop, Except.ok.injEq] at h
    subst h
    exact hl
  | fuel + 1, cron, min, max, names, list, r, hmm, hl, h => by
    unfold parseLoop at h
    simp only [] at h
    cases hp : parse (Strings.Cut cron Separator).1 min max names with
    | error e => rw [hp] at h; cases h
    | ok ex =>
      rw [hp] at h
      simp only [] at h
      have hl2 : Ticker.stepsOkAll (list ++ [ex]) = true →
          Ticker.saneAll min max (list ++ [ex]) = true := by
        intro hst
        rw [stepsOkAll_append] at hst
        rw [saneAll_append]
        simp only [Ticker.stepsOkAll, Bool.and_true, Bool.and_eq_true] at hst
        simp only [Ticker.saneAll, Bool.and_true, Bool.and_eq_true]
        exact ⟨hl hst.1, parse_sane _ _ _ _ _ hmm hp hst.2⟩
      split at h
      · injection h with h
        subst h
        exact hl2
      · exact parseLoop_sane fuel _ min max names _ r hmm hl2 h

theorem saneAll_getD (lo hi : Int) (hlo : lo ≤ 0) (hhi : 0 ≤ hi) :
    ∀ (es : List Ticker) (i : Nat), Ticker.saneAll lo hi es = true →
      (es.getD i Ticker.nil).sane lo hi = true
  | [], _, _ => by
    simp only [List.getD_nil, Ticker.nil, Ticker.sane, Bool.and_eq_true, decide_eq_true_eq]
    omega
  | e :: _, 0, h => by
    simp only [Ticker.saneAll, Bool.and_eq_true] at h
    simpa using h.1
  | _ :: es, i + 1, h => by
    simp only [Ticker.saneAll, Bool.and_eq_true] at h
    simpa using saneAll_getD lo hi hlo hhi es i h.2

theorem stepsOkAll_getD : ∀ (es : List Ticker) (i : Nat), i < es.length →
    (es.getD i Ticker.nil).stepsOk = true → es.length = 1 → Ticker.stepsOkAll es = true
  | [], _, h, _, _ => by simp at h
  | [e], 0, _, h, _ => by
    simp only [Ticker.stepsOkAll, Bool.and_true]
    simpa using h
  | [_], i + 1, h, _, _ => by simp at h
  | _ :: _ :: _, _, _, _, hl => by simp at hl

theorem parseLoop_nonempty : ∀ (fuel : Nat) (cron : List Char) (min max : Int)
    (names : List (List Char)) (list r : List Ticker), fuel ≠ 0 ∨ list ≠ [] →
    parseLoop fuel cron min max names list = .ok r → r ≠ []
  | 0, _, _, _, _, list, r, hne, h => by
    simp only [parseLoop, Except.ok.injEq] at h
    subst h
    rcases hne with hne | hne
    · exact absurd rfl hne
    · exact hne
  | fuel + 1, cron, min, max, names, list, r, _, h => by
    unfold parseLoop at h
    simp only [] at h
    cases hp : parse (Strings.Cut cron Separator).1 min max names with
    | error e => rw [hp] at h; cases h
    | ok ex =>
      rw [hp] at h
      simp only [] at h
      split at h
      · injection h with h
        subst h
        simp
      · exact parseLoop_nonempty fuel _ min max names _ r (Or.inr (by simp)) h

/-- An iterator that `Parse` returns for a field whose bounds contain one of
0 and 1, and whose steps lie between 0 and `2^62`, stays within the bounds
of the field. -/
theorem Parse_sane (cron : String) (min max : Int) (names : List (List Char)) (t : Ticker)
    (hmm : min ≤ max) (h : Parse cron min max names = .ok t) (hs : t.stepsOk = true) :
    t.sane min max = true := by
  unfold Parse at h
  cases hp : parseLoop (cron.toList.length + 1) cron.toList min max names [] with
  | error e => rw [hp] at h; cases h
  | ok list =>
    rw [hp] at h
    simp only [] at h
    have hl := parseLoop_sane _ _ _ _ _ [] _ hmm (fun _ => rfl) hp
    have hne := parseLoop_nonempty _ _ _ _ _ _ _ (Or.inl (by omega)) hp
    split at h
    · rename_i hlen
      injection h with h
      subst h
      simp only [ListOf, Ticker.stepsOk] at hs
      simp only [ListOf, Ticker.sane, Bool.and_eq_true, decide_eq_true_eq]
      exact ⟨by omega, hl hs⟩
    · rename_i hlen
      injection h with h
      subst h
      have h1 : list.length = 1 := by
        cases list with
        | nil => exact absurd rfl hne
        | cons a as =>
          simp only [List.length_cons] at hlen ⊢
          omega
      match list, h1, hs, hl with
      | [e], _, hs, hl =>
        simp only [List.getD_cons_zero] at hs ⊢
        have := hl (by simp only [Ticker.stepsOkAll, Bool.and_true]; exact hs)
        simp only [Ticker.saneAll, Bool.and_true] at this
        exact this

/-- Expressions that parse and have no step that is negative or above `2^62`
give a scheduler whose iterators are within the bounds of their fields. -/
theorem saneFields_of_stepsFields (min hour day month week : String)
    (h : stepsFields min hour day month week = true) :
    saneFields min hour day month week = true := by
  unfold stepsFields at h
  unfold saneFields
  cases hp : parseFields min hour day month week with
  | error e => rw [hp] at h; cases h
  | ok s =>
    rw [hp] at h
    simp only [Bool.and_eq_true] at h
    obtain ⟨⟨⟨⟨s1, s2⟩, s3⟩, s4⟩, s5⟩ := h
    simp only []
    unfold parseFields at hp
    simp only [] at hp
    split at hp
    · rename_i a b c d e h1 h2 h3 h4 h5
      injection hp with hp
      subst hp
      rw [Scheduler.Sane_iff]
      exact ⟨Parse_sane _ _ _ _ _ (by decide) h1 s1, Parse_sane _ _ _ _ _ (by decide) h2 s2,
        Parse_sane _ _ _ _ _ (by decide) h3 s3, Parse_sane _ _ _ _ _ (by decide) h4 s4,
        Parse_sane _ _ _ _ _ (by decide) h5 s5⟩
    all_goals cases hp

/-! ## Claim C2 -/

/-- C2 (amended): when the five expressions parse and none of their steps is
negative or above `2^62`, the times returned by successive calls of `Next`
after `Reset(t)` never decrease. -/
theorem firings_nondecreasing (fuel n : Nat) (min hour day month week : String) (now t : Int)
    (ts : List Int) (hs : stepsFields min hour day month week = true)
    (h : firings fuel n min hour day month week now t = some ts) :
    ts.Pairwise (· ≤ ·) := by
  obtain ⟨s0, s1, s2, hp, h1, h2, h3⟩ := firings_some _ _ _ _ _ _ _ _ _ _ h
  have hs0 := saneFields_of_stepsFields _ _ _ _ _ hs
  unfold saneFields at hs0
  rw [hp] at hs0
  simp only [] at hs0
  have hs1 := Scheduler.Reset_sane _ _ _ _ hs0 h1
  have hs2 := Scheduler.Reset_sane _ _ _ _ hs1 h2
  exact (nextTimes_sorted fuel n s2 ts hs2 h3).2

/-- C2 (amended), at the schedule `*/5 10 * 3-4 *` built and reset on
2022-01-01 00:00:00. -/
theorem firings_nondecreasing_witness :
    stepsFields "*/5" "10" "*" "3-4" "*" = true
    ∧ firings 10 3 "*/5" "10" "*" "3-4" "*" 1640995200 1640995200
        = some [1646128800, 1646129100, 1646129400]
    ∧ List.Pairwise (· ≤ ·) [(1646128800 : Int), 1646129100, 1646129400] :=
  ⟨by decide!, by decide!,
    firings_nondecreasing 10 3 "*/5" "10" "*" "3-4" "*" 1640995200 1640995200 _
      (by decide!) (by decide!)⟩

/-! ## Iterators within bounds through any calls -/

/-- The iterators of a scheduler stay within the bounds of their fields
through any sequence of calls of `Next` and `Reset`. -/
theorem Scheduler.applyCalls_sane (fuel : Nat) : ∀ (cs : List Call) (s r : Scheduler),
    s.Sane = true → applyCalls fuel cs s = .ok r → r.Sane = true
  | [], _, _, hs, h => by
    simp only [applyCalls, Except.ok.injEq] at h
    subst h
    exact hs
  | .next :: cs, s, r, hs, h => by
    unfold applyCalls at h
    cases hn : s.next fuel with
    | error e => simp [Scheduler.Next, hn] at h
    | ok s1 =>
      simp only [Scheduler.Next, hn] at h
      exact Scheduler.applyCalls_sane fuel cs s1 r (Scheduler.next_mono fuel s s1 hs hn).1 h
  | .reset t :: cs, s, r, hs, h => by
    unfold applyCalls at h
    cases hn : s.Reset fuel t with
    | error e => simp [hn] at h
    | ok s1 =>
      simp only [hn] at h
      exact Scheduler.applyCalls_sane fuel cs s1 r (Scheduler.Reset_sane fuel t s s1 hs hn) h

/-! ## Tokens: numbers and names -/

theorem lookupName_first (x : List Char) : ∀ (names : List (List Char)) (k i : Nat),
    i < names.length → names.getD i [] = x → (∀ j, j < i → names.getD j [] ≠ x) →
    lookupName x names k = some (k + i)
  | [], _, _, hi, _, _ => by simp at hi
  | n :: names, k, 0, _, he, _ => by
    simp only [List.getD_cons_zero] at he
    simp [lookupName, he]
  | n :: names, k, i + 1, hi, he, hf => by
    have h0 : x ≠ n := by
      have := hf 0 (by omega)
      simp only [List.getD_cons_zero] at this
      exact fun e => this e.symm
    simp only [lookupName, h0, if_false]
    rw [lookupName_first x names (k + 1) i (by simpa using hi) (by simpa using he)
      (fun j hj => by simpa using hf (j + 1) (by omega))]
    congr 1
    omega

theorem lookupName_none (x : List Char) : ∀ (names : List (List Char)) (k : Nat),
    x ∉ names → lookupName x names k = none
  | [], _, _ => rfl
  | n :: names, k, h => by
    simp only [List.mem_cons, not_or] at h
    simp only [lookupName, h.1, if_false]
    exact lookupName_none x names (k + 1) h.2

theorem Atoi_ok_head (x : List Char) (n : Int) (h : Strconv.Atoi x = .ok n) :
    ∃ c cs, x = c :: cs ∧ (c = '-' ∨ c = '+' ∨ (48 ≤ c.toNat ∧ c.toNat ≤ 57)) := by
  cases x with
  | nil => simp [Strconv.Atoi] at h
  | cons c cs =>
    refine ⟨c, cs, rfl, ?_⟩
    by_cases h1 : c = '-'
    · exact Or.inl h1
    by_cases h2 : c = '+'
    · exact Or.inr (Or.inl h2)
    refine Or.inr (Or.inr ?_)
    by_contra hd
    have hx : Strconv.Atoi (c :: cs) = .error (.num (c :: cs) false) := by
      unfold Strconv.Atoi
      simp only []
      split
      · rfl
      · split
        · rfl
        · rename_i m heq
          exfalso
          split at heq
          · rename_i e; injection e with e1 _; exact h1 e1
          · rename_i e; injection e with e1 _; exact h2 e1
          · rename_i e _ _
            simp [Strconv.digits, hd] at heq
    rw [hx] at h
    cases h

theorem lowerChar_sign_digit (c : Char)
    (h : c = '-' ∨ c = '+' ∨ (48 ≤ c.toNat ∧ c.toNat ≤ 57)) : Strings.lowerChar c = c := by
  unfold Strings.lowerChar
  rcases h with h | h | h
  · subst h; decide
  · subst h; decide
  · rw [if_neg (by omega), if_neg (by omega), if_neg (by omega)]

/-- A token whose lower case starts with a letter `a` to `z` is not read as a
number by `strconv.Atoi`. -/
theorem Atoi_error_of_letter (x : List Char) (c : Char) (cs : List Char)
    (hx : Strings.ToLower x = c :: cs) (hc : 97 ≤ c.toNat ∧ c.toNat ≤ 122) :
    ∃ e, Strconv.Atoi x = .error e := by
  cases h : Strconv.Atoi x with
  | error e => exact ⟨e, rfl⟩
  | ok n =>
    exfalso
    obtain ⟨d, ds, hd, hs⟩ := Atoi_ok_head x n h
    subst hd
    simp only [Strings.ToLower, List.map_cons, List.cons.injEq] at hx
    rw [lowerChar_sign_digit d hs] at hx
    rw [hx.1] at hs
    rcases hs with hs | hs | hs
    · subst hs; revert hc; decide
    · subst hs; revert hc; decide
    · omega

theorem atoi_of_number (x : List Char) (names : List (List Char)) (n : Int)
    (h : Strconv.Atoi x = .ok n) : atoi x names = (n, none) := by
  simp [atoi, h]

theorem atoi_of_name (x : List Char) (names : List (List Char)) (e : Err) (i : Nat)
    (h : Strconv.Atoi x = .error e) (hi : i < names.length)
    (he : names.getD i [] = Strings.ToLower x)
    (hf : ∀ j, j < i → names.getD j [] ≠ Strings.ToLower x) :
    atoi x names = ((i : Int) + 1, none) := by
  have hl := lookupName_first (Strings.ToLower x) names 0 i hi he hf
  simp only [atoi, h, hl, Nat.zero_add]

theorem atoi_of_unknown (x : List Char) (names : List (List Char)) (e : Err)
    (h : Strconv.Atoi x = .error e) (hn : Strings.ToLower x ∉ names) :
    atoi x names = (0, some (.invalid (Strings.ToLower x))) := by
  have hl := lookupName_none (Strings.ToLower x) names 0 hn
  simp only [atoi, h, hl]

/-- An entry of a table of names all of which start with a letter `a` to `z`
and none of which occurs twice resolves to its position, counted from 1, in
any letter case. -/
theorem atoi_of_table (names : List (List Char)) (x : List Char) (i : Nat)
    (hl : ∀ k, k < names.length → (match names.getD k [] with
      | c :: _ => decide (97 ≤ c.toNat ∧ c.toNat ≤ 122)
      | [] => false) = true)
    (hd : ∀ k, k < names.length → ∀ j, j < k → names.getD j [] ≠ names.getD k [])
    (hi : i < names.length) (hx : Strings.ToLower x = names.getD i []) :
    atoi x names = ((i : Int) + 1, none) := by
  have h1 := hl i hi
  cases hn : names.getD i [] with
  | nil => rw [hn] at h1; cases h1
  | cons c cs =>
    rw [hn] at h1
    simp only [decide_eq_true_eq] at h1
    obtain ⟨e, he⟩ := Atoi_error_of_letter x c cs (hx.trans hn) h1
    exact atoi_of_name x names e i he hi hx.symm (fun j hj => by rw [hx]; exact hd i hi j hj)

theorem monthnames_letters : ∀ k, k < monthnames.length → (match monthnames.getD k [] with
    | c :: _ => decide (97 ≤ c.toNat ∧ c.toNat ≤ 122)
    | [] => false) = true := by
  decide!

theorem monthnames_nodup :
    ∀ k, k < monthnames.length → ∀ j, j < k → monthnames.getD j [] ≠ monthnames.getD k [] := by
  decide!

theorem daynames_letters : ∀ k, k < daynames.length → (match daynames.getD k [] with
    | c :: _ => decide (97 ≤ c.toNat ∧ c.toNat ≤ 122)
    | [] => false) = true := by
  decide!

theorem daynames_nodup :
    ∀ k, k < daynames.length → ∀ j, j < k → daynames.getD j [] ≠ daynames.getD k [] := by
  decide!

theorem createSingle_of_value (x : List Char) (names : List (List Char)) (min max v : Int)
    (hx : x ≠ ['*']) (ha : atoi x names = (v, none)) (h1 : min ≤ v) (h2 : v ≤ max) :
    createSingle x [] names min max = .ok ((Single v min max).By 0) := by
  have e : Strconv.Atoi [] = .error (.num [] false) := by decide
  simp only [createSingle, e, createSingleStep, hx, ha, if_false, ne_eq, not_true_eq_false]
  rw [if_neg (by omega)]

theorem createInterval_of_values (x y : List Char) (names : List (List Char))
    (min max v w : Int) (ha : atoi x names = (v, none)) (hb : atoi y names = (w, none))
    (h1 : min ≤ v) (h2 : v ≤ max) (h3 : min ≤ w) (h4 : w ≤ max) :
    createInterval x y [] names min max = .ok ((Interval v w min max).By 1) := by
  simp only [createInterval, ha, hb, ne_eq, not_true_eq_false, if_false, hasError]
  rw [if_neg (by omega), if_neg (by omega)]

theorem ToLower_star_ne (x : List Char) (c : Char) (cs : List Char)
    (hx : Strings.ToLower x = c :: cs) (hc : 97 ≤ c.toNat ∧ c.toNat ≤ 122) : x ≠ ['*'] := by
  intro e
  subst e
  have : Strings.ToLower ['*'] = ['*'] := by decide
  rw [this] at hx
  injection hx with h1 _
  subst h1
  revert hc
  decide

/-! ## What `atoi` resolves -/

/-- A token that `strconv.Atoi` reads as a number resolves to that
number; otherwise, when its lower case is in the table of names, it resolves
to the position, counted from 1, of the first entry equal to it; otherwise
`atoi` fails with an error wrapping `ErrInvalid`.  Every entry of `monthnames`
resolves to its position 1 to 12 and every entry of `daynames` to 1 (`mon`) to
7 (`sun`), in any letter case, as a single value and as the two ends of a
range. -/
theorem atoi_resolves (x y : List Char) (names : List (List Char)) :
    (∀ n, Strconv.Atoi x = .ok n → atoi x names = (n, none))
    ∧ (∀ e i, Strconv.Atoi x = .error e → i < names.length →
        names.getD i [] = Strings.ToLower x →
        (∀ j, j < i → names.getD j [] ≠ Strings.ToLower x) →
        atoi x names = ((i : Int) + 1, none))
    ∧ (∀ e, Strconv.Atoi x = .error e → Strings.ToLower x ∉ names →
        atoi x names = (0, some (.invalid (Strings.ToLower x))))
    ∧ (∀ i, i < 12 → Strings.ToLower x = monthnames.getD i [] →
        atoi x monthnames = ((i : Int) + 1, none)
        ∧ createSingle x [] monthnames 1 12 = .ok ((Single ((i : Int) + 1) 1 12).By 0)
        ∧ ∀ j, j < 12 → Strings.ToLower y = monthnames.getD j [] →
          createInterval x y [] monthnames 1 12
            = .ok ((Interval ((i : Int) + 1) ((j : Int) + 1) 1 12).By 1))
    ∧ (∀ i, i < 7 → Strings.ToLower x = daynames.getD i [] →
        atoi x daynames = ((i : Int) + 1, none)
        ∧ createSingle x [] daynames 1 7 = .ok ((Single ((i : Int) + 1) 1 7).By 0)
        ∧ ∀ j, j < 7 → Strings.ToLower y = daynames.getD j [] →
          createInterval x y [] daynames 1 7
            = .ok ((Interval ((i : Int) + 1) ((j : Int) + 1) 1 7).By 1)) := by
  refine ⟨fun n h => atoi_of_number x names n h,
    fun e i h hi he hf => atoi_of_name x names e i h hi he hf,
    fun e h hn => atoi_of_unknown x names e h hn, ?_, ?_⟩
  · intro i hi hx
    have ha := atoi_of_table monthnames x i monthnames_letters monthnames_nodup hi hx
    have hne : x ≠ ['*'] := by
      have h1 := monthnames_letters i hi
      cases hn : monthnames.getD i [] with
      | nil => rw [hn] at h1; cases h1
      | cons c cs =>
        rw [hn] at h1
        simp only [decide_eq_true_eq] at h1
        exact ToLower_star_ne x c cs (hx.trans hn) h1
    refine ⟨ha, createSingle_of_value x monthnames 1 12 _ hne ha (by omega) (by omega), ?_⟩
    intro j hj hy
    have hb := atoi_of_table monthnames y j monthnames_letters monthnames_nodup hj hy
    exact createInterval_of_values x y monthnames 1 12 _ _ ha hb (by omega) (by omega)
      (by omega) (by omega)
  · intro i hi hx
    have ha := atoi_of_table daynames x i daynames_letters daynames_nodup hi hx
    have hne : x ≠ ['*'] := by
      have h1 := daynames_letters i hi
      cases hn : daynames.getD i [] with
      | nil => rw [hn] at h1; cases h1
      | cons c cs =>
        rw [hn] at h1
        simp only [decide_eq_true_eq] at h1
        exact ToLower_star_ne x c cs (hx.trans hn) h1
    refine ⟨ha, createSingle_of_value x daynames 1 7 _ hne ha (by omega) (by omega), ?_⟩
    intro j hj hy
    have hb := atoi_of_table daynames y j daynames_letters daynames_nodup hj hy
    exact createInterval_of_values x y daynames 1 7 _ _ ha hb (by omega) (by omega)
      (by omega) (by omega)

/-! ## Claim C15 -/

/-- C15 (the code does not do what the claim says): the month abbreviation
`may` does not resolve, in any letter case: `atoi` fails on it with the error
wrapping `ErrInvalid`, and so do `Parse` of the month field `may` and
`Schedule` with that field, because the fifth entry of `monthnames` is `mai`,
which resolves to 5.  The other names resolve in any letter case (`JAN` to 1,
`Apr` to 4, `jUn` to 6, `DEC` to 12, `Mon` to 1, `SUN` to 7), and a number
resolves to itself. -/
theorem atoi_may_unknown :
    atoi ['m', 'a', 'y'] monthnames = (0, some (.invalid ['m', 'a', 'y']))
    ∧ atoi ['M', 'A', 'Y'] monthnames = (0, some (.invalid ['m', 'a', 'y']))
    ∧ atoi ['M', 'a', 'y'] monthnames = (0, some (.invalid ['m', 'a', 'y']))
    ∧ Parse "may" 1 12 monthnames = .error (.invalid ['m', 'a', 'y'])
    ∧ Schedule 10 "0" "0" "1" "may" "*" 1640995200 = .error (.invalid ['m', 'a', 'y'])
    ∧ monthnames.getD 4 [] = ['m', 'a', 'i']
    ∧ atoi ['m', 'a', 'i'] monthnames = (5, none)
    ∧ atoi ['J', 'A', 'N'] monthnames = (1, none)
    ∧ atoi ['A', 'p', 'r'] monthnames = (4, none)
    ∧ atoi ['j', 'U', 'n'] monthnames = (6, none)
    ∧ atoi ['D', 'E', 'C'] monthnames = (12, none)
    ∧ atoi ['M', 'o', 'n'] daynames = (1, none)
    ∧ atoi ['S', 'U', 'N'] daynames = (7, none)
    ∧ atoi ['1', '2'] monthnames = (12, none) := by
  decide!

/-! ## Claim C14 -/

/-- C14 (the code does not do what the claim says): the range `foo-5`, whose
first end is neither a number nor a name, fails against the bounds of the day
of the month, of the month and of the weekday with the error that wraps
`ErrRange`, not with the one that wraps `ErrInvalid`; against the bounds of
the minute, which start at 0, and as the single value `foo`, it fails with
the error that wraps `ErrInvalid`. -/
theorem Parse_unknown_endpoint :
    Parse "foo-5" 1 31 [] = .error (.range ['f', 'o', 'o'] 1 31)
    ∧ Parse "foo-5" 1 12 monthnames = .error (.range ['f', 'o', 'o'] 1 12)
    ∧ Parse "foo-5" 1 7 daynames = .error (.range ['f', 'o', 'o'] 1 7)
    ∧ Parse "foo-5" 0 59 [] = .error (.invalid ['f', 'o', 'o'])
    ∧ Parse "foo" 1 31 [] = .error (.invalid ['f', 'o', 'o']) := by
  decide!

/-! ## Claim C16 -/

theorem parseFields_error (a b c d e : String) (err : Err) :
    parseFields a b c d e = .error err ↔
      (Parse a 0 59 [] = .error err
      ∨ ((∃ t, Parse a 0 59 [] = .ok t) ∧ Parse b 0 23 [] = .error err)
      ∨ ((∃ t, Parse a 0 59 [] = .ok t) ∧ (∃ t, Parse b 0 23 [] = .ok t)
          ∧ Parse c 1 31 [] = .error err)
      ∨ ((∃ t, Parse a 0 59 [] = .ok t) ∧ (∃ t, Parse b 0 23 [] = .ok t)
          ∧ (∃ t, Parse c 1 31 [] = .ok t) ∧ Parse d 1 12 monthnames = .error err)
      ∨ ((∃ t, Parse a 0 59 [] = .ok t) ∧ (∃ t, Parse b 0 23 [] = .ok t)
          ∧ (∃ t, Parse c 1 31 [] = .ok t) ∧ (∃ t, Parse d 1 12 monthnames = .ok t)
          ∧ Parse e 1 7 daynames = .error err)) := by
  unfold parseFields
  cases h1 : Parse a 0 59 [] <;> cases h2 : Parse b 0 23 [] <;> cases h3 : Parse c 1 31 [] <;>
    cases h4 : Parse d 1 12 monthnames <;> cases h5 : Parse e 1 7 daynames <;> simp

/-- C16: `ScheduleFromList` fails, returning no scheduler, for a list that has
not five elements; for a list of five it returns what `Schedule` returns for
the five elements, and it fails with an error exactly when a field does not
parse, the error being the one of the first field that does not parse, in the
order minute, hour, day of the month, month, day of the week. -/
theorem ScheduleFromList_spec (fuel : Nat) (ls : List String) (now : Int) :
    (ls.length ≠ 5 → ScheduleFromList fuel ls now = .error (.arity ls.length))
    ∧ (∀ a b c d e, ls = [a, b, c, d, e] →
        ScheduleFromList fuel ls now = Schedule fuel a b c d e now
        ∧ ∀ err, ScheduleFromList fuel ls now = .error err ↔
          (Parse a 0 59 [] = .error err
          ∨ ((∃ t, Parse a 0 59 [] = .ok t) ∧ Parse b 0 23 [] = .error err)
          ∨ ((∃ t, Parse a 0 59 [] = .ok t) ∧ (∃ t, Parse b 0 23 [] = .ok t)
              ∧ Parse c 1 31 [] = .error err)
          ∨ ((∃ t, Parse a 0 59 [] = .ok t) ∧ (∃ t, Parse b 0 23 [] = .ok t)
              ∧ (∃ t, Parse c 1 31 [] = .ok t) ∧ Parse d 1 12 monthnames = .error err)
          ∨ ((∃ t, Parse a 0 59 [] = .ok t) ∧ (∃ t, Parse b 0 23 [] = .ok t)
              ∧ (∃ t, Parse c 1 31 [] = .ok t) ∧ (∃ t, Parse d 1 12 monthnames = .ok t)
              ∧ Parse e 1 7 daynames = .error err))) := by
  constructor
  · intro h
    simp [ScheduleFromList, h]
  · intro a b c d e hl
    subst hl
    have h0 : ScheduleFromList fuel [a, b, c, d, e] now = Schedule fuel a b c d e now := by
      simp [ScheduleFromList]
    refine ⟨h0, fun err => ?_⟩
    rw [h0, ← parseFields_error]
    unfold Schedule
    cases parseFields a b c d e <;> simp

/-! ## Claim C18 -/

theorem limitRunner.after_starts (limit : Int) : ∀ (k : Nat) (c : Int) (n : Nat),
    c + k ≤ limit + 1 →
    limitRunner.after (List.replicate k .start) ({ limit := limit, curr := c }, n)
      = ({ limit := limit, curr := c + k }, n + k)
  | 0, c, n, _ => by simp [limitRunner.after]
  | k + 1, c, n, h => by
    have hc : ¬ (limit < c) := by omega
    simp only [List.replicate_succ, limitRunner.after, limitRunner.enter, limitRunner.can,
      limitRunner.inc, decide_eq_true_eq, Bool.not_eq_true', decide_eq_false_iff_not, not_le,
      hc, if_false]
    rw [limitRunner.after_starts limit k (c + 1) (n + 1) (by push_cast at h ⊢; omega)]
    simp only [Nat.cast_add, Nat.cast_one, Prod.mk.injEq, limitRunner.mk.injEq, true_and]
    constructor <;> omega

/-- C18 (the code does not do what the claim says): for every maximum
`max ≥ 0`, of `max + 1` calls of `Run` that start before any returns each is
admitted: `max + 1` executions of the wrapped runner are in flight, and the
counter stands at `max + 1`. -/
theorem limitRunner_admits_one_more (max : Nat) :
    limitRunner.after (List.replicate (max + 1) .start) (LimitRunning max, 0)
      = ({ limit := max, curr := (max : Int) + 1 }, max + 1) := by
  have h := limitRunner.after_starts max (max + 1) 0 0 (by push_cast; omega)
  simpa [LimitRunning] using h

/-! ## Claim C17 -/

theorem Group.ctxErr_none (g : Group) (e : GoError) (h : g.ctxErr none = some e) :
    e = .canceled := by
  unfold Group.ctxErr at h
  simp only [] at h
  split at h
  · injection h with h; exact h.symm
  · cases h

/-- What `Run` returns is a value of `ctx.Err()` in the `select` of its loop:
it is never nil, and it is `context.Canceled` when the parent context is
never done, whatever the executions of the runner return. -/
theorem Scheduler.Run_returns (fuel : Nat) : ∀ (turns : List Turn) (s : Scheduler) (g : Group)
    (running : Nat) (e : Option GoError), s.Run fuel g running turns = .ok (some e) →
    e ≠ none ∧ ((∀ t ∈ turns, t.parent = none) → e = some .canceled)
  | [], _, _, _, _, h => by simp [Scheduler.Run] at h
  | turn :: turns, s, g, running, e, h => by
    unfold Scheduler.Run at h
    cases hn : s.Next fuel with
    | error f => rw [hn] at h; cases h
    | ok p =>
      obtain ⟨next, s1⟩ := p
      rw [hn] at h
      simp only [] at h
      split at h
      · obtain ⟨h1, h2⟩ := Scheduler.Run_returns fuel turns _ _ _ _ h
        exact ⟨h1, fun hp => h2 (fun t ht => hp t (List.mem_cons_of_mem _ ht))⟩
      · split at h
        · rename_i e1 he1
          simp only [Except.ok.injEq, Option.some.injEq] at h
          subst h
          refine ⟨by simp, fun hp => ?_⟩
          rw [hp turn (List.mem_cons_self _ _)] at he1
          rw [Group.ctxErr_none _ _ he1]
        · obtain ⟨h1, h2⟩ := Scheduler.Run_returns fuel turns _ _ _ _ h
          exact ⟨h1, fun hp => h2 (fun t ht => hp t (List.mem_cons_of_mem _ ht))⟩

/-- C17 (the code does not do what the claim says): on the scheduler of
`* * * * *` built on 2022-01-01 00:00:00, `Run` dispatches the runner for
00:01:00; when that execution returns `ErrDone` before 00:02:00, the parent
context not being done, `Run` returns `context.Canceled`, where the code
after the loop would return nil; when it returns another error, `Run` returns
`context.Canceled` too, not that error. -/
theorem Run_returns_canceled :
    Schedule 10 "*" "*" "*" "*" "*" 1640995200 = .ok (.ok
      ⟨.single 0 0 0 1 true 0 59, .single 0 0 0 1 true 0 23, .single 1 1 0 1 true 1 31,
        .single 1 1 0 1 true 1 12, .single 1 7 6 1 true 1 7, 1640995200⟩)
    ∧ Scheduler.Run 10
        ⟨.single 0 0 0 1 true 0 59, .single 0 0 0 1 true 0 23, .single 1 1 0 1 true 1 31,
          .single 1 1 0 1 true 1 12, .single 1 7 6 1 true 1 7, 1640995200⟩
        ⟨none⟩ 0
        [⟨1640995210, [], none⟩, ⟨1640995210, [], none⟩, ⟨1640995260, [some .errDone], none⟩]
      = .ok (some (some .canceled))
    ∧ afterLoop (some .errDone) = none
    ∧ Scheduler.Run 10
        ⟨.single 0 0 0 1 true 0 59, .single 0 0 0 1 true 0 23, .single 1 1 0 1 true 1 31,
          .single 1 1 0 1 true 1 12, .single 1 7 6 1 true 1 7, 1640995200⟩
        ⟨none⟩ 0
        [⟨1640995210, [], none⟩, ⟨1640995210, [], none⟩, ⟨1640995260, [some (.other 1)], none⟩]
      = .ok (some (some .canceled))
    ∧ afterLoop (some (.other 1)) = some (.other 1) := by
  decide!

/-! ## Claim C19 -/

theorem Ticker.sane_nextN (lo hi : Int) (hlo : -4611686018427387904 ≤ lo)
    (hhi : hi < 4611686018427387904) : ∀ (n : Nat) (t : Ticker), t.sane lo hi = true →
    (t.nextN n).sane lo hi = true
  | 0, _, h => h
  | n + 1, t, h => Ticker.sane_nextN lo hi hlo hhi n t.Next (Ticker.sane_Next lo hi hlo hhi t h)

/-- C19 (as stated, refuted): the range `0-59` with the step `-1` parses
against the bounds [0, 59]; after one call of `Next` its current value is
`-1`. -/
theorem Curr_below_bounds :
    Parse "0-59/-1" 0 59 [] = .ok (.interval 0 59 (-1) 0 0)
    ∧ (Ticker.nextN 1 (.interval 0 59 (-1) 0 0)).Curr = -1 := by
  decide!

/-- C19 (amended): for bounds `min ≤ max` and an expression that parses and
none of whose steps is negative or above `2^62`, the current value of the
iterator lies in `[min, max]` after construction and after any number of calls
of `Next`. -/
theorem Curr_within_bounds (expr : String) (min max : Int) (names : List (List Char))
    (t : Ticker) (n : Nat) (hmm : min ≤ max) (hlo : -4611686018427387904 ≤ min)
    (hhi : max < 4611686018427387904) (h : Parse expr min max names = .ok t)
    (hs : t.stepsOk = true) :
    min ≤ (t.nextN n).Curr ∧ (t.nextN n).Curr ≤ max :=
  Ticker.sane_Curr min max _
    (Ticker.sane_nextN min max hlo hhi n t (Parse_sane expr min max names t hmm h hs))

/-- C19 (amended), at the expression `3-11/2;20` parsed against the bounds of
the day of the month, after seven calls of `Next`. -/
theorem Curr_within_bounds_witness :
    Parse "3-11/2;20" 1 31 [] = .ok (.list 0 0 [.interval 3 11 2 3 0, .single 20 20 0 0 false 1 31])
    ∧ (1 : Int) ≤ (Ticker.nextN 7 (.list 0 0 [.interval 3 11 2 3 0,
        .single 20 20 0 0 false 1 31])).Curr
    ∧ (Ticker.nextN 7 (.list 0 0 [.interval 3 11 2 3 0,
        .single 20 20 0 0 false 1 31])).Curr ≤ 31 :=
  ⟨by decide!,
    Curr_within_bounds "3-11/2;20" 1 31 [] (.list 0 0 [.interval 3 11 2 3 0,
      .single 20 20 0 0 false 1 31]) 7 (by decide) (by decide) (by decide) (by decide!)
      (by decide!)⟩

/-! ## Claim C20 -/

/-- C20 (the code does not do what the claim says): the minute expression
`0;30` enumerates 0, 30, 0; the second call of `Next` brings the list back to
its first term, and `isReset` is false after it.  The scheduler of
`0;30 * * * *`, built and reset on 2022-01-01 00:00:00, therefore does not
carry into the hour: after 00:00 and 00:30 it returns 2023-01-01 00:00.
Likewise `isReset` is false after the call of `Next` that wraps the range
`5-5`, and it is true on the iterator of `*` for the day of the month before
any call of `Next`. -/
theorem isReset_misses_wrap :
    Parse "0;30" 0 59 []
      = .ok (.list 0 0 [.single 0 0 0 0 false 0 59, .single 30 30 0 0 false 0 59])
    ∧ Ticker.values 3 (.list 0 0 [.single 0 0 0 0 false 0 59, .single 30 30 0 0 false 0 59])
      = [0, 30, 0]
    ∧ Ticker.nextN 2 (.list 0 0 [.single 0 0 0 0 false 0 59, .single 30 30 0 0 false 0 59])
      = .list 0 1 [.single 0 0 0 0 false 0 59, .single 30 30 0 0 false 0 59]
    ∧ (Ticker.nextN 2
        (.list 0 0 [.single 0 0 0 0 false 0 59, .single 30 30 0 0 false 0 59])).isReset = false
    ∧ firings 10 3 "0;30" "*" "*" "*" "*" 1640995200 1640995200
      = some [1640995200, 1640997000, 1672531200]
    ∧ Parse "5-5" 0 59 [] = .ok (.interval 5 5 1 5 0)
    ∧ Ticker.Next (.interval 5 5 1 5 0) = .interval 5 5 1 5 5
    ∧ (Ticker.Next (.interval 5 5 1 5 0)).isReset = false
    ∧ Parse "*" 1 31 [] = .ok (.single 1 1 0 1 true 1 31)
    ∧ (Ticker.single 1 1 0 1 true 1 31).isReset = true := by
  decide!

/-! ## Progressions -/

theorem Ticker.nextN_succ : ∀ (n : Nat) (t : Ticker), Ticker.nextN (n + 1) t = (Ticker.nextN n t).Next
  | 0, _ => rfl
  | n + 1, t => by
    show Ticker.nextN (n + 1) t.Next = _
    rw [Ticker.nextN_succ n t.Next]
    rfl

theorem succ_mod_lt (n k : Nat) (h : n % k + 1 < k) : (n + 1) % k = n % k + 1 := by
  rw [Nat.add_mod]
  have h1 : 1 % k = 1 := Nat.mod_eq_of_lt (by omega)
  rw [h1]
  exact Nat.mod_eq_of_lt h

theorem succ_mod_eq (n k : Nat) (h : n % k + 1 = k) : (n + 1) % k = 0 := by
  have hd := Nat.div_add_mod n k
  have : n + 1 = k * (n / k + 1) := by
    rw [Nat.mul_add, Nat.mul_one]
    omega
  rw [this]
  exact Nat.mul_mod_right _ _

/-- One step of the progression: adding `step` to the `n`-th value gives the
next value when that does not exceed `upper`, and a value above `upper`
otherwise, the next value being `base`. -/
theorem cycleValue_succ (base step upper : Int) (n : Nat) (hs : 1 ≤ step)
    (hbu : base ≤ upper) :
    (cycleValue base step upper n + step ≤ upper
      ∧ cycleValue base step upper (n + 1) = cycleValue base step upper n + step)
    ∨ (upper < cycleValue base step upper n + step
      ∧ cycleValue base step upper n + step
          = base + (cycleLength base step upper : Int) * step
      ∧ cycleValue base step upper (n + 1) = base) := by
  have hq0 : 0 ≤ (upper - base) / step := Int.ediv_nonneg (by omega) (by omega)
  have hq1 : (upper - base) / step * step ≤ upper - base :=
    Int.ediv_mul_le _ (by omega)
  have hq2 : upper - base < ((upper - base) / step + 1) * step :=
    Int.lt_ediv_add_one_mul_self _ (by omega)
  have hk : (cycleLength base step upper : Int) = (upper - base) / step + 1 := by
    unfold cycleLength
    push_cast
    rw [Int.toNat_of_nonneg hq0]
  have hkpos : 0 < cycleLength base step upper := by unfold cycleLength; omega
  have hr : n % cycleLength base step upper < cycleLength base step upper :=
    Nat.mod_lt _ hkpos
  unfold cycleValue
  by_cases hc : n % cycleLength base step upper + 1 < cycleLength base step upper
  · left
    rw [succ_mod_lt _ _ hc]
    have h1 : ((n % cycleLength base step upper : Nat) : Int) + 1 ≤ (upper - base) / step := by
      have : ((n % cycleLength base step upper + 1 : Nat) : Int)
          < (cycleLength base step upper : Int) := by exact_mod_cast hc
      push_cast at this
      omega
    have h2 : (((n % cycleLength base step upper : Nat) : Int) + 1) * step
        ≤ (upper - base) / step * step :=
      mul_le_mul_of_nonneg_right h1 (by omega)
    constructor
    · have : (((n % cycleLength base step upper : Nat) : Int) + 1) * step
          = ((n % cycleLength base step upper : Nat) : Int) * step + step := by ring
      omega
    · push_cast
      ring
  · right
    have he : n % cycleLength base step upper + 1 = cycleLength base step upper := by omega
    rw [succ_mod_eq _ _ he]
    have h1 : ((n % cycleLength base step upper : Nat) : Int) + 1
        = (cycleLength base step upper : Int) := by exact_mod_cast he
    have h3 : ((n % cycleLength base step upper : Nat) : Int) * step + step
        = (cycleLength base step upper : Int) * step := by
      rw [← h1]; ring
    refine ⟨?_, ?_, by simp⟩
    · rw [hk] at h3
      omega
    · omega

theorem cycleValue_ge (base step upper : Int) (n : Nat) (hs : 1 ≤ step) :
    base ≤ cycleValue base step upper n := by
  unfold cycleValue
  have : 0 ≤ ((n % cycleLength base step upper : Nat) : Int) * step :=
    mul_nonneg (by omega) (by omega)
  omega

theorem cycleValue_zero (base step upper : Int) : cycleValue base step upper 0 = base := by
  simp [cycleValue]

theorem upper_lt_cycle_end (base step upper : Int) (hs : 1 ≤ step) (hbu : base ≤ upper) :
    upper < base + (cycleLength base step upper : Int) * step := by
  have hq0 : 0 ≤ (upper - base) / step := Int.ediv_nonneg (by omega) (by omega)
  have hq2 : upper - base < ((upper - base) / step + 1) * step :=
    Int.lt_ediv_add_one_mul_self _ (by omega)
  have hk : (cycleLength base step upper : Int) = (upper - base) / step + 1 := by
    unfold cycleLength
    push_cast
    rw [Int.toNat_of_nonneg hq0]
  rw [hk]
  omega

/-- A `*single` with a step of at least 1 runs through its progression. -/
theorem Ticker.single_cycle (base step upper lower : Int) (all : Bool) (hs : 1 ≤ step)
    (hbu : base ≤ upper) (hlo : -9223372036854775808 ≤ base)
    (hf : cycleFits base step upper) : ∀ (n : Nat) (prev : Int),
    ∃ p, Ticker.nextN n (.single base base prev step all lower upper)
      = .single base (cycleValue base step upper n) p step all lower upper
  | 0, prev => ⟨prev, by rw [cycleValue_zero]; rfl⟩
  | n + 1, prev => by
    obtain ⟨p, hp⟩ := Ticker.single_cycle base step upper lower all hs hbu hlo hf n prev
    rw [Ticker.nextN_succ, hp]
    have hge := cycleValue_ge base step upper n hs
    have hup := upper_lt_cycle_end base step upper hs hbu
    unfold cycleFits at hf
    have hne : (step == 0) = false := by
      rw [beq_eq_false_iff_ne]; omega
    simp only [Ticker.Next, hne, Bool.false_eq_true, if_false]
    rcases cycleValue_succ base step upper n hs hbu with ⟨h1, h2⟩ | ⟨h1, h2, h3⟩
    · rw [wrapInt_eq _ (by omega) (by omega), if_neg (by omega), h2]
      exact ⟨_, rfl⟩
    · rw [wrapInt_eq _ (by omega) (by omega), if_pos (by omega), h3]
      exact ⟨_, rfl⟩

/-- An `*interval` with a step of at least 1 runs through its progression. -/
theorem Ticker.interval_cycle (min max step : Int) (hs : 1 ≤ step)
    (hbu : min ≤ max) (hlo : -9223372036854775808 ≤ min)
    (hf : cycleFits min step max) : ∀ (n : Nat) (prev : Int),
    ∃ p, Ticker.nextN n (.interval min max step min prev)
      = .interval min max step (cycleValue min step max n) p
  | 0, prev => ⟨prev, by rw [cycleValue_zero]; rfl⟩
  | n + 1, prev => by
    obtain ⟨p, hp⟩ := Ticker.interval_cycle min max step hs hbu hlo hf n prev
    rw [Ticker.nextN_succ, hp]
    have hge := cycleValue_ge min step max n hs
    have hup := upper_lt_cycle_end min step max hs hbu
    unfold cycleFits at hf
    simp only [Ticker.Next]
    rcases cycleValue_succ min step max n hs hbu with ⟨h1, h2⟩ | ⟨h1, h2, h3⟩
    · rw [wrapInt_eq _ (by omega) (by omega), if_neg (by omega), h2]
      exact ⟨_, rfl⟩
    · rw [wrapInt_eq _ (by omega) (by omega), if_pos (by omega), h3]
      exact ⟨_, rfl⟩

/-- A `*single` with the step 0 never changes. -/
theorem Ticker.single_constant (base curr prev lower upper : Int) (all : Bool) :
    ∀ n : Nat, Ticker.nextN n (.single base curr prev 0 all lower upper)
      = .single base curr prev 0 all lower upper
  | 0 => rfl
  | n + 1 => by
    rw [Ticker.nextN_succ, Ticker.single_constant base curr prev lower upper all n]
    simp [Ticker.Next]

/-! ## How `parse` splits a term -/

theorem Strings.cutAt_none (c : Char) : ∀ s : List Char, c ∉ s → Strings.cutAt [c] s = none
  | [], _ => by simp [Strings.cutAt]
  | d :: s, h => by
    simp only [List.mem_cons, not_or] at h
    have hcd : ¬ (c = d) := h.1
    simp [Strings.cutAt, List.isPrefixOf, hcd, Strings.cutAt_none c s h.2]

theorem Strings.cutAt_append (c : Char) (rest : List Char) : ∀ a : List Char, c ∉ a →
    Strings.cutAt [c] (a ++ c :: rest) = some (a, rest)
  | [], _ => by simp [Strings.cutAt, List.isPrefixOf]
  | d :: a, h => by
    simp only [List.mem_cons, not_or] at h
    have hcd : ¬ (c = d) := h.1
    simp [Strings.cutAt, List.isPrefixOf, hcd, Strings.cutAt_append c rest a h.2]

theorem Strings.Cut_none (c : Char) (s : List Char) (h : c ∉ s) :
    Strings.Cut s [c] = (s, [], false) := by
  simp [Strings.Cut, Strings.cutAt_none c s h]

theorem Strings.Cut_append (c : Char) (a rest : List Char) (h : c ∉ a) :
    Strings.Cut (a ++ c :: rest) [c] = (a, rest, true) := by
  simp [Strings.Cut, Strings.cutAt_append c rest a h]

theorem parse_value (tok : List Char) (min max : Int) (names : List (List Char))
    (h0 : tok ≠ []) (h1 : '-' ∉ tok) (h2 : '/' ∉ tok) :
    parse tok min max names = createSingle tok [] names min max := by
  unfold parse
  rw [if_neg h0, Strings.Cut_none _ _ h1, Strings.Cut_none _ _ h2]

theorem parse_value_step (tok step : List Char) (min max : Int) (names : List (List Char))
    (h1 : '-' ∉ tok) (h2 : '/' ∉ tok) (h3 : '-' ∉ step) :
    parse (tok ++ '/' :: step) min max names = createSingle tok step names min max := by
  unfold parse
  have hm : '-' ∉ tok ++ '/' :: step := by
    simp only [List.mem_append, List.mem_cons, not_or]
    exact ⟨h1, by decide, h3⟩
  rw [if_neg (by simp), Strings.Cut_none _ _ hm, Strings.Cut_append _ _ _ h2]

theorem parse_range (a b : List Char) (min max : Int) (names : List (List Char))
    (h1 : '-' ∉ a) (h2 : '/' ∉ b) :
    parse (a ++ '-' :: b) min max names = createInterval a b [] names min max := by
  unfold parse
  rw [if_neg (by simp), Strings.Cut_append _ _ _ h1]
  simp only [Strings.Cut_none _ _ h2]

theorem parse_range_step (a b step : List Char) (min max : Int) (names : List (List Char))
    (h1 : '-' ∉ a) (h2 : '/' ∉ b) :
    parse (a ++ '-' :: (b ++ '/' :: step)) min max names
      = createInterval a b step names min max := by
  unfold parse
  rw [if_neg (by simp), Strings.Cut_append _ _ _ h1]
  simp only [Strings.Cut_append _ _ _ h2]

theorem Strconv.digits_chars : ∀ (cs : List Char) (acc m : Nat), Strconv.digits cs acc = some m →
    ∀ c ∈ cs, 48 ≤ c.toNat ∧ c.toNat ≤ 57
  | [], _, _, _ => by simp
  | d :: cs, acc, m, h => by
    unfold Strconv.digits at h
    split at h
    · rename_i hd
      intro c hc
      rcases List.mem_cons.1 hc with e | e
      · subst e; exact hd
      · exact Strconv.digits_chars cs _ m h c e
    · cases h

/-- What `strconv.Atoi` accepts: digits, after an optional sign; a text that
starts with `-` has no positive value. -/
theorem Strconv.Atoi_ok_chars (x : List Char) (n : Int) (h : Strconv.Atoi x = .ok n) :
    (∀ c ∈ x.tail, 48 ≤ c.toNat ∧ c.toNat ≤ 57)
    ∧ (∀ c cs, x = c :: cs → c = '-' ∧ n ≤ 0 ∨ c = '+' ∨ (48 ≤ c.toNat ∧ c.toNat ≤ 57)) := by
  cases x with
  | nil => simp [Strconv.Atoi] at h
  | cons c cs =>
    by_cases h1 : c = '-'
    · subst h1
      simp only [Strconv.Atoi] at h
      split at h
      · cases h
      · split at h
        · cases h
        · rename_i m hm
          simp only [if_true] at h
          split at h
          · cases h
          · injection h with h
            refine ⟨Strconv.digits_chars _ _ _ hm, ?_⟩
            intro c cs2 e
            injection e with e1 e2
            subst e1
            left
            exact ⟨rfl, by omega⟩
    · by_cases h2 : c = '+'
      · subst h2
        simp only [Strconv.Atoi] at h
        split at h
        · cases h
        · split at h
          · cases h
          · rename_i m hm
            refine ⟨Strconv.digits_chars _ _ _ hm, ?_⟩
            intro c cs2 e
            injection e with e1 e2
            subst e1
            right; left; rfl
      · have hx : Strconv.Atoi (c :: cs) = .ok n := h
        unfold Strconv.Atoi at h
        simp only [] at h
        split at h
        · cases h
        · split at h
          · cases h
          · rename_i m heq
            have hd : ∀ d ∈ c :: cs, 48 ≤ d.toNat ∧ d.toNat ≤ 57 := by
              split at heq
              · rename_i e; injection e with e1 _; exact absurd e1 h1
              · rename_i e; injection e with e1 _; exact absurd e1 h2
              · exact Strconv.digits_chars _ _ _ heq
            refine ⟨fun d hdm => hd d (List.mem_cons_of_mem _ hdm), ?_⟩
            intro c2 cs2 e
            injection e with e1 e2
            subst e1
            right; right
            exact hd c (List.mem_cons_self _ _)

theorem Strconv.Atoi_pos_chars (x : List Char) (n : Int) (h : Strconv.Atoi x = .ok n)
    (hn : 1 ≤ n) : '-' ∉ x ∧ '/' ∉ x := by
  obtain ⟨h1, h2⟩ := Strconv.Atoi_ok_chars x n h
  cases x with
  | nil => simp
  | cons c cs =>
    have ht : ∀ d ∈ cs, 48 ≤ d.toNat ∧ d.toNat ≤ 57 := h1
    have hc := h2 c cs rfl
    constructor
    · intro hm
      rcases List.mem_cons.1 hm with e | e
      · rcases hc with ⟨_, hc⟩ | hc | hc
        · omega
        · subst hc; revert e; decide
        · rw [← e] at hc; revert hc; decide
      · have := ht _ e; revert this; decide
    · intro hm
      rcases List.mem_cons.1 hm with e | e
      · rcases hc with ⟨hc, _⟩ | hc | hc
        · subst hc; revert e; decide
        · subst hc; revert e; decide
        · rw [← e] at hc; revert hc; decide
      · have := ht _ e; revert this; decide

/-! ## The iterator of a term -/

theorem createSingle_star (names : List (List Char)) (min max : Int) :
    createSingle ['*'] [] names min max = .ok (.single min min 0 1 true min max) := by
  have e : Strconv.Atoi [] = .error (.num [] false) := by decide
  simp [createSingle, e, createSingleStep, All, Ticker.reset]

theorem createSingle_star_step (step : List Char) (names : List (List Char)) (min max S : Int)
    (hs : Strconv.Atoi step = .ok S) (hS : 1 ≤ S) :
    createSingle ['*'] step names min max = .ok (.single min min 0 S true min max) := by
  have h0 : S > 0 := by omega
  simp [createSingle, hs, createSingleStep, All, Ticker.reset, h0, Ticker.By]

theorem createSingle_value_step (x step : List Char) (names : List (List Char))
    (min max N S : Int) (hx : x ≠ ['*']) (ha : atoi x names = (N, none))
    (hs : Strconv.Atoi step = .ok S) (h1 : min ≤ N) (h2 : N ≤ max) :
    createSingle x step names min max = .ok (.single N N 0 S false min max) := by
  simp only [createSingle, hs, createSingleStep, hx, ha, if_false]
  rw [if_neg (by omega)]
  rfl

theorem createSingle_value (x : List Char) (names : List (List Char))
    (min max N : Int) (hx : x ≠ ['*']) (ha : atoi x names = (N, none))
    (h1 : min ≤ N) (h2 : N ≤ max) :
    createSingle x [] names min max = .ok (.single N N 0 0 false min max) := by
  rw [createSingle_of_value x names min max N hx ha h1 h2]
  rfl

theorem Interval_within (A B min max : Int) (h1 : min ≤ A) (h4 : B ≤ max) :
    Interval A B min max = .interval A B 1 A 0 := by
  unfold Interval
  simp only []
  rw [if_neg (by omega), if_neg (by omega)]
  rfl

theorem createInterval_range_step (x y step : List Char) (names : List (List Char))
    (min max A B S : Int) (ha : atoi x names = (A, none)) (hb : atoi y names = (B, none))
    (hs : Strconv.Atoi step = .ok S)
    (h1 : min ≤ A) (h2 : A ≤ max) (h3 : min ≤ B) (h4 : B ≤ max) :
    createInterval x y step names min max = .ok (.interval A B S A 0) := by
  have hne : step ≠ [] := by
    intro e
    subst e
    have e0 : Strconv.Atoi [] = .error (.num [] false) := by decide
    rw [e0] at hs
    cases hs
  simp only [createInterval, ha, hb, ne_eq, hne, not_false_eq_true, if_true, hs, hasError]
  rw [if_neg (by omega), if_neg (by omega), Interval_within A B min max h1 h4]
  rfl

theorem createInterval_range (x y : List Char) (names : List (List Char))
    (min max A B : Int) (ha : atoi x names = (A, none)) (hb : atoi y names = (B, none))
    (h1 : min ≤ A) (h2 : A ≤ max) (h3 : min ≤ B) (h4 : B ≤ max) :
    createInterval x y [] names min max = .ok (.interval A B 1 A 0) := by
  rw [createInterval_of_values x y names min max A B ha hb h1 h2 h3 h4,
    Interval_within A B min max h1 h4]
  rfl

theorem cycleFits_one (base upper : Int) (hbu : base ≤ upper)
    (hu : upper < 9223372036854775807) : cycleFits base 1 upper := by
  unfold cycleFits cycleLength
  rw [Int.ediv_one]
  push_cast
  rw [Int.toNat_of_nonneg (by omega)]
  omega

/-! ## Claim C12 -/

/-- C12 (as stated, refuted): the term `*` with the step 9223372036854775807
parses against the bounds [1, 31] of the day of the month; its values are 1,
then -9223372036854775808 and -1, the addition of the step having overflowed,
where the claim gives 1 for ever. -/
theorem values_step_overflow :
    parse "*/9223372036854775807".toList 1 31 []
      = .ok (.single 1 1 0 9223372036854775807 true 1 31)
    ∧ Ticker.values 3 (.single 1 1 0 9223372036854775807 true 1 31)
      = [1, -9223372036854775808, -1]
    ∧ cycleValue 1 9223372036854775807 31 1 = 1
    ∧ cycleValue 1 9223372036854775807 31 2 = 1 := by
  decide!

/-- C12 (amended): against bounds `min` and `max` that are 64-bit integers,
`max` below `2^63 - 1`, with tokens `a` and `b` that resolve to `A ≤ B` within
the bounds and a step text that reads as `S ≥ 1`, the values read after `n`
calls of `Next` are those of the progression from `min` to `max` for `*/S`,
from `A` to `B` for `A-B/S` and from `A` to `max` for `A/S`, each provided that
the first value of the progression above its upper end is within the 64-bit
integers; `*` and `A-B` run with the step 1, and the plain value `A` never
changes. -/
theorem term_progression (names : List (List Char)) (min max : Int) (a b step : List Char)
    (A B S : Int) (hmin : -9223372036854775808 ≤ min) (hmax : max < 9223372036854775807)
    (ha : atoi a names = (A, none)) (hb : atoi b names = (B, none))
    (hs : Strconv.Atoi step = .ok S) (hS : 1 ≤ S)
    (ha0 : a ≠ []) (ha1 : a ≠ ['*']) (ha2 : '-' ∉ a) (ha3 : '/' ∉ a) (hb3 : '/' ∉ b)
    (hA : min ≤ A) (hAB : A ≤ B) (hB : B ≤ max) :
    (cycleFits min S max → ∃ t, parse ('*' :: '/' :: step) min max names = .ok t
        ∧ ∀ n, (t.nextN n).Curr = cycleValue min S max n)
    ∧ (cycleFits A S B → ∃ t, parse (a ++ '-' :: (b ++ '/' :: step)) min max names = .ok t
        ∧ ∀ n, (t.nextN n).Curr = cycleValue A S B n)
    ∧ (cycleFits A S max → ∃ t, parse (a ++ '/' :: step) min max names = .ok t
        ∧ ∀ n, (t.nextN n).Curr = cycleValue A S max n)
    ∧ (∃ t, parse ['*'] min max names = .ok t
        ∧ ∀ n, (t.nextN n).Curr = cycleValue min 1 max n)
    ∧ (∃ t, parse (a ++ '-' :: b) min max names = .ok t
        ∧ ∀ n, (t.nextN n).Curr = cycleValue A 1 B n)
    ∧ (∃ t, parse a min max names = .ok t ∧ ∀ n, (t.nextN n).Curr = A) := by
  obtain ⟨hs1, hs2⟩ := Strconv.Atoi_pos_chars step S hs hS
  refine ⟨?_, ?_, ?_, ?_, ?_, ?_⟩
  · intro hf
    refine ⟨.single min min 0 S true min max, ?_, fun n => ?_⟩
    · have := parse_value_step ['*'] step min max names (by decide) (by decide) hs1
      rw [show ('*' :: '/' :: step) = ['*'] ++ '/' :: step from rfl, this]
      exact createSingle_star_step step names min max S hs hS
    · obtain ⟨p, hp⟩ := Ticker.single_cycle min S max min true hS (by omega) hmin hf n 0
      rw [hp]; rfl
  · intro hf
    refine ⟨.interval A B S A 0, ?_, fun n => ?_⟩
    · rw [parse_range_step a b step min max names ha2 hb3]
      exact createInterval_range_step a b step names min max A B S ha hb hs hA (by omega)
        (by omega) hB
    · obtain ⟨p, hp⟩ := Ticker.interval_cycle A B S hS hAB (by omega) hf n 0
      rw [hp]; rfl
  · intro hf
    refine ⟨.single A A 0 S false min max, ?_, fun n => ?_⟩
    · rw [parse_value_step a step min max names ha2 ha3 hs1]
      exact createSingle_value_step a step names min max A S ha1 ha hs hA (by omega)
    · obtain ⟨p, hp⟩ := Ticker.single_cycle A S max min false hS (by omega) (by omega) hf n 0
      rw [hp]; rfl
  · refine ⟨.single min min 0 1 true min max, ?_, fun n => ?_⟩
    · rw [parse_value ['*'] min max names (by decide) (by decide) (by decide)]
      exact createSingle_star names min max
    · obtain ⟨p, hp⟩ := Ticker.single_cycle min 1 max min true (by omega) (by omega) hmin
        (cycleFits_one min max (by omega) hmax) n 0
      rw [hp]; rfl
  · refine ⟨.interval A B 1 A 0, ?_, fun n => ?_⟩
    · rw [parse_range a b min max names ha2 hb3]
      exact createInterval_range a b names min max A B ha hb hA (by omega) (by omega) hB
    · obtain ⟨p, hp⟩ := Ticker.interval_cycle A B 1 (by omega) hAB (by omega)
        (cycleFits_one A B hAB (by omega)) n 0
      rw [hp]; rfl
  · refine ⟨.single A A 0 0 false min max, ?_, fun n => ?_⟩
    · rw [parse_value a min max names ha0 ha2 ha3]
      exact createSingle_value a names min max A ha1 ha hA (by omega)
    · rw [Ticker.single_constant]; rfl

/-- C12 (amended), at the tokens `3` and `11` and the step `2` against the
bounds [1, 31]: `*/2` runs through 1, 3, ..., 31, `3-11/2` through 3, 5, 7, 9,
11 and `3/2` through 3, 5, ..., 31. -/
theorem term_progression_witness :
    ((cycleFits 1 2 31 → ∃ t, parse ('*' :: '/' :: ['2']) 1 31 [] = .ok t
        ∧ ∀ n, (t.nextN n).Curr = cycleValue 1 2 31 n)
    ∧ (cycleFits 3 2 11 → ∃ t, parse (['3'] ++ '-' :: (['1', '1'] ++ '/' :: ['2'])) 1 31 []
          = .ok t
        ∧ ∀ n, (t.nextN n).Curr = cycleValue 3 2 11 n)
    ∧ (cycleFits 3 2 31 → ∃ t, parse (['3'] ++ '/' :: ['2']) 1 31 [] = .ok t
        ∧ ∀ n, (t.nextN n).Curr = cycleValue 3 2 31 n)
    ∧ (∃ t, parse ['*'] 1 31 [] = .ok t
        ∧ ∀ n, (t.nextN n).Curr = cycleValue 1 1 31 n)
    ∧ (∃ t, parse (['3'] ++ '-' :: ['1', '1']) 1 31 [] = .ok t
        ∧ ∀ n, (t.nextN n).Curr = cycleValue 3 1 11 n)
    ∧ (∃ t, parse ['3'] 1 31 [] = .ok t ∧ ∀ n, (t.nextN n).Curr = 3))
    ∧ cycleFits 3 2 11
    ∧ (List.range 7).map (cycleValue 3 2 11) = [3, 5, 7, 9, 11, 3, 5] :=
  ⟨term_progression [] 1 31 ['3'] ['1', '1'] ['2'] 3 11 2 (by decide) (by decide)
    (by decide!) (by decide!) (by decide!) (by decide) (by decide) (by decide) (by decide)
    (by decide) (by decide) (by decide) (by decide) (by decide), by decide!, by decide!⟩

/-! ## A term inside a list -/

theorem cycleValue_of_lt (base step upper : Int) (n : Nat)
    (h : n < cycleLength base step upper) :
    cycleValue base step upper n = base + (n : Int) * step := by
  unfold cycleValue
  rw [Nat.mod_eq_of_lt h]

theorem cycleValue_length (base step upper : Int) :
    cycleValue base step upper (cycleLength base step upper) = base := by
  unfold cycleValue
  rw [Nat.mod_self]
  simp

theorem cycleLength_two (base step upper : Int) (hs : 1 ≤ step) (h : base + step ≤ upper) :
    2 ≤ cycleLength base step upper := by
  unfold cycleLength
  have h1 : 1 ≤ (upper - base) / step := by
    rw [Int.le_ediv_iff_mul_le (by omega)]
    omega
  omega

namespace Ticker

theorem single_Next_cv (base step upper lower : Int) (all : Bool) (hs : 1 ≤ step)
    (hbu : base ≤ upper) (hlo : -9223372036854775808 ≤ base)
    (hf : cycleFits base step upper) (n : Nat) (prev : Int) :
    (Ticker.single base (cycleValue base step upper n) prev step all lower upper).Next
      = .single base (cycleValue base step upper (n + 1)) (cycleValue base step upper n)
          step all lower upper := by
  have hge := cycleValue_ge base step upper n hs
  have hup := upper_lt_cycle_end base step upper hs hbu
  unfold cycleFits at hf
  have hne : (step == 0) = false := by
    rw [beq_eq_false_iff_ne]; omega
  simp only [Ticker.Next, hne, Bool.false_eq_true, if_false]
  rcases cycleValue_succ base step upper n hs hbu with ⟨h1, h2⟩ | ⟨h1, h2, h3⟩
  · rw [wrapInt_eq _ (by omega) (by omega), if_neg (by omega), h2]
  · rw [wrapInt_eq _ (by omega) (by omega), if_pos (by omega), h3]

theorem interval_Next_cv (min max step : Int) (hs : 1 ≤ step)
    (hbu : min ≤ max) (hlo : -9223372036854775808 ≤ min)
    (hf : cycleFits min step max) (n : Nat) (prev : Int) :
    (Ticker.interval min max step (cycleValue min step max n) prev).Next
      = .interval min max step (cycleValue min step max (n + 1)) (cycleValue min step max n) := by
  have hge := cycleValue_ge min step max n hs
  have hup := upper_lt_cycle_end min step max hs hbu
  unfold cycleFits at hf
  simp only [Ticker.Next]
  rcases cycleValue_succ min step max n hs hbu with ⟨h1, h2⟩ | ⟨h1, h2, h3⟩
  · rw [wrapInt_eq _ (by omega) (by omega), if_neg (by omega), h2]
  · rw [wrapInt_eq _ (by omega) (by omega), if_pos (by omega), h3]

/-- A regular term that has a step, after `n + 1` calls of `Next`. -/
theorem single_nextN_succ (base step upper lower : Int) (all : Bool) (hs : 1 ≤ step)
    (hbu : base ≤ upper) (hlo : -9223372036854775808 ≤ base)
    (hf : cycleFits base step upper) (prev : Int) : ∀ n : Nat,
    Ticker.nextN (n + 1) (.single base base prev step all lower upper)
      = .single base (cycleValue base step upper (n + 1)) (cycleValue base step upper n)
          step all lower upper
  | 0 => by
    show (Ticker.single base base prev step all lower upper).Next = _
    have := single_Next_cv base step upper lower all hs hbu hlo hf 0 prev
    rw [cycleValue_zero] at this ⊢
    exact this
  | n + 1 => by
    rw [nextN_succ, single_nextN_succ base step upper lower all hs hbu hlo hf prev n]
    exact single_Next_cv base step upper lower all hs hbu hlo hf (n + 1) _

theorem interval_nextN_succ (min max step : Int) (hs : 1 ≤ step)
    (hbu : min ≤ max) (hlo : -9223372036854775808 ≤ min)
    (hf : cycleFits min step max) (prev : Int) : ∀ n : Nat,
    Ticker.nextN (n + 1) (.interval min max step min prev)
      = .interval min max step (cycleValue min step max (n + 1)) (cycleValue min step max n)
  | 0 => by
    show (Ticker.interval min max step min prev).Next = _
    have := interval_Next_cv min max step hs hbu hlo hf 0 prev
    rw [cycleValue_zero] at this ⊢
    exact this
  | n + 1 => by
    rw [nextN_succ, interval_nextN_succ min max step hs hbu hlo hf prev n]
    exact interval_Next_cv min max step hs hbu hlo hf (n + 1) _

theorem nextN_add : ∀ (a b : Nat) (t : Ticker), nextN (a + b) t = nextN b (nextN a t)
  | 0, b, t => by simp [nextN]
  | a + 1, b, t => by
    rw [show a + 1 + b = (a + b) + 1 by omega]
    show nextN (a + b) t.Next = nextN b (nextN a t.Next)
    exact nextN_add a b t.Next

theorem values_add : ∀ (a b : Nat) (t : Ticker),
    values (a + b) t = values a t ++ values b (nextN a t)
  | 0, b, t => by simp [values, nextN]
  | a + 1, b, t => by
    rw [show a + 1 + b = (a + b) + 1 by omega]
    show t.Curr :: values (a + b) t.Next = t.Curr :: values a t.Next ++ values b (nextN a t.Next)
    rw [values_add a b t.Next]
    rfl

theorem values_length : ∀ (n : Nat) (t : Ticker), (values n t).length = n
  | 0, _ => rfl
  | n + 1, t => by simp [values, values_length n t.Next]

theorem values_getD : ∀ (n s : Nat) (t : Ticker), s < n →
    (values n t).getD s 0 = (nextN s t).Curr
  | 0, _, _, h => by omega
  | n + 1, 0, t, _ => by simp [values, nextN]
  | n + 1, s + 1, t, h => by
    simp only [values, List.getD_cons_succ]
    exact values_getD n s t.Next (by omega)

/-- The values read are those of a list `l` when they agree with it at each
index. -/
theorem values_eq_of_getD (n : Nat) (t : Ticker) (l : List Int) (hl : l.length = n)
    (h : ∀ s, s < n → (nextN s t).Curr = l.getD s 0) : values n t = l := by
  apply List.ext_getElem
  · rw [values_length, hl]
  · intro s h1 h2
    rw [values_length] at h1
    have e1 := values_getD n s t h1
    have e2 := h s h1
    rw [List.getD_eq_getElem _ _ h2] at e2
    rw [List.getD_eq_getElem _ _ (by rw [values_length]; exact h1)] at e1
    rw [e1, e2]

theorem nextAt_eq_set : ∀ (es : List Ticker) (i : Nat),
    nextAt es i = es.set i (es.getD i nil).Next
  | [], _ => by simp [nextAt]
  | _ :: _, 0 => by simp [nextAt]
  | e :: es, i + 1 => by simp [nextAt, nextAt_eq_set es i]

theorem getD_set_self (l : List Ticker) (i : Nat) (a : Ticker) (h : i < l.length) :
    (l.set i a).getD i nil = a := by
  rw [List.getD_eq_getElem _ _ (by rw [List.length_set]; exact h)]
  simp

theorem set_getD_self : ∀ (l : List Ticker) (i : Nat), l.set i (l.getD i nil) = l
  | [], _ => by simp
  | _ :: _, 0 => by simp
  | e :: l, i + 1 => by
    have h := set_getD_self l i
    simp only [List.getD_cons_succ, List.set_cons_succ, h]

theorem list_Curr (i p : Nat) (l : List Ticker) :
    (Ticker.list i p l).Curr = (l.getD i nil).Curr := by
  simp only [Curr]
  exact currAt_eq l i

theorem getD_map_range (f : Nat → Int) (k s : Nat) (h : s < k) :
    ((List.range k).map f).getD s 0 = f s := by
  rw [List.getD_eq_getElem _ _ (by simpa using h)]
  simp

theorem cv_step_pos (n : Nat) (step : Int) (hs : 1 ≤ step) : 0 < ((n : Int) + 1) * step :=
  mul_pos (by omega) (by omega)

/-- What a list sees of a regular term, whatever its previous value: the
values of its cycle, no reason to leave it before the last one, and a reason
to leave it, the term being back at its start, after the last one. -/
theorem regular_run : ∀ (e e' : Ticker), e.regular = true → noPrev e' = noPrev e →
    1 ≤ e.cycle.length
    ∧ (∀ s, s < e.cycle.length → (nextN s e').Curr = e.cycle.getD s 0)
    ∧ (∀ s, 0 < s → s < e.cycle.length →
        (nextN s e').one = false ∧ (nextN s e').isReset = false)
    ∧ ((nextN e.cycle.length e').one = true ∨ (nextN e.cycle.length e').isReset = true)
    ∧ noPrev (nextN e.cycle.length e') = noPrev e
  | .single base curr prev step all lower upper, e', hr, he => by
    simp only [regular, Bool.and_eq_true, Bool.or_eq_true, decide_eq_true_eq] at hr
    obtain ⟨hc, hr⟩ := hr
    subst hc
    have he' : ∃ p, e' = .single curr curr p step all lower upper := by
      cases e' with
      | single b c p s a l u =>
        simp only [noPrev, single.injEq] at he
        obtain ⟨h1, h2, _, h4, h5, h6, h7⟩ := he
        subst h1 h2 h4 h5 h6 h7
        exact ⟨p, rfl⟩
      | interval _ _ _ _ _ => simp [noPrev] at he
      | list _ _ _ => simp [noPrev] at he
      | frozen _ => simp [noPrev] at he
    obtain ⟨p, rfl⟩ := he'
    rcases hr with h0 | ⟨⟨⟨⟨hs, hl⟩, hb⟩, hlo⟩, hf⟩
    · subst h0
      have hcy : (single curr curr prev 0 all lower upper).cycle = [curr] := by simp [cycle]
      rw [hcy]
      refine ⟨by simp, ?_, ?_, ?_, ?_⟩
      · intro s hs
        have : s = 0 := by simpa using hs
        subst this
        simp [nextN, Curr]
      · intro s h1 h2
        simp only [List.length_singleton] at h2
        omega
      · left
        rw [single_constant]
        simp [one]
      · rw [single_constant]
        simp [noPrev]
    · have hne : step ≠ 0 := by omega
      have hcy : (single curr curr prev step all lower upper).cycle
          = (List.range (cycleLength curr step upper)).map (cycleValue curr step upper) := by
        simp [cycle, hne]
      have hk := cycleLength_two curr step upper hs hb
      have hbu : curr ≤ upper := by omega
      rw [hcy]
      simp only [List.length_map, List.length_range]
      refine ⟨by omega, ?_, ?_, ?_, ?_⟩
      · intro s hsk
        rw [getD_map_range _ _ _ hsk]
        cases s with
        | zero => simp [nextN, Curr, cycleValue_zero]
        | succ n => rw [single_nextN_succ curr step upper lower all hs hbu hlo hf p n]; rfl
      · intro s h1 hsk
        cases s with
        | zero => omega
        | succ n =>
          rw [single_nextN_succ curr step upper lower all hs hbu hlo hf p n]
          have hv := cycleValue_of_lt curr step upper (n + 1) hsk
          have hpos := cv_step_pos n step hs
          push_cast at hv
          have hne0 : (step == 0) = false := by rw [beq_eq_false_iff_ne]; exact hne
          simp only [one, hne0, isReset, true_and]
          have h1 : (cycleValue curr step upper (n + 1) == lower) = false := by
            rw [beq_eq_false_iff_ne]; omega
          have h2 : (cycleValue curr step upper (n + 1) == curr) = false := by
            rw [beq_eq_false_iff_ne]; omega
          rw [h1, h2]
          simp
      · right
        obtain ⟨n, hn⟩ : ∃ n, cycleLength curr step upper = n + 1 := ⟨_, (Nat.sub_add_cancel
          (by omega : 1 ≤ cycleLength curr step upper)).symm⟩
        rw [hn, single_nextN_succ curr step upper lower all hs hbu hlo hf p n, ← hn,
          cycleValue_length]
        have hv := cycleValue_of_lt curr step upper n (by omega)
        obtain ⟨n', rfl⟩ : ∃ n', n = n' + 1 := ⟨n - 1, by omega⟩
        have hpos := cv_step_pos n' step hs
        push_cast at hv
        simp only [isReset]
        have h1 : (curr != cycleValue curr step upper (n' + 1)) = true := by
          rw [bne_iff_ne]; omega
        rw [h1]
        simp
      · obtain ⟨n, hn⟩ : ∃ n, cycleLength curr step upper = n + 1 := ⟨_, (Nat.sub_add_cancel
          (by omega : 1 ≤ cycleLength curr step upper)).symm⟩
        rw [hn, single_nextN_succ curr step upper lower all hs hbu hlo hf p n, ← hn,
          cycleValue_length]
        simp [noPrev]
  | .interval min max step curr prev, e', hr, he => by
    simp only [regular, Bool.and_eq_true, decide_eq_true_eq] at hr
    obtain ⟨⟨⟨⟨hc, hs⟩, hb⟩, hlo⟩, hf⟩ := hr
    subst hc
    have he' : ∃ p, e' = .interval curr max step curr p := by
      cases e' with
      | interval b c p s a =>
        simp only [noPrev, interval.injEq] at he
        obtain ⟨h1, h2, h3, h4, _⟩ := he
        subst h1 h2 h3 h4
        exact ⟨_, rfl⟩
      | single _ _ _ _ _ _ _ => simp [noPrev] at he
      | list _ _ _ => simp [noPrev] at he
      | frozen _ => simp [noPrev] at he
    obtain ⟨p, rfl⟩ := he'
    have hcy : (interval curr max step curr prev).cycle
        = (List.range (cycleLength curr step max)).map (cycleValue curr step max) := by
      simp [cycle]
    have hk := cycleLength_two curr step max hs hb
    have hbu : curr ≤ max := by omega
    rw [hcy]
    simp only [List.length_map, List.length_range]
    refine ⟨by omega, ?_, ?_, ?_, ?_⟩
    · intro s hsk
      rw [getD_map_range _ _ _ hsk]
      cases s with
      | zero => simp [nextN, Curr, cycleValue_zero]
      | succ n => rw [interval_nextN_succ curr max step hs hbu hlo hf p n]; rfl
    · intro s h1 hsk
      cases s with
      | zero => omega
      | succ n =>
        rw [interval_nextN_succ curr max step hs hbu hlo hf p n]
        have hv := cycleValue_of_lt curr step max (n + 1) hsk
        have hpos := cv_step_pos n step hs
        push_cast at hv
        simp only [one, isReset, true_and]
        have h2 : (cycleValue curr step max (n + 1) == curr) = false := by
          rw [beq_eq_false_iff_ne]; omega
        rw [h2]
        simp
    · right
      obtain ⟨n, hn⟩ : ∃ n, cycleLength curr step max = n + 1 := ⟨_, (Nat.sub_add_cancel
        (by omega : 1 ≤ cycleLength curr step max)).symm⟩
      rw [hn, interval_nextN_succ curr max step hs hbu hlo hf p n, ← hn, cycleValue_length]
      have hv := cycleValue_of_lt curr step max n (by omega)
      obtain ⟨n', rfl⟩ : ∃ n', n = n' + 1 := ⟨n - 1, by omega⟩
      have hpos := cv_step_pos n' step hs
      push_cast at hv
      simp only [isReset]
      have h1 : (curr != cycleValue curr step max (n' + 1)) = true := by
        rw [bne_iff_ne]; omega
      rw [h1]
      simp
    · obtain ⟨n, hn⟩ : ∃ n, cycleLength curr step max = n + 1 := ⟨_, (Nat.sub_add_cancel
        (by omega : 1 ≤ cycleLength curr step max)).symm⟩
      rw [hn, interval_nextN_succ curr max step hs hbu hlo hf p n, ← hn, cycleValue_length]
      simp [noPrev]
  | .list _ _ _, _, hr, _ => by simp [regular] at hr
  | .frozen _, _, hr, _ => by simp [regular] at hr

end Ticker

namespace Ticker

/-- One call of `Next` on a list whose active term is `x`. -/
theorem list_Next_set (l : List Ticker) (i q : Nat) (x : Ticker) (hi : i < l.length) :
    (Ticker.list i q (l.set i x)).Next
      = if x.Next.one || x.Next.isReset then .list ((i + 1) % l.length) i (l.set i x.Next)
        else .list i i (l.set i x.Next) := by
  have h1 : nextAt (l.set i x) i = l.set i x.Next := by
    rw [nextAt_eq_set, getD_set_self l i x hi, List.set_set]
  have h2 : (l.set i x.Next).getD i nil = x.Next := getD_set_self l i _ hi
  simp only [Next, h1, h2, List.length_set]

/-- A list stays on its active term as long as that term gives no reason to
leave it. -/
theorem list_stay (l : List Ticker) (i : Nat) (hi : i < l.length) (k : Nat)
    (hb : ∀ s, 0 < s → s < k →
      (nextN s (l.getD i nil)).one = false ∧ (nextN s (l.getD i nil)).isReset = false) :
    ∀ s, s < k → ∀ pptr, ∃ q, nextN s (.list i pptr l)
      = .list i q (l.set i (nextN s (l.getD i nil)))
  | 0, _, pptr => ⟨pptr, by rw [show nextN 0 (l.getD i nil) = l.getD i nil from rfl, set_getD_self]; rfl⟩
  | s + 1, hs, pptr => by
    obtain ⟨q, hq⟩ := list_stay l i hi k hb s (by omega) pptr
    rw [nextN_succ, hq, list_Next_set l i q _ hi, ← nextN_succ]
    obtain ⟨h1, h2⟩ := hb (s + 1) (by omega) hs
    rw [h1, h2]
    exact ⟨i, by simp⟩

/-- A list leaves its active term when that term gives a reason to. -/
theorem list_leave (l : List Ticker) (i : Nat) (hi : i < l.length) (k : Nat) (hk : 1 ≤ k)
    (hb : ∀ s, 0 < s → s < k →
      (nextN s (l.getD i nil)).one = false ∧ (nextN s (l.getD i nil)).isReset = false)
    (hc : (nextN k (l.getD i nil)).one = true ∨ (nextN k (l.getD i nil)).isReset = true)
    (pptr : Nat) :
    nextN k (.list i pptr l)
      = .list ((i + 1) % l.length) i (l.set i (nextN k (l.getD i nil))) := by
  obtain ⟨n, rfl⟩ : ∃ n, k = n + 1 := ⟨k - 1, by omega⟩
  obtain ⟨q, hq⟩ := list_stay l i hi (n + 1) hb n (by omega) pptr
  rw [nextN_succ, hq, list_Next_set l i q _ hi, ← nextN_succ]
  have : ((nextN (n + 1) (l.getD i nil)).one || (nextN (n + 1) (l.getD i nil)).isReset)
      = true := by
    rcases hc with h | h
    · rw [h]; rfl
    · rw [h]; simp
  rw [this]
  simp

/-- A list on a regular term, all its terms being at their start: the values
read are the cycle of the term, and the list is then on the next term, all its
terms at their start. -/
theorem list_term_run (es l : List Ticker) (i : Nat) (pptr : Nat) (hi : i < es.length)
    (hr : (es.getD i nil).regular = true) (hl : l.map noPrev = es.map noPrev) :
    values (es.getD i nil).cycle.length (.list i pptr l) = (es.getD i nil).cycle
    ∧ ∃ l', nextN (es.getD i nil).cycle.length (.list i pptr l)
        = .list ((i + 1) % es.length) i l'
      ∧ l'.map noPrev = es.map noPrev := by
  have hlen : l.length = es.length := by
    have := congrArg List.length hl
    simpa using this
  have hil : i < l.length := by omega
  have he : noPrev (l.getD i nil) = noPrev (es.getD i nil) := by
    have h1 : (l.map noPrev).getD i (noPrev nil) = (es.map noPrev).getD i (noPrev nil) := by
      rw [hl]
    rw [List.getD_map, List.getD_map] at h1
    exact h1
  obtain ⟨h1, ha, hb, hc, hd⟩ := regular_run (es.getD i nil) (l.getD i nil) hr he
  refine ⟨?_, ?_⟩
  · apply values_eq_of_getD _ _ _ rfl
    intro s hs
    obtain ⟨q, hq⟩ := list_stay l i hil _ hb s hs pptr
    rw [hq, list_Curr, getD_set_self l i _ hil]
    exact ha s hs
  · refine ⟨l.set i (nextN (es.getD i nil).cycle.length (l.getD i nil)), ?_, ?_⟩
    · rw [list_leave l i hil _ h1 hb hc pptr, hlen]
    · rw [List.map_set, hd, ← hl, ← he]
      have := congrArg (List.map noPrev) (set_getD_self l i)
      rw [List.map_set] at this
      exact this

end Ticker

namespace Ticker

/-- A list of regular terms, on its term `i` with all terms at their start:
the values read up to the end of the last term are the cycles of the terms
from `i` on, and the list is then on its first term, all terms at their
start. -/
theorem list_round_from (es : List Ticker) (hr : ∀ e ∈ es, e.regular = true) :
    ∀ (d i : Nat), i + d = es.length → 0 < d → ∀ (l : List Ticker) (pptr : Nat),
    l.map noPrev = es.map noPrev →
    values ((es.drop i).flatMap cycle).length (.list i pptr l) = (es.drop i).flatMap cycle
    ∧ ∃ l' q, nextN ((es.drop i).flatMap cycle).length (.list i pptr l) = .list 0 q l'
      ∧ l'.map noPrev = es.map noPrev
  | 0, _, _, h, _, _, _ => by omega
  | d + 1, i, hid, _, l, pptr, hl => by
    have hi : i < es.length := by omega
    have hri : (es.getD i nil).regular = true := by
      rw [List.getD_eq_getElem _ _ hi]
      exact hr _ (List.getElem_mem _)
    obtain ⟨hv, l1, hn, hl1⟩ := list_term_run es l i pptr hi hri hl
    have hdrop : es.drop i = es.getD i nil :: es.drop (i + 1) := by
      rw [List.getD_eq_getElem _ _ hi]
      exact List.drop_eq_getElem_cons hi
    rw [hdrop, List.flatMap_cons, List.length_append]
    by_cases hd : d = 0
    · subst hd
      have e1 : i + 1 = es.length := by omega
      rw [e1, List.drop_length]
      simp only [List.flatMap_nil, List.length_nil, Nat.add_zero, List.append_nil]
      refine ⟨hv, l1, i, ?_, hl1⟩
      rw [hn, e1, Nat.mod_self]
    · have hmod : (i + 1) % es.length = i + 1 := Nat.mod_eq_of_lt (by omega)
      rw [hmod] at hn
      obtain ⟨hv2, l2, q, hn2, hl2⟩ :=
        list_round_from es hr d (i + 1) (by omega) (by omega) l1 i hl1
      refine ⟨?_, l2, q, ?_, hl2⟩
      · rw [values_add, hv, hn, hv2]
      · rw [nextN_add, hn, hn2]

/-- A list of regular terms gives, round after round, the cycles of its terms
in their order. -/
theorem list_rounds (es : List Ticker) (hne : es ≠ []) (hr : ∀ e ∈ es, e.regular = true) :
    ∀ (r : Nat) (l : List Ticker) (pptr : Nat), l.map noPrev = es.map noPrev →
    values (r * (es.flatMap cycle).length) (.list 0 pptr l)
      = (List.replicate r (es.flatMap cycle)).flatten
  | 0, _, _, _ => by simp [values]
  | r + 1, l, pptr, hl => by
    have hpos : 0 < es.length := List.length_pos.2 hne
    obtain ⟨hv, l', q, hn, hl'⟩ := list_round_from es hr es.length 0 (by omega) hpos l pptr hl
    rw [List.drop_zero] at hv hn
    rw [show (r + 1) * (es.flatMap cycle).length
        = (es.flatMap cycle).length + r * (es.flatMap cycle).length by ring,
      values_add, hv, hn, list_rounds es hne hr r l' q hl', List.replicate_succ,
      List.flatten_cons]

/-- A regular term alone gives its cycle, round after round. -/
theorem term_rounds (e : Ticker) (hr : e.regular = true) :
    ∀ (r : Nat) (e' : Ticker), noPrev e' = noPrev e →
    values (r * e.cycle.length) e' = (List.replicate r e.cycle).flatten
  | 0, _, _ => by simp [values]
  | r + 1, e', he => by
    obtain ⟨_, ha, _, _, hd⟩ := regular_run e e' hr he
    have hv : values e.cycle.length e' = e.cycle :=
      values_eq_of_getD _ _ _ rfl (fun s hs => ha s hs)
    rw [show (r + 1) * e.cycle.length = e.cycle.length + r * e.cycle.length by ring,
      values_add, hv, term_rounds e hr r _ hd, List.replicate_succ, List.flatten_cons]

end Ticker

/-! ## `Parse` on terms joined by the separator -/

theorem joinTerms_cons (t t2 : List Char) (ts : List (List Char)) :
    joinTerms (t :: t2 :: ts) = t ++ ';' :: joinTerms (t2 :: ts) := rfl

/-- The loop of `Parse` on terms that all parse: their iterators, in the
order written. -/
theorem parseLoop_join (min max : Int) (names : List (List Char)) :
    ∀ (terms : List (List Char)) (es : List Ticker) (fuel : Nat) (acc : List Ticker),
    terms ≠ [] → (∀ t ∈ terms, ';' ∉ t) →
    List.Forall₂ (fun t e => parse t min max names = .ok e) terms es →
    terms.length ≤ fuel →
    parseLoop fuel (joinTerms terms) min max names acc = .ok (acc ++ es)
  | [], _, _, _, h, _, _, _ => absurd rfl h
  | [t], es, fuel, acc, _, hs, hp, hf => by
    obtain ⟨n, rfl⟩ : ∃ n, fuel = n + 1 := ⟨fuel - 1, by simp at hf; omega⟩
    cases hp with
    | cons h1 h2 =>
      cases h2
      have hc := Strings.Cut_none ';' t (hs t (List.mem_cons_self _ _))
      simp only [joinTerms, parseLoop, Separator, hc, h1, Bool.not_false, if_true]
  | t :: t2 :: ts, es, fuel, acc, _, hs, hp, hf => by
    obtain ⟨n, rfl⟩ : ∃ n, fuel = n + 1 := ⟨fuel - 1, by simp at hf; omega⟩
    cases hp with
    | cons h1 h2 =>
      rename_i e es'
      have hc := Strings.Cut_append ';' t (joinTerms (t2 :: ts)) (hs t (List.mem_cons_self _ _))
      rw [joinTerms_cons]
      simp only [parseLoop, Separator, hc, h1, Bool.not_true, Bool.false_eq_true, if_false]
      rw [parseLoop_join min max names (t2 :: ts) es' n (acc ++ [e]) (by simp)
        (fun t ht => hs t (List.mem_cons_of_mem _ ht)) h2 (by simp at hf ⊢; omega)]
      simp

theorem joinTerms_length : ∀ terms : List (List Char),
    terms.length ≤ (joinTerms terms).length + 1
  | [] => by simp
  | [t] => by simp
  | t :: t2 :: ts => by
    have := joinTerms_length (t2 :: ts)
    rw [joinTerms_cons]
    simp only [List.length_cons, List.length_append] at this ⊢
    omega

/-- `Parse` on two or more terms that all parse returns the list of their
iterators, in the order written. -/
theorem Parse_join (min max : Int) (names : List (List Char)) (terms : List (List Char))
    (es : List Ticker) (h2 : 2 ≤ terms.length) (hs : ∀ t ∈ terms, ';' ∉ t)
    (hp : List.Forall₂ (fun t e => parse t min max names = .ok e) terms es) :
    Parse (String.mk (joinTerms terms)) min max names = .ok (ListOf es) := by
  have hne : terms ≠ [] := by
    intro e; subst e; simp at h2
  have hl := parseLoop_join min max names terms es ((joinTerms terms).length + 1) [] hne hs hp
    (joinTerms_length terms)
  have hlen := hp.length_eq
  unfold Parse
  rw [show (String.mk (joinTerms terms)).toList = joinTerms terms from rfl, hl]
  simp only [List.nil_append]
  rw [if_pos (by omega)]

theorem Ticker.nextN_fixed (t : Ticker) (h : t.Next = t) : ∀ n : Nat, Ticker.nextN n t = t
  | 0 => rfl
  | n + 1 => by
    show Ticker.nextN n t.Next = t
    rw [h]
    exact Ticker.nextN_fixed t h n

/-- An iterator whose first call of `Next` leads to a state that `Next` leaves
unchanged only ever shows the values of these two states. -/
theorem Ticker.nextN_stuck (t t1 : Ticker) (h0 : t.Next = t1) (h1 : t1.Next = t1) (v : Int)
    (hv0 : t.Curr ≠ v) (hv1 : t1.Curr ≠ v) : ¬ ∃ n, (Ticker.nextN n t).Curr = v := by
  rintro ⟨n, hn⟩
  cases n with
  | zero => exact hv0 hn
  | succ n =>
    have : Ticker.nextN (n + 1) t = t1 := by
      show Ticker.nextN n t.Next = t1
      rw [h0]
      exact Ticker.nextN_fixed t1 h1 n
    rw [this] at hn
    exact hv1 hn

/-! ## Claim C11 -/

/-- C11 (as stated, refuted): the expression `1-3/0;5` parses, and the list
never leaves its first term: the value 5 of its second term is never read.
The same holds of `5-5;7`, whose first term wraps without `isReset` seeing
it. -/
theorem list_never_leaves_term :
    Parse "1-3/0;5" 0 59 []
      = .ok (.list 0 0 [.interval 1 3 0 1 0, .single 5 5 0 0 false 0 59])
    ∧ (¬ ∃ n, (Ticker.nextN n
        (.list 0 0 [.interval 1 3 0 1 0, .single 5 5 0 0 false 0 59])).Curr = 5)
    ∧ Parse "5-5;7" 0 59 []
      = .ok (.list 0 0 [.interval 5 5 1 5 0, .single 7 7 0 0 false 0 59])
    ∧ (¬ ∃ n, (Ticker.nextN n
        (.list 0 0 [.interval 5 5 1 5 0, .single 7 7 0 0 false 0 59])).Curr = 7) :=
  ⟨by decide!,
    Ticker.nextN_stuck _ (.list 0 0 [.interval 1 3 0 1 1, .single 5 5 0 0 false 0 59])
      (by decide!) (by decide!) 5 (by decide!) (by decide!),
    by decide!,
    Ticker.nextN_stuck _ (.list 0 0 [.interval 5 5 1 5 5, .single 7 7 0 0 false 0 59])
      (by decide!) (by decide!) 7 (by decide!) (by decide!)⟩

/-- C11 (amended): for two or more terms that parse, each to a regular
iterator (a value without a step, or a progression with a step of at least 1
and at least two values), `Parse` of the terms joined by `;` returns the list
of their iterators in the order written; under repeated `Next` its values are,
round after round, the full cycle of the first term, then that of the second,
and so on; and each term alone gives its cycle round after round. -/
theorem list_round_robin (min max : Int) (names : List (List Char))
    (terms : List (List Char)) (es : List Ticker) (h2 : 2 ≤ terms.length)
    (hs : ∀ t ∈ terms, ';' ∉ t)
    (hp : List.Forall₂ (fun t e => parse t min max names = .ok e) terms es)
    (hr : ∀ e ∈ es, e.regular = true) :
    Parse (String.mk (joinTerms terms)) min max names = .ok (ListOf es)
    ∧ (∀ r, (ListOf es).values (r * (es.flatMap Ticker.cycle).length)
        = (List.replicate r (es.flatMap Ticker.cycle)).flatten)
    ∧ (∀ e ∈ es, ∀ r, e.values (r * e.cycle.length)
        = (List.replicate r e.cycle).flatten) := by
  have hne : es ≠ [] := by
    intro e
    have := hp.length_eq
    rw [e, List.length_nil] at this
    omega
  exact ⟨Parse_join min max names terms es h2 hs hp,
    fun r => Ticker.list_rounds es hne hr r es 0 rfl,
    fun e he r => Ticker.term_rounds e (hr e he) r e rfl⟩

/-- C11 (amended), at the expression `2;6;9-11` of the claim, parsed against
the bounds [1, 31]: two rounds give 2, 6, 9, 10, 11, 2, 6, 9, 10, 11. -/
theorem list_round_robin_witness :
    (Parse (String.mk (joinTerms [['2'], ['6'], ['9', '-', '1', '1']])) 1 31 []
      = .ok (ListOf [.single 2 2 0 0 false 1 31, .single 6 6 0 0 false 1 31,
          .interval 9 11 1 9 0])
    ∧ (∀ r, (ListOf [.single 2 2 0 0 false 1 31, .single 6 6 0 0 false 1 31,
          .interval 9 11 1 9 0]).values
        (r * (List.flatMap [Ticker.single 2 2 0 0 false 1 31,
          .single 6 6 0 0 false 1 31, .interval 9 11 1 9 0] Ticker.cycle).length)
        = (List.replicate r (List.flatMap [Ticker.single 2 2 0 0 false 1 31,
          .single 6 6 0 0 false 1 31, .interval 9 11 1 9 0] Ticker.cycle)).flatten)
    ∧ (∀ e ∈ [Ticker.single 2 2 0 0 false 1 31, .single 6 6 0 0 false 1 31,
          .interval 9 11 1 9 0], ∀ r, e.values (r * e.cycle.length)
        = (List.replicate r e.cycle).flatten))
    ∧ String.mk (joinTerms [['2'], ['6'], ['9', '-', '1', '1']]) = "2;6;9-11"
    ∧ List.flatMap [Ticker.single 2 2 0 0 false 1 31, .single 6 6 0 0 false 1 31,
          .interval 9 11 1 9 0] Ticker.cycle = [2, 6, 9, 10, 11] :=
  ⟨list_round_robin 1 31 [] [['2'], ['6'], ['9', '-', '1', '1']]
      [.single 2 2 0 0 false 1 31, .single 6 6 0 0 false 1 31, .interval 9 11 1 9 0]
      (by decide) (by decide)
      (.cons (by decide!) (.cons (by decide!) (.cons (by decide!) .nil))) (by decide!),
    by decide!, by decide!⟩

/-! ## Values outside of the bounds -/

theorem Strconv.Atoi_ok_no_sep (x : List Char) (n : Int) (h : Strconv.Atoi x = .ok n) :
    '/' ∉ x ∧ ';' ∉ x := by
  obtain ⟨h1, h2⟩ := Strconv.Atoi_ok_chars x n h
  cases x with
  | nil => simp
  | cons c cs =>
    have ht : ∀ d ∈ cs, 48 ≤ d.toNat ∧ d.toNat ≤ 57 := h1
    have hc := h2 c cs rfl
    constructor
    · intro hm
      rcases List.mem_cons.1 hm with e | e
      · rcases hc with ⟨hc, _⟩ | hc | hc
        · subst hc; revert e; decide
        · subst hc; revert e; decide
        · rw [← e] at hc; revert hc; decide
      · have := ht _ e; revert this; decide
    · intro hm
      rcases List.mem_cons.1 hm with e | e
      · rcases hc with ⟨hc, _⟩ | hc | hc
        · subst hc; revert e; decide
        · subst hc; revert e; decide
        · rw [← e] at hc; revert hc; decide
      · have := ht _ e; revert this; decide

theorem Term.text_no_sep (names : List (List Char)) : ∀ t : Term, t.wellFormed names →
    ';' ∉ t.text
  | .star none, _ => by simp [Term.text]
  | .star (some s), ⟨⟨S, hS⟩, _⟩ => by
    have := (Strconv.Atoi_ok_no_sep s S hS).2
    simp [Term.text, this]
  | .value tok none, h => by
    simpa [Term.text] using h.2.2.2.2.1
  | .value tok (some s), ⟨h, ⟨S, hS⟩, _⟩ => by
    have := (Strconv.Atoi_ok_no_sep s S hS).2
    have h1 := h.2.2.2.2.1
    simp [Term.text, this, h1]
  | .range a b none, ⟨ha, hb⟩ => by
    have h1 := ha.2.2.2.2.1
    have h2 := hb.2.2.2.2.1
    simp [Term.text, h1, h2]
  | .range a b (some s), ⟨ha, hb, ⟨S, hS⟩⟩ => by
    have := (Strconv.Atoi_ok_no_sep s S hS).2
    have h1 := ha.2.2.2.2.1
    have h2 := hb.2.2.2.2.1
    simp [Term.text, this, h1, h2]

/-- How `parse` reads a well-formed term. -/
theorem Term.parse_text (names : List (List Char)) (min max : Int) : ∀ t : Term,
    t.wellFormed names →
    parse t.text min max names = match t with
      | .star none => createSingle ['*'] [] names min max
      | .star (some s) => createSingle ['*'] s names min max
      | .value tok none => createSingle tok [] names min max
      | .value tok (some s) => createSingle tok s names min max
      | .range a b none => createInterval a b [] names min max
      | .range a b (some s) => createInterval a b s names min max
  | .star none, _ => parse_value ['*'] min max names (by decide) (by decide) (by decide)
  | .star (some s), ⟨_, hs⟩ =>
    parse_value_step ['*'] s min max names (by decide) (by decide) hs
  | .value tok none, h => parse_value tok min max names h.1 h.2.2.1 h.2.2.2.1
  | .value tok (some s), ⟨h, _, hs⟩ =>
    parse_value_step tok s min max names h.2.2.1 h.2.2.2.1 hs
  | .range a b none, ⟨ha, hb⟩ => parse_range a b min max names ha.2.2.1 hb.2.2.2.1
  | .range a b (some s), ⟨ha, hb, _⟩ =>
    parse_range_step a b s min max names ha.2.2.1 hb.2.2.2.1

theorem atoi_pair (names : List (List Char)) (tok : List Char)
    (h : (atoi tok names).2 = none) : atoi tok names = ((atoi tok names).1, none) := by
  rw [← h]

theorem createSingleStep_value (names : List (List Char)) (min max s : Int) (tok : List Char)
    (h : okToken names tok) :
    (¬ outside names min max tok → ∃ e, createSingleStep tok s names min max = .ok e)
    ∧ (outside names min max tok →
        createSingleStep tok s names min max = .error (.range tok min max)) := by
  have ha := atoi_pair names tok h.2.2.2.2.2
  unfold outside
  constructor
  · intro ho
    refine ⟨(Single (atoi tok names).1 min max).By s, ?_⟩
    unfold createSingleStep
    rw [if_neg h.2.1, ha]
    simp only []
    rw [if_neg (by omega)]
  · intro ho
    unfold createSingleStep
    rw [if_neg h.2.1, ha]
    simp only []
    rw [if_pos (by omega)]
    rfl

theorem createSingle_okStep (names : List (List Char)) (min max : Int) (tok s : List Char)
    (hs : okStep s) : ∃ S, createSingle tok s names min max
      = createSingleStep tok S names min max := by
  obtain ⟨S, hS⟩ := hs
  exact ⟨S, by simp [createSingle, hS]⟩

theorem createSingle_noStep (names : List (List Char)) (min max : Int) (tok : List Char) :
    createSingle tok [] names min max = createSingleStep tok 0 names min max := by
  have e : Strconv.Atoi [] = .error (.num [] false) := by decide
  simp [createSingle, e]

theorem createInterval_tokens (names : List (List Char)) (min max : Int)
    (a b s : List Char) (ha : okToken names a) (hb : okToken names b)
    (hs : s = [] ∨ okStep s) :
    (¬ outside names min max a → ¬ outside names min max b →
        ∃ e, createInterval a b s names min max = .ok e)
    ∧ (outside names min max a →
        createInterval a b s names min max = .error (.range a min max))
    ∧ (¬ outside names min max a → outside names min max b →
        createInterval a b s names min max = .error (.range b min max)) := by
  have ea := atoi_pair names a ha.2.2.2.2.2
  have eb := atoi_pair names b hb.2.2.2.2.2
  have hstep : ∃ S, (if s ≠ [] then Strconv.Atoi s else .ok 1) = .ok S := by
    rcases hs with h | ⟨S, hS⟩
    · subst h; exact ⟨1, by simp⟩
    · by_cases h0 : s = []
      · subst h0; exact ⟨1, by simp⟩
      · exact ⟨S, by simp [h0, hS]⟩
  obtain ⟨S, hS⟩ := hstep
  unfold outside
  refine ⟨?_, ?_, ?_⟩
  · intro h1 h2
    refine ⟨(Interval (atoi a names).1 (atoi b names).1 min max).By S, ?_⟩
    unfold createInterval
    rw [ea, eb]
    simp only [hS, hasError]
    rw [if_neg (by omega), if_neg (by omega)]
  · intro h1
    unfold createInterval
    rw [ea, eb]
    simp only [hS]
    rw [if_pos (by omega)]
    rfl
  · intro h1 h2
    unfold createInterval
    rw [ea, eb]
    simp only [hS]
    rw [if_neg (by omega), if_pos (by omega)]
    rfl

theorem createSingleStep_star (names : List (List Char)) (min max s : Int) :
    ∃ e, createSingleStep ['*'] s names min max = .ok e := by
  unfold createSingleStep
  rw [if_pos rfl]
  exact ⟨_, rfl⟩

/-- A well-formed term parses when its tokens resolve within the bounds, and
fails with the error wrapping `ErrRange`, for a token that resolves outside of
them, otherwise. -/
theorem Term.parse_cases (names : List (List Char)) (min max : Int) : ∀ t : Term,
    t.wellFormed names →
    ((∀ tok ∈ t.tokens, ¬ outside names min max tok) →
        ∃ e, parse t.text min max names = .ok e)
    ∧ ((∃ tok ∈ t.tokens, outside names min max tok) →
        ∃ tok ∈ t.tokens, outside names min max tok
          ∧ parse t.text min max names = .error (.range tok min max))
  | .star none, h => by
    rw [Term.parse_text names min max _ h]
    simp only [createSingle_noStep, Term.tokens, List.not_mem_nil, false_and, exists_false,
      false_implies, and_true]
    exact fun _ => createSingleStep_star names min max 0
  | .star (some s), h => by
    rw [Term.parse_text names min max _ h]
    obtain ⟨S, hS⟩ := createSingle_okStep names min max ['*'] s h.1
    simp only [hS, Term.tokens, List.not_mem_nil, false_and, exists_false,
      false_implies, and_true]
    exact fun _ => createSingleStep_star names min max S
  | .value tok none, h => by
    rw [Term.parse_text names min max _ h]
    simp only [createSingle_noStep, Term.tokens, List.mem_singleton, forall_eq, exists_eq_left]
    obtain ⟨h1, h2⟩ := createSingleStep_value names min max 0 tok h
    exact ⟨h1, fun ho => ⟨ho, h2 ho⟩⟩
  | .value tok (some s), h => by
    rw [Term.parse_text names min max _ h]
    obtain ⟨S, hS⟩ := createSingle_okStep names min max tok s h.2.1
    simp only [hS, Term.tokens, List.mem_singleton, forall_eq, exists_eq_left]
    obtain ⟨h1, h2⟩ := createSingleStep_value names min max S tok h.1
    exact ⟨h1, fun ho => ⟨ho, h2 ho⟩⟩
  | .range a b none, h => by
    rw [Term.parse_text names min max _ h]
    obtain ⟨h1, h2, h3⟩ := createInterval_tokens names min max a b [] h.1 h.2 (Or.inl rfl)
    simp only [Term.tokens, List.mem_cons, List.mem_singleton, forall_eq_or_imp, forall_eq,
      List.not_mem_nil, false_implies, implies_true, and_true, exists_eq_or_imp,
      exists_eq_left, or_false]
    refine ⟨fun ⟨ha, hb⟩ => h1 ha hb, ?_⟩
    intro ho
    by_cases ha : outside names min max a
    · exact Or.inl ⟨ha, h2 ha⟩
    · rcases ho with ho | ho
      · exact absurd ho ha
      · exact Or.inr ⟨ho, h3 ha ho⟩
  | .range a b (some s), h => by
    rw [Term.parse_text names min max _ h]
    obtain ⟨h1, h2, h3⟩ := createInterval_tokens names min max a b s h.1 h.2.1 (Or.inr h.2.2)
    simp only [Term.tokens, List.mem_cons, List.mem_singleton, forall_eq_or_imp, forall_eq,
      List.not_mem_nil, false_implies, implies_true, and_true, exists_eq_or_imp,
      exists_eq_left, or_false]
    refine ⟨fun ⟨ha, hb⟩ => h1 ha hb, ?_⟩
    intro ho
    by_cases ha : outside names min max a
    · exact Or.inl ⟨ha, h2 ha⟩
    · rcases ho with ho | ho
      · exact absurd ho ha
      · exact Or.inr ⟨ho, h3 ha ho⟩

theorem Cut_joinTerms (x : List Char) (rest : List (List Char)) (h : ';' ∉ x) :
    Strings.Cut (joinTerms (x :: rest)) Separator = (x, joinTerms rest, !rest.isEmpty) := by
  cases rest with
  | nil => simpa [joinTerms, Separator] using Strings.Cut_none ';' x h
  | cons y ys =>
    rw [joinTerms_cons]
    simpa [Separator] using Strings.Cut_append ';' x (joinTerms (y :: ys)) h

/-- The loop of `Parse` on well-formed terms one of which has a token that
resolves outside of the bounds: the error wrapping `ErrRange`, for such a
token. -/
theorem parseLoop_outside (names : List (List Char)) (min max : Int) :
    ∀ (terms : List Term) (fuel : Nat) (acc : List Ticker),
    (∀ t ∈ terms, t.wellFormed names) →
    (∃ t ∈ terms, ∃ tok ∈ t.tokens, outside names min max tok) →
    terms.length ≤ fuel →
    ∃ t ∈ terms, ∃ tok ∈ t.tokens, outside names min max tok
      ∧ parseLoop fuel (joinTerms (terms.map Term.text)) min max names acc
        = .error (.range tok min max)
  | [], _, _, _, ho, _ => by simp at ho
  | t :: ts, fuel, acc, hw, ho, hf => by
    obtain ⟨n, rfl⟩ : ∃ n, fuel = n + 1 := ⟨fuel - 1, by simp at hf; omega⟩
    have hwt := hw t (List.mem_cons_self _ _)
    have hc := Cut_joinTerms t.text (ts.map Term.text) (Term.text_no_sep names t hwt)
    obtain ⟨p1, p2⟩ := Term.parse_cases names min max t hwt
    by_cases h : ∃ tok ∈ t.tokens, outside names min max tok
    · obtain ⟨tok, ht, ho1, hp⟩ := p2 h
      refine ⟨t, List.mem_cons_self _ _, tok, ht, ho1, ?_⟩
      simp only [List.map_cons, parseLoop, hc, hp]
    · have hall : ∀ tok ∈ t.tokens, ¬ outside names min max tok :=
        fun tok ht ho => h ⟨tok, ht, ho⟩
      obtain ⟨e, he⟩ := p1 hall
      have ho2 : ∃ t ∈ ts, ∃ tok ∈ t.tokens, outside names min max tok := by
        obtain ⟨t', ht', tok, htok, hout⟩ := ho
        rcases List.mem_cons.1 ht' with e1 | e1
        · subst e1; exact absurd ⟨tok, htok, hout⟩ h
        · exact ⟨t', e1, tok, htok, hout⟩
      have hne : ts ≠ [] := by
        obtain ⟨t', ht', _⟩ := ho2
        exact List.ne_nil_of_mem ht'
      obtain ⟨t', ht', tok, htok, hout, hp⟩ := parseLoop_outside names min max ts n (acc ++ [e])
        (fun t ht => hw t (List.mem_cons_of_mem _ ht)) ho2 (by simp at hf; omega)
      refine ⟨t', List.mem_cons_of_mem _ ht', tok, htok, hout, ?_⟩
      have hemp : (List.map Term.text ts).isEmpty = false := by
        cases ts with
        | nil => exact absurd rfl hne
        | cons _ _ => rfl
      simp only [List.map_cons, parseLoop, hc, he, hemp, Bool.not_false, Bool.not_true,
        Bool.false_eq_true, if_false]
      exact hp

/-! ## Claim C13 -/

/-- C13 (as stated, refuted): the single value 70 with the step `-1`, both
numbers, 70 lying outside of [0, 59], and the single value `-1`, a number
below 0: `parse` cuts a term at its first `-`, reads the two texts as ranges
whose first ends are `70/` and the empty text, and `Parse` fails with the
error wrapping `ErrInvalid`, not with the one wrapping `ErrRange`. -/
theorem Parse_minus_not_range_error :
    atoi ['7', '0'] [] = (70, none)
    ∧ Strconv.Atoi ['-', '1'] = .ok (-1)
    ∧ Parse "70/-1" 0 59 [] = .error (.invalid ['7', '0', '/'])
    ∧ atoi ['-', '1'] [] = (-1, none)
    ∧ Parse "-1" 0 59 [] = .error (.invalid []) := by
  decide!

/-- C13 (amended): for an expression of well-formed terms (tokens that are
numbers or names of the table and hold no `-`, steps that are numbers, without
the sign `-` after `*` or a single value) and any bounds: if a single value
or an end of a range resolves outside of `[min, max]`, `Parse` fails with the
error that wraps `ErrRange`, for such a token and these bounds; hence, when
`Parse` succeeds, every single value and every end of a range resolves within
`[min, max]`. -/
theorem Parse_range_error (names : List (List Char)) (min max : Int) (terms : List Term)
    (hw : ∀ t ∈ terms, t.wellFormed names) :
    ((∃ t ∈ terms, ∃ tok ∈ t.tokens, outside names min max tok) →
      ∃ t ∈ terms, ∃ tok ∈ t.tokens, outside names min max tok
        ∧ Parse (String.mk (joinTerms (terms.map Term.text))) min max names
          = .error (.range tok min max))
    ∧ (∀ it, Parse (String.mk (joinTerms (terms.map Term.text))) min max names = .ok it →
        ∀ t ∈ terms, ∀ tok ∈ t.tokens,
          min ≤ (atoi tok names).1 ∧ (atoi tok names).1 ≤ max) := by
  have key : (∃ t ∈ terms, ∃ tok ∈ t.tokens, outside names min max tok) →
      ∃ t ∈ terms, ∃ tok ∈ t.tokens, outside names min max tok
        ∧ Parse (String.mk (joinTerms (terms.map Term.text))) min max names
          = .error (.range tok min max) := by
    intro ho
    have hlen : terms.length ≤ (joinTerms (terms.map Term.text)).length + 1 := by
      have := joinTerms_length (terms.map Term.text)
      simpa using this
    obtain ⟨t, ht, tok, htok, hout, hp⟩ := parseLoop_outside names min max terms
      ((joinTerms (terms.map Term.text)).length + 1) [] hw ho hlen
    refine ⟨t, ht, tok, htok, hout, ?_⟩
    unfold Parse
    rw [show (String.mk (joinTerms (terms.map Term.text))).toList
      = joinTerms (terms.map Term.text) from rfl, hp]
  refine ⟨key, ?_⟩
  intro it hit t ht tok htok
  by_contra hcon
  have ho : outside names min max tok := by
    unfold outside
    omega
  obtain ⟨_, _, _, _, _, hp⟩ := key ⟨t, ht, tok, htok, ho⟩
  rw [hp] at hit
  cases hit

theorem okToken_intro (names : List (List Char)) (tok : List Char) (h1 : tok ≠ [])
    (h2 : tok ≠ ['*']) (h3 : '-' ∉ tok) (h4 : '/' ∉ tok) (h5 : ';' ∉ tok)
    (h6 : (atoi tok names).2 = none) : okToken names tok :=
  ⟨h1, h2, h3, h4, h5, h6⟩

/-- C13 (amended), at the month expression `jan-mar;13/2`: its terms are
well formed, 13 lies outside of [1, 12], and `Parse` fails with the error
wrapping `ErrRange` for `13`. -/
theorem Parse_range_error_witness :
    (∀ t ∈ [Term.range ['j', 'a', 'n'] ['m', 'a', 'r'] none, Term.value ['1', '3'] (some ['2'])],
      t.wellFormed monthnames)
    ∧ (((∃ t ∈ [Term.range ['j', 'a', 'n'] ['m', 'a', 'r'] none, Term.value ['1', '3'] (some ['2'])],
          ∃ tok ∈ t.tokens, outside monthnames 1 12 tok) →
        ∃ t ∈ [Term.range ['j', 'a', 'n'] ['m', 'a', 'r'] none, Term.value ['1', '3'] (some ['2'])],
          ∃ tok ∈ t.tokens, outside monthnames 1 12 tok
          ∧ Parse (String.mk (joinTerms (List.map Term.text
              [Term.range ['j', 'a', 'n'] ['m', 'a', 'r'] none, Term.value ['1', '3'] (some ['2'])])))
              1 12 monthnames = .error (.range tok 1 12))
      ∧ (∀ it, Parse (String.mk (joinTerms (List.map Term.text
            [Term.range ['j', 'a', 'n'] ['m', 'a', 'r'] none, Term.value ['1', '3'] (some ['2'])])))
            1 12 monthnames = .ok it →
          ∀ t ∈ [Term.range ['j', 'a', 'n'] ['m', 'a', 'r'] none, Term.value ['1', '3'] (some ['2'])],
            ∀ tok ∈ t.tokens,
              1 ≤ (atoi tok monthnames).1 ∧ (atoi tok monthnames).1 ≤ 12))
    ∧ String.mk (joinTerms (List.map Term.text
        [Term.range ['j', 'a', 'n'] ['m', 'a', 'r'] none, Term.value ['1', '3'] (some ['2'])]))
      = "jan-mar;13/2"
    ∧ Parse "jan-mar;13/2" 1 12 monthnames = .error (.range ['1', '3'] 1 12) := by
  have hw : ∀ t ∈ [Term.range ['j', 'a', 'n'] ['m', 'a', 'r'] none, Term.value ['1', '3'] (some ['2'])],
      t.wellFormed monthnames := by
    intro t ht
    simp only [List.mem_cons, List.mem_singleton, List.not_mem_nil, or_false] at ht
    rcases ht with rfl | rfl
    · exact ⟨okToken_intro _ _ (by decide) (by decide) (by decide) (by decide) (by decide)
        (by decide!), okToken_intro _ _ (by decide) (by decide) (by decide) (by decide)
        (by decide) (by decide!)⟩
    · exact ⟨okToken_intro _ _ (by decide) (by decide) (by decide) (by decide) (by decide)
        (by decide!), ⟨2, by decide!⟩, by decide⟩
  exact ⟨hw, Parse_range_error monthnames 1 12 _ hw, by decide!, by decide!⟩

/-! ## Claim C21 -/

/-- The hour, minute and second of a date built with an hour and a minute
within their ranges and no seconds. -/
theorem Time.clock_of_Date (y m d h mi : Int) (hh1 : 0 ≤ h) (hh2 : h ≤ 23) (hmi1 : 0 ≤ mi)
    (hmi2 : mi ≤ 59) :
    Hour (Date y m d h mi 0) = h ∧ Minute (Date y m d h mi 0) = mi
    ∧ Second (Date y m d h mi 0) = 0 := by
  unfold Hour Minute Second Date
  simp only []
  generalize daysBeforeYear (y + (m - 1) / 12)
    + daysBeforeMonth ((m - 1) % 12) (isLeapYear (y + (m - 1) / 12)) + (d - 1) = D
  refine ⟨?_, ?_, ?_⟩ <;> omega

/-- The leap rule of `isLeap`: divisible by 4 and by 100 and by 400. -/
theorem isLeap_iff (y : Int) : isLeap y = true ↔ (4 ∣ y ∧ 100 ∣ y ∧ 400 ∣ y) := by
  unfold isLeap
  simp only [Bool.and_eq_true, beq_iff_eq]
  constructor
  · rintro ⟨⟨h1, h2⟩, h3⟩
    exact ⟨Int.dvd_of_tmod_eq_zero h1, Int.dvd_of_tmod_eq_zero h2, Int.dvd_of_tmod_eq_zero h3⟩
  · rintro ⟨h1, h2, h3⟩
    exact ⟨⟨Int.tmod_eq_zero_of_dvd h1, Int.tmod_eq_zero_of_dvd h2⟩,
      Int.tmod_eq_zero_of_dvd h3⟩

/-- The number of days that `get` reads from the table `days`, with the day
that it adds for February, is the length of the month. -/
theorem days_monthLength (y m : Int) (h1 : 1 ≤ m) (h2 : m ≤ 12) :
    (if (m == 2 && isLeap y) = true then days.getD (m - 1).toNat 0 + 1
      else days.getD (m - 1).toNat 0) = monthLength y m := by
  unfold monthLength
  cases isLeap y <;> interval_cases m <;> simp [days]

/-- C21 (as stated, refuted): two states that the scheduler reaches.  After
`Reset` and one call of `Next` on the schedule whose minute is the range
`0-59` with the step `-1`, the minute iterator stands at `-1` and `get`
returns 2021-12-31 23:59:00, whose year, month, day, hour and minute are not
the anchor's year 2022 and the values 1, 1, 0 and `-1` of the iterators.  After
`Reset` on the schedule `0 0 1 M *` with `M` the range `1-12` with the step
`-1`, the first `carry` of `next` brings the month iterator to 0, and `get`
neither reports an invalid date nor returns a time: the index of `days` is out
of range. -/
theorem get_outside_bounds :
    parseFields "0-59/-1" "*" "*" "*" "*" = .ok
      ⟨.interval 0 59 (-1) 0 0, .single 0 0 0 1 true 0 23, .single 1 1 0 1 true 1 31,
        .single 1 1 0 1 true 1 12, .single 1 1 0 1 true 1 7, -62135596800⟩
    ∧ applyCalls 10 [.reset 1640995200, .next]
        ⟨.interval 0 59 (-1) 0 0, .single 0 0 0 1 true 0 23, .single 1 1 0 1 true 1 31,
          .single 1 1 0 1 true 1 12, .single 1 1 0 1 true 1 7, -62135596800⟩
      = .ok ⟨.interval 0 59 (-1) (-1) 0, .single 0 0 0 1 true 0 23,
          .single 1 1 0 1 true 1 31, .single 1 1 0 1 true 1 12, .single 1 7 6 1 true 1 7,
          1672531140⟩
    ∧ Scheduler.get ⟨.interval 0 59 (-1) (-1) 0, .single 0 0 0 1 true 0 23,
          .single 1 1 0 1 true 1 31, .single 1 1 0 1 true 1 12, .single 1 7 6 1 true 1 7,
          1672531140⟩
      = .ok (1640995140, true)
    ∧ Year 1672531140 = 2022 ∧ Year 1640995140 = 2021 ∧ Month 1640995140 = 12
    ∧ Day 1640995140 = 31 ∧ Hour 1640995140 = 23 ∧ Minute 1640995140 = 59
    ∧ parseFields "0" "0" "1" "1-12/-1" "*" = .ok
      ⟨.single 0 0 0 0 false 0 59, .single 0 0 0 0 false 0 23, .single 1 1 0 0 false 1 31,
        .interval 1 12 (-1) 1 0, .single 1 1 0 1 true 1 7, -62135596800⟩
    ∧ applyCalls 10 [.reset 1640995200]
        ⟨.single 0 0 0 0 false 0 59, .single 0 0 0 0 false 0 23, .single 1 1 0 0 false 1 31,
          .interval 1 12 (-1) 1 0, .single 1 1 0 1 true 1 7, -62135596800⟩
      = .ok ⟨.single 0 0 0 0 false 0 59, .single 0 0 0 0 false 0 23,
          .single 1 1 0 0 false 1 31, .interval 1 12 (-1) 1 0, .single 1 7 6 1 true 1 7,
          1640995200⟩
    ∧ Scheduler.carry ⟨.single 0 0 0 0 false 0 59, .single 0 0 0 0 false 0 23,
          .single 1 1 0 0 false 1 31, .interval 1 12 (-1) 1 0, .single 1 7 6 1 true 1 7,
          1640995200⟩
      = ⟨.single 0 0 0 0 false 0 59, .single 0 0 0 0 false 0 23,
          .single 1 1 0 0 false 1 31, .interval 1 12 (-1) 0 1, .single 1 7 6 1 true 1 7,
          1640995200⟩
    ∧ Scheduler.get ⟨.single 0 0 0 0 false 0 59, .single 0 0 0 0 false 0 23,
          .single 1 1 0 0 false 1 31, .interval 1 12 (-1) 0 1, .single 1 7 6 1 true 1 7,
          1640995200⟩
      = .error Fault.index := by
  decide!

/-- C21 (amended): in a state whose minute, hour, day and month iterators
stand within the bounds of their fields, `get` reports the candidate invalid,
returning the anchor, exactly when the value of the day iterator exceeds the
length of the month (28 for February, 29 when `isLeap` of the anchor's year,
which holds when the year is divisible by 4, by 100 and by 400); otherwise it
returns the time whose year is the anchor's year, whose month, day, hour and
minute are the values of the iterators and whose seconds are zero. -/
theorem get_spec (s : Scheduler) (hmi1 : 0 ≤ s.min.Curr) (hmi2 : s.min.Curr ≤ 59)
    (hh1 : 0 ≤ s.hour.Curr) (hh2 : s.hour.Curr ≤ 23) (hd1 : 1 ≤ s.day.Curr)
    (hm1 : 1 ≤ s.month.Curr) (hm2 : s.month.Curr ≤ 12) :
    (∀ y, isLeap y = true ↔ (4 ∣ y ∧ 100 ∣ y ∧ 400 ∣ y))
    ∧ (monthLength (Year s.when) s.month.Curr < s.day.Curr →
        s.get = .ok (s.when, false))
    ∧ (s.day.Curr ≤ monthLength (Year s.when) s.month.Curr →
        ∃ w, s.get = .ok (w, true) ∧ Year w = Year s.when ∧ Month w = s.month.Curr
          ∧ Day w = s.day.Curr ∧ Hour w = s.hour.Curr ∧ Minute w = s.min.Curr
          ∧ Second w = 0) := by
  have hlen := days_monthLength (Year s.when) s.month.Curr hm1 hm2
  have hle := days_le_month (Year s.when) s.month.Curr hm1 hm2
  refine ⟨isLeap_iff, ?_, ?_⟩
  · intro h
    unfold Scheduler.get
    simp only []
    rw [if_neg (by omega), hlen, if_pos (by omega)]
  · intro h
    refine ⟨Date (Year s.when) s.month.Curr s.day.Curr s.hour.Curr s.min.Curr 0, ?_, ?_⟩
    · unfold Scheduler.get
      simp only []
      rw [if_neg (by omega), hlen, if_neg (by omega)]
    · have hd2 : s.day.Curr ≤ daysBeforeMonth s.month.Curr (isLeapYear (Year s.when))
          - daysBeforeMonth (s.month.Curr - 1) (isLeapYear (Year s.when)) := by
        have e : days.getD (s.month.Curr - 1).toNat 0
            + (if (s.month.Curr == 2 && isLeap (Year s.when)) = true then 1 else 0)
            = monthLength (Year s.when) s.month.Curr := by
          rw [← hlen]
          split <;> simp
        omega
      have f := fields_of_Date (Year s.when) s.month.Curr s.day.Curr s.hour.Curr s.min.Curr
        hm1 hm2 hd1 hd2 hh1 hh2 hmi1 hmi2
      have g := Time.clock_of_Date (Year s.when) s.month.Curr s.day.Curr s.hour.Curr
        s.min.Curr hh1 hh2 hmi1 hmi2
      exact ⟨f.1, f.2.1, f.2.2, g.1, g.2.1, g.2.2⟩

/-- C21 (amended), at the scheduler of `*/5 10 * 3-4 *` with the anchor
2022-03-01 10:00:00, for which `get` returns that time; February has 28 days
in 2024 and 29 in 2000. -/
theorem get_spec_witness :
    ((∀ y, isLeap y = true ↔ (4 ∣ y ∧ 100 ∣ y ∧ 400 ∣ y))
    ∧ (monthLength (Year (Scheduler.when ⟨.single 0 0 0 5 true 0 59, .single 10 10 0 0 false 0 23,
        .single 1 1 0 1 true 1 31, .interval 3 4 1 3 0, .single 1 7 6 1 true 1 7, 1646128800⟩))
          (Scheduler.month ⟨.single 0 0 0 5 true 0 59, .single 10 10 0 0 false 0 23,
        .single 1 1 0 1 true 1 31, .interval 3 4 1 3 0, .single 1 7 6 1 true 1 7, 1646128800⟩).Curr
        < (Scheduler.day ⟨.single 0 0 0 5 true 0 59, .single 10 10 0 0 false 0 23,
        .single 1 1 0 1 true 1 31, .interval 3 4 1 3 0, .single 1 7 6 1 true 1 7, 1646128800⟩).Curr →
        Scheduler.get ⟨.single 0 0 0 5 true 0 59, .single 10 10 0 0 false 0 23,
        .single 1 1 0 1 true 1 31, .interval 3 4 1 3 0, .single 1 7 6 1 true 1 7, 1646128800⟩
          = .ok (Scheduler.when ⟨.single 0 0 0 5 true 0 59, .single 10 10 0 0 false 0 23,
        .single 1 1 0 1 true 1 31, .interval 3 4 1 3 0, .single 1 7 6 1 true 1 7, 1646128800⟩, false))
    ∧ ((Scheduler.day ⟨.single 0 0 0 5 true 0 59, .single 10 10 0 0 false 0 23,
        .single 1 1 0 1 true 1 31, .interval 3 4 1 3 0, .single 1 7 6 1 true 1 7, 1646128800⟩).Curr
        ≤ monthLength (Year (Scheduler.when ⟨.single 0 0 0 5 true 0 59, .single 10 10 0 0 false 0 23,
        .single 1 1 0 1 true 1 31, .interval 3 4 1 3 0, .single 1 7 6 1 true 1 7, 1646128800⟩))
          (Scheduler.month ⟨.single 0 0 0 5 true 0 59, .single 10 10 0 0 false 0 23,
        .single 1 1 0 1 true 1 31, .interval 3 4 1 3 0, .single 1 7 6 1 true 1 7, 1646128800⟩).Curr →
        ∃ w, Scheduler.get ⟨.single 0 0 0 5 true 0 59, .single 10 10 0 0 false 0 23,
        .single 1 1 0 1 true 1 31, .interval 3 4 1 3 0, .single 1 7 6 1 true 1 7, 1646128800⟩ = .ok (w, true)
          ∧ Year w = Year (Scheduler.when ⟨.single 0 0 0 5 true 0 59, .single 10 10 0 0 false 0 23,
        .single 1 1 0 1 true 1 31, .interval 3 4 1 3 0, .single 1 7 6 1 true 1 7, 1646128800⟩)
          ∧ Month w = (Scheduler.month ⟨.single 0 0 0 5 true 0 59, .single 10 10 0 0 false 0 23,
        .single 1 1 0 1 true 1 31, .interval 3 4 1 3 0, .single 1 7 6 1 true 1 7, 1646128800⟩).Curr
          ∧ Day w = (Scheduler.day ⟨.single 0 0 0 5 true 0 59, .single 10 10 0 0 false 0 23,
        .single 1 1 0 1 true 1 31, .interval 3 4 1 3 0, .single 1 7 6 1 true 1 7, 1646128800⟩).Curr
          ∧ Hour w = (Scheduler.hour ⟨.single 0 0 0 5 true 0 59, .single 10 10 0 0 false 0 23,
        .single 1 1 0 1 true 1 31, .interval 3 4 1 3 0, .single 1 7 6 1 true 1 7, 1646128800⟩).Curr
          ∧ Minute w = (Scheduler.min ⟨.single 0 0 0 5 true 0 59, .single 10 10 0 0 false 0 23,
        .single 1 1 0 1 true 1 31, .interval 3 4 1 3 0, .single 1 7 6 1 true 1 7, 1646128800⟩).Curr
          ∧ Second w = 0))
    ∧ Scheduler.get ⟨.single 0 0 0 5 true 0 59, .single 10 10 0 0 false 0 23,
        .single 1 1 0 1 true 1 31, .interval 3 4 1 3 0, .single 1 7 6 1 true 1 7, 1646128800⟩ = .ok (1646128800, true)
    ∧ monthLength 2024 2 = 28 ∧ monthLength 2000 2 = 29 ∧ monthLength 2022 3 = 31 :=
  ⟨get_spec ⟨.single 0 0 0 5 true 0 59, .single 10 10 0 0 false 0 23,
        .single 1 1 0 1 true 1 31, .interval 3 4 1 3 0, .single 1 7 6 1 true 1 7, 1646128800⟩
      (by decide) (by decide) (by decide) (by decide) (by decide) (by decide) (by decide),
    by decide!, by decide, by decide, by decide⟩

end Cron
